import Mathlib

/-!
Verification of the nested-type shredding and assembly engine specified for
the parquet-swift repository.  The repository itself contains only the Python
fixture generators that exercise the engine; the engine (schema tree, level
calculus, shredder, assembler) is specified in spec.md but its code is not in
the repository, so the definitions below are modelled from the specification.
The plain-fixture generator `generate_plain_fixture.py` is present in the
repository and is embedded directly at the end of the file.

Repetition kinds are carried as raw `Nat` codes matching the Parquet Thrift
enumeration: 0 = Required, 1 = Optional, 2 = Repeated; any other code is an
unrecognized repetition kind.
-/

namespace Parquet

/-- Physical primitive types of leaf columns. -/
inductive PrimType where
  | int32
  | int64
  | float
  | double
  | byteArray
deriving DecidableEq, Repr

/-- Decoded primitive scalar values (value bytes are assumed already decoded). -/
inductive PrimVal where
  | intV (i : Int)
  | floatV (q : Rat)
  | strV (s : String)
deriving DecidableEq, Repr

/-- Whether a decoded scalar is of a given physical type. -/
def primMatches : PrimType → PrimVal → Bool
  | .int32, .intV _ => true
  | .int64, .intV _ => true
  | .float, .floatV _ => true
  | .double, .floatV _ => true
  | .byteArray, .strV _ => true
  | _, _ => false

/-- Modelled from the spec: `LeafTriple`, the per-leaf unit
`(repetitionLevel, definitionLevel, value-or-absent)` produced by the Shredder
and consumed by the Assembler (the engine itself is not part of the repository
sources). -/
structure LeafTriple where
  repetitionLevel : Nat
  definitionLevel : Nat
  value : Option PrimVal
deriving DecidableEq, Repr

instance [DecidableEq e] [DecidableEq a] : DecidableEq (Except e a) := fun x y =>
  match x, y with
  | .ok u, .ok v => if h : u = v then .isTrue (by rw [h]) else .isFalse (by simp [h])
  | .error u, .error v => if h : u = v then .isTrue (by rw [h]) else .isFalse (by simp [h])
  | .ok _, .error _ => .isFalse (by simp)
  | .error _, .ok _ => .isFalse (by simp)

/-- Node kinds of the schema tree. -/
inductive Kind where
  | primitive (t : PrimType)
  | listKind
  | mapKind
  | structKind
deriving DecidableEq, Repr

mutual
/-- Modelled from the spec: `SchemaNode` — kind, repetition code, and an
ordered sequence of named children (empty for primitives, one synthetic
`element` child for lists, one synthetic `key_value` group holding `key` and
`value` for maps, named fields for structs).  The schema-tree component of the
engine is absent from the repository sources. -/
inductive SchemaNode where
  | mk (kind : Kind) (repetition : Nat) (children : Children)
deriving DecidableEq, Repr
/-- Ordered named children of a schema node. -/
inductive Children where
  | nil
  | cons (name : String) (node : SchemaNode) (rest : Children)
deriving DecidableEq, Repr
end

def SchemaNode.kind : SchemaNode → Kind
  | .mk k _ _ => k

def SchemaNode.repetition : SchemaNode → Nat
  | .mk _ r _ => r

def SchemaNode.children : SchemaNode → Children
  | .mk _ _ cs => cs

/-- Definition-level contribution of one node: Optional and Repeated nodes
(any node whose presence is not guaranteed) count one. -/
def defInc (rep : Nat) : Nat := if rep = 0 then 0 else 1

/-- Repetition-level contribution of one node: Repeated nodes count one. -/
def repInc (rep : Nat) : Nat := if rep = 2 then 1 else 0

/-- The non-recursive shape constraint a kind places on its children:
primitives are childless, a List has exactly one synthetic Repeated `element`
child, a Map has exactly one synthetic Repeated `key_value` group holding
exactly a non-Repeated key and a value, and structs have at least one field. -/
def kindShapeOK : Kind → Children → Bool
  | .primitive _, .nil => true
  | .primitive _, _ => false
  | .listKind, .cons _ e .nil => e.repetition == 2
  | .listKind, _ => false
  | .mapKind, .cons _ (.mk .structKind kvrep (.cons _ k (.cons _ _ .nil))) .nil =>
      kvrep == 2 && k.repetition != 2
  | .mapKind, _ => false
  | .structKind, .cons _ _ _ => true
  | .structKind, .nil => false

mutual
/-- Modelled from the spec: well-formedness of a schema tree — every node has
a recognized repetition code and the child shape its kind demands. -/
def wellFormed : SchemaNode → Bool
  | .mk k rep cs => rep ≤ 2 && kindShapeOK k cs && wellFormedC cs
def wellFormedC : Children → Bool
  | .nil => true
  | .cons _ n rest => wellFormed n && wellFormedC rest
end

mutual
/-- Number of primitive leaves beneath a node (the node included if primitive). -/
def leafCount : SchemaNode → Nat
  | .mk (.primitive _) _ _ => 1
  | .mk _ _ cs => leafCountC cs
def leafCountC : Children → Nat
  | .nil => 0
  | .cons _ n rest => leafCount n + leafCountC rest
end

mutual
/-- Modelled from the spec: `NestedValue` — the tagged nested value
representation (null, scalar, list, map-entries, struct-fields) that is the
public input/output of the Shredder and Assembler; the Value Model component
is absent from the repository sources. -/
inductive NestedValue where
  | null
  | scalar (p : PrimVal)
  | list (elems : ValueList)
  | mapEntries (entries : EntryList)
  | struct (fields : FieldList)
deriving DecidableEq, Repr
/-- Ordered sequence of list elements. -/
inductive ValueList where
  | nil
  | cons (v : NestedValue) (rest : ValueList)
deriving DecidableEq, Repr
/-- Ordered sequence of map entries (key, value). -/
inductive EntryList where
  | nil
  | cons (key : NestedValue) (val : NestedValue) (rest : EntryList)
deriving DecidableEq, Repr
/-- Ordered sequence of struct fields (name, value). -/
inductive FieldList where
  | nil
  | cons (name : String) (v : NestedValue) (rest : FieldList)
deriving DecidableEq, Repr
end

mutual
/-- Per-leaf triple sequences for a schema subtree, kept in the shape of the
schema: a leaf holds one triple sequence, an inner node holds the streams of
its children in order.  This is the mapping `leafPath -> sequence of
LeafTriple` of the spec, organized by the tree structure of the paths. -/
inductive Streams where
  | leaf (triples : List LeafTriple)
  | node (children : StreamsList)
deriving DecidableEq, Repr
/-- Streams of the children of an inner node, in schema order. -/
inductive StreamsList where
  | nil
  | cons (s : Streams) (rest : StreamsList)
deriving DecidableEq, Repr
end

mutual
/-- Streams with an empty triple sequence at every leaf of the given schema. -/
def emptyStreams : SchemaNode → Streams
  | .mk (.primitive _) _ _ => .leaf []
  | .mk _ _ cs => .node (emptyStreamsC cs)
def emptyStreamsC : Children → StreamsList
  | .nil => .nil
  | .cons _ n rest => .cons (emptyStreams n) (emptyStreamsC rest)
end

mutual
/-- Streams with the single triple `t` at every leaf of the given schema. -/
def constStreams : SchemaNode → LeafTriple → Streams
  | .mk (.primitive _) _ _, t => .leaf [t]
  | .mk _ _ cs, t => .node (constStreamsC cs t)
def constStreamsC : Children → LeafTriple → StreamsList
  | .nil, _ => .nil
  | .cons _ n rest, t => .cons (constStreams n t) (constStreamsC rest t)
end

mutual
/-- Leaf-wise concatenation of two streams of the same shape. -/
def appendStreams : Streams → Streams → Streams
  | .leaf a, .leaf b => .leaf (a ++ b)
  | .node xs, .node ys => .node (appendStreamsL xs ys)
  | s, _ => s
def appendStreamsL : StreamsList → StreamsList → StreamsList
  | .nil, _ => .nil
  | .cons x xs, .cons y ys => .cons (appendStreams x y) (appendStreamsL xs ys)
  | .cons x xs, .nil => .cons x xs
end

mutual
/-- Whether streams have exactly the shape of the given schema subtree. -/
def shapeOf : SchemaNode → Streams → Bool
  | .mk (.primitive _) _ _, .leaf _ => true
  | .mk (.primitive _) _ _, .node _ => false
  | .mk _ _ cs, .node ss => shapeOfC cs ss
  | .mk _ _ _, .leaf _ => false
def shapeOfC : Children → StreamsList → Bool
  | .nil, .nil => true
  | .cons _ n rest, .cons s srest => shapeOf n s && shapeOfC rest srest
  | _, _ => false
end

mutual
/-- Whether every leaf triple sequence of the streams satisfies `p`. -/
def allLeaves (p : List LeafTriple → Bool) : Streams → Bool
  | .leaf ts => p ts
  | .node ss => allLeavesL p ss
def allLeavesL (p : List LeafTriple → Bool) : StreamsList → Bool
  | .nil => true
  | .cons s rest => allLeaves p s && allLeavesL p rest
end

mutual
/-- The triple sequence of the first leaf in schema order, if any. -/
def firstLeaf : Streams → Option (List LeafTriple)
  | .leaf ts => some ts
  | .node ss => firstLeafL ss
def firstLeafL : StreamsList → Option (List LeafTriple)
  | .nil => none
  | .cons s rest =>
    match firstLeaf s with
    | some ts => some ts
    | none => firstLeafL rest
end

end Parquet

namespace Parquet

/-- One step of the chunk split, processed right-to-left: a triple whose
repetition level is at most `r0` starts a chunk; any other triple is
prepended to the pending chunk being built. -/
def splitStep (r0 : Nat) (t : LeafTriple) :
    List LeafTriple × List (List LeafTriple) → List LeafTriple × List (List LeafTriple) :=
  fun s =>
    if t.repetitionLevel ≤ r0 then ([], (t :: s.1) :: s.2) else (t :: s.1, s.2)

/-- Split a triple sequence into the chunks delimited by triples whose
repetition level is at most `r0`: each chunk after the first starts at such a
boundary triple, and a leading run of non-boundary triples (malformed input)
forms a headless first chunk. -/
def splitTriples (r0 : Nat) (ts : List LeafTriple) : List (List LeafTriple) :=
  let s := ts.foldr (splitStep r0) ([], [])
  if s.1.isEmpty then s.2 else s.1 :: s.2

mutual
/-- Split streams into per-instance streams at boundaries with repetition
level at most `r0`; `none` when sibling leaves disagree on the number of
instances (a leaf desynchronization). -/
def splitStreams (r0 : Nat) : Streams → Option (List Streams)
  | .leaf ts => some ((splitTriples r0 ts).map .leaf)
  | .node ss => (splitStreamsL r0 ss).map (List.map .node)
def splitStreamsL (r0 : Nat) : StreamsList → Option (List StreamsList)
  | .nil => none
  | .cons s rest => do
    let cs ← splitStreams r0 s
    match rest with
    | .nil => some (cs.map (fun c => StreamsList.cons c .nil))
    | .cons _ _ => do
      let rs ← splitStreamsL r0 rest
      if cs.length = rs.length then
        some (List.zipWith (fun c r => StreamsList.cons c r) cs rs)
      else
        none
end

mutual
/-- Number of top-level rows encoded in the streams: the largest number of
repetition-level-0 chunks over all leaves. -/
def numRows : Streams → Nat
  | .leaf ts => (splitTriples 0 ts).length
  | .node ss => numRowsL ss
def numRowsL : StreamsList → Nat
  | .nil => 0
  | .cons s rest => max (numRows s) (numRowsL rest)
end

mutual
/-- The streams of row `i`: each leaf contributes its `i`-th
repetition-level-0 chunk; `none` when some leaf has no such chunk. -/
def rowSlice (i : Nat) : Streams → Option Streams
  | .leaf ts => ((splitTriples 0 ts)[i]?).map .leaf
  | .node ss => (rowSliceL i ss).map .node
def rowSliceL (i : Nat) : StreamsList → Option StreamsList
  | .nil => some .nil
  | .cons s rest => do
    let c ← rowSlice i s
    let cs ← rowSliceL i rest
    some (.cons c cs)
end

mutual
/-- Modelled from the spec: whether a nested value conforms to a schema
subtree — `Null` only where the node is Optional, scalars of the declared
physical type at primitives, list elements against the synthetic Repeated
element child, map entries against the `key`/`value` children of the
synthetic `key_value` group, and struct fields in schema order with schema
field names. -/
def conforms : SchemaNode → NestedValue → Bool
  | n, .null => n.repetition == 1
  | .mk (.primitive t) _ _, .scalar p => primMatches t p
  | .mk .listKind _ (.cons _ e .nil), .list vs => conformsElems e vs
  | .mk .mapKind _ (.cons _ (.mk .structKind _ (.cons _ k (.cons _ w .nil))) .nil),
      .mapEntries es => conformsEntries k w es
  | .mk .structKind _ cs, .struct fs => conformsFields cs fs
  | _, _ => false
def conformsElems (e : SchemaNode) : ValueList → Bool
  | .nil => true
  | .cons v rest => conforms e v && conformsElems e rest
def conformsEntries (k w : SchemaNode) : EntryList → Bool
  | .nil => true
  | .cons kv vv rest => conforms k kv && conforms w vv && conformsEntries k w rest
def conformsFields : Children → FieldList → Bool
  | .nil, .nil => true
  | .cons cname c crest, .cons fname fv frest =>
      cname == fname && conforms c fv && conformsFields crest frest
  | _, _ => false
end

/-- Whether every row of a sequence conforms to the schema. -/
def conformsAll (n : SchemaNode) (vs : List NestedValue) : Bool :=
  vs.all (fun v => conforms n v)

/-- Modelled from the spec: `SchemaError` raised by the Level Calculus at
schema-build time. -/
inductive SchemaError where
  | mapKeyRepeated
  | unrecognizedRepetition
  | primitiveWithChildren
deriving DecidableEq, Repr

/-- Modelled from the spec: assembly-time error kinds, fatal to the row being
processed. -/
inductive AssemblyError where
  | levelOutOfRange
  | leafDesynchronization
  | valuePresenceMismatch
deriving DecidableEq, Repr

mutual
/-- Per-node `LevelInfo` computed by the Level Calculus, in the shape of the
schema tree. -/
inductive LevelTree where
  | mk (maxRepetitionLevel : Nat) (maxDefinitionLevel : Nat) (children : LevelChildren)
deriving DecidableEq, Repr
/-- LevelInfo of the children of a node, in schema order. -/
inductive LevelChildren where
  | nil
  | cons (l : LevelTree) (rest : LevelChildren)
deriving DecidableEq, Repr
end

def LevelTree.maxRepetitionLevel : LevelTree → Nat
  | .mk r _ _ => r

def LevelTree.maxDefinitionLevel : LevelTree → Nat
  | .mk _ d _ => d

/-- Whether a kind is primitive. -/
def kindIsPrimitive : Kind → Bool
  | .primitive _ => true
  | _ => false

/-- Whether a children sequence is empty. -/
def childrenIsNil : Children → Bool
  | .nil => true
  | .cons _ _ _ => false

/-- Whether a map node declares its `key` child as Repeated (navigating the
synthetic `key_value` group); such a schema is rejected by the Level
Calculus. -/
def mapKeyIsRepeated : SchemaNode → Bool
  | .mk .mapKind _ (.cons _ (.mk _ _ (.cons _ k _)) _) => k.repetition == 2
  | _ => false

mutual
/-- Modelled from the spec: the Level Calculus `computeLevels` — assigns to
every node its maximum repetition level (count of Repeated nodes on the path
from the root, inclusive) and maximum definition level (count of Optional or
Repeated nodes on that path, inclusive); fails with a `SchemaError` when a
node carries an unrecognized repetition code, a primitive has children, or a
Map's key child is declared Repeated.  The Level Calculus itself is absent
from the repository sources.  `rd` and `d` are the levels accumulated on the
path strictly above the node. -/
def computeLevelsAt : SchemaNode → Nat → Nat → Except SchemaError LevelTree
  | .mk k rep cs, rd, d =>
    if rep > 2 then .error .unrecognizedRepetition
    else if kindIsPrimitive k && !childrenIsNil cs then .error .primitiveWithChildren
    else if mapKeyIsRepeated (.mk k rep cs) then .error .mapKeyRepeated
    else do
      let ls ← computeLevelsC cs (rd + repInc rep) (d + defInc rep)
      .ok (.mk (rd + repInc rep) (d + defInc rep) ls)
def computeLevelsC : Children → Nat → Nat → Except SchemaError LevelChildren
  | .nil, _, _ => .ok .nil
  | .cons _ n rest, rd, d => do
    let l ← computeLevelsAt n rd d
    let ls ← computeLevelsC rest rd d
    .ok (.cons l ls)
end

/-- The Level Calculus applied to a root schema. -/
def computeLevels (n : SchemaNode) : Except SchemaError LevelTree :=
  computeLevelsAt n 0 0

mutual
/-- Any node of the subtree triggers one of the three schema-error
conditions: unrecognized repetition code, primitive with children, or a
Map whose key child is Repeated. -/
def hasSchemaFault : SchemaNode → Bool
  | .mk k rep cs =>
    (rep > 2 : Bool) || (kindIsPrimitive k && !childrenIsNil cs)
      || mapKeyIsRepeated (.mk k rep cs) || hasSchemaFaultC cs
def hasSchemaFaultC : Children → Bool
  | .nil => false
  | .cons _ n rest => hasSchemaFault n || hasSchemaFaultC rest
end

end Parquet

namespace Parquet

mutual
/-- Modelled from the spec: the Shredder's recursive descent for one value of
one schema subtree (the Shredder is absent from the repository sources).
`r` is the repetition level to stamp on the first triple emitted at every
leaf of this subtree instance, `rd` is the node's own maximum repetition
level (count of Repeated nodes on the path from the root, this node
included), and `d` is the definition level accumulated strictly above this
node.  A `Null` value emits one triple per descendant leaf at definition
level `d`; an empty-but-present list or map emits one triple per descendant
leaf at definition level `d + defInc rep`; elements and entries are stamped
`r` for the first and `rd + 1` for the rest. -/
def shredValue (n0 : SchemaNode) (v0 : NestedValue) (r0 rd0 d0 : Nat) : Streams :=
  match n0, v0, r0, rd0, d0 with
  | n, .null, r, _, d => constStreams n ⟨r, d, none⟩
  | .mk (.primitive _) rep _, .scalar p, r, _, d => .leaf [⟨r, d + defInc rep, some p⟩]
  | .mk .listKind rep (.cons _ e .nil), .list .nil, r, _, d =>
      .node (.cons (constStreams e ⟨r, d + defInc rep, none⟩) .nil)
  | .mk .listKind rep (.cons _ e .nil), .list (.cons v rest), r, rd, d =>
      .node (.cons (appendStreams (shredValue e v r (rd + 1) (d + defInc rep))
        (shredElemsTail e rest rd (d + defInc rep))) .nil)
  | .mk .mapKind rep (.cons _ (.mk .structKind kvrep (.cons nmk k (.cons nmw w .nil))) .nil),
      .mapEntries .nil, r, _, d =>
      .node (.cons (constStreams (.mk .structKind kvrep (.cons nmk k (.cons nmw w .nil)))
        ⟨r, d + defInc rep, none⟩) .nil)
  | .mk .mapKind rep (.cons _ (.mk .structKind _ (.cons _ k (.cons _ w .nil))) .nil),
      .mapEntries (.cons kv vv rest), r, rd, d =>
      .node (.cons (appendStreams
        (.node (.cons (shredValue k kv r (rd + 1 + repInc k.repetition) (d + defInc rep + 1))
          (.cons (shredValue w vv r (rd + 1 + repInc w.repetition) (d + defInc rep + 1)) .nil)))
        (shredEntriesTail k w rest rd (d + defInc rep))) .nil)
  | .mk .structKind rep cs, .struct fs, r, rd, d =>
      .node (shredFields cs fs r rd (d + defInc rep))
  | n, _, r, _, d => constStreams n ⟨r, d, none⟩
termination_by structural v0
/-- Shred the elements of a list after the first against the synthetic
Repeated element child `e`: every remaining element is stamped `rd + 1`;
`d` is the definition level including the list's own presence bit. -/
def shredElemsTail (e0 : SchemaNode) (vs0 : ValueList) (rd0 d0 : Nat) : Streams :=
  match e0, vs0, rd0, d0 with
  | e, .nil, _, _ => emptyStreams e
  | e, .cons v rest, rd, d =>
      appendStreams (shredValue e v (rd + 1) (rd + 1) d) (shredElemsTail e rest rd d)
termination_by structural vs0
/-- Shred the entries of a map after the first against the `key`/`value`
children of the synthetic Repeated `key_value` group: every remaining entry
is stamped `rd + 1`; `d` is the definition level including the map's own
presence bit, and each entry adds the group's Repeated presence bit. -/
def shredEntriesTail (k0 w0 : SchemaNode) (es0 : EntryList) (rd0 d0 : Nat) : Streams :=
  match k0, w0, es0, rd0, d0 with
  | k, w, .nil, _, _ => .node (.cons (emptyStreams k) (.cons (emptyStreams w) .nil))
  | k, w, .cons kv vv rest, rd, d =>
      appendStreams
        (.node (.cons (shredValue k kv (rd + 1) (rd + 1 + repInc k.repetition) (d + 1))
          (.cons (shredValue w vv (rd + 1) (rd + 1 + repInc w.repetition) (d + 1)) .nil)))
        (shredEntriesTail k w rest rd d)
termination_by structural es0
/-- Shred the fields of a struct in schema order; every field is stamped `r`
(structs never add repetition), and `d` includes the struct's own presence
bit. -/
def shredFields (cs0 : Children) (fs0 : FieldList) (r0 rd0 d0 : Nat) : StreamsList :=
  match cs0, fs0, r0, rd0, d0 with
  | .nil, _, _, _, _ => .nil
  | .cons _ c crest, .nil, _, _, _ => .cons (emptyStreams c) (emptyStreamsC crest)
  | .cons _ c crest, .cons _ fv frest, r, rd, d =>
      .cons (shredValue c fv r (rd + repInc c.repetition) d) (shredFields crest frest r rd d)
termination_by structural fs0
end

/-- Maximum repetition level of the root node itself. -/
def rootRepDepth (n : SchemaNode) : Nat := repInc n.repetition

/-- Shred one top-level row: stamped 0 at every leaf. -/
def shredRow (n : SchemaNode) (v : NestedValue) : Streams :=
  shredValue n v 0 (rootRepDepth n) 0

/-- Modelled from the spec: the Shredder over a finite sequence of rows —
per-leaf concatenation of the per-row triples; a zero-length input yields
empty triple sequences for every leaf. -/
def shred : SchemaNode → List NestedValue → Streams
  | n, [] => emptyStreams n
  | n, v :: vs => appendStreams (shredRow n v) (shred n vs)

/-- The per-element streams of a shredded list, as an explicit list (the
Shredder's output concatenates them leaf-wise). -/
def elemChunks : SchemaNode → ValueList → Nat → Nat → Nat → List Streams
  | _, .nil, _, _, _ => []
  | e, .cons v rest, r, rd, d =>
      shredValue e v r (rd + 1) d :: elemChunks e rest (rd + 1) rd d

/-- The per-entry streams of a shredded map, as an explicit list. -/
def entryChunks : SchemaNode → SchemaNode → EntryList → Nat → Nat → Nat → List Streams
  | _, _, .nil, _, _, _ => []
  | k, w, .cons kv vv rest, r, rd, d =>
      Streams.node (.cons (shredValue k kv r (rd + 1 + repInc k.repetition) (d + 1))
        (.cons (shredValue w vv r (rd + 1 + repInc w.repetition) (d + 1)) .nil))
        :: entryChunks k w rest (rd + 1) rd d

/-- The per-row streams of a shredded batch, as an explicit list. -/
def rowChunks (n : SchemaNode) (vs : List NestedValue) : List Streams :=
  vs.map (shredRow n)

mutual
/-- Whether every triple of the streams stays within its leaf's computed
maximum repetition and definition levels; `rd` and `d` as in `shredValue`. -/
def levelsInRange : SchemaNode → Streams → Nat → Nat → Bool
  | .mk (.primitive _) rep _, .leaf ts, rd, d =>
      ts.all (fun t => t.repetitionLevel ≤ rd && t.definitionLevel ≤ d + defInc rep)
  | .mk (.primitive _) _ _, .node _, _, _ => false
  | .mk _ rep cs, .node ss, rd, d => levelsInRangeC cs ss rd (d + defInc rep)
  | .mk _ _ _, .leaf _, _, _ => false
def levelsInRangeC : Children → StreamsList → Nat → Nat → Bool
  | .nil, .nil, _, _ => true
  | .cons _ c crest, .cons s srest, rd, d =>
      levelsInRange c s (rd + repInc c.repetition) d && levelsInRangeC crest srest rd d
  | _, _, _, _ => false
end

mutual
/-- Whether every triple of the streams carries a value exactly when its
definition level equals its leaf's maximum definition level. -/
def presenceOK : SchemaNode → Streams → Nat → Nat → Bool
  | .mk (.primitive _) rep _, .leaf ts, _, d =>
      ts.all (fun t => t.value.isSome == (t.definitionLevel == d + defInc rep))
  | .mk (.primitive _) _ _, .node _, _, _ => false
  | .mk _ rep cs, .node ss, rd, d => presenceOKC cs ss rd (d + defInc rep)
  | .mk _ _ _, .leaf _, _, _ => false
def presenceOKC : Children → StreamsList → Nat → Nat → Bool
  | .nil, .nil, _, _ => true
  | .cons _ c crest, .cons s srest, rd, d =>
      presenceOK c s (rd + repInc c.repetition) d && presenceOKC crest srest rd d
  | _, _, _, _ => false
end

/-- A one-triple sequence whose definition level is at most `dmax`: the form
every leaf takes under a container observed absent or empty. -/
def singletonBelow (dmax : Nat) : List LeafTriple → Bool
  | [t] => t.definitionLevel ≤ dmax
  | _ => false

/-- Map a fallible function over a list, failing on the first error. -/
def mapExcept (f : α → Except ε β) : List α → Except ε (List β)
  | [] => .ok []
  | a :: as => do
    let b ← f a
    let bs ← mapExcept f as
    .ok (b :: bs)

/-- Build a `ValueList` from a plain list. -/
def valueListOf : List NestedValue → ValueList
  | [] => .nil
  | v :: vs => .cons v (valueListOf vs)

/-- Build an `EntryList` from a plain list of pairs. -/
def entryListOf : List (NestedValue × NestedValue) → EntryList
  | [] => .nil
  | (k, v) :: es => .cons k v (entryListOf es)

mutual
/-- Modelled from the spec: the Assembler's reconstruction of one instance of
one schema subtree from its per-leaf triples (the Assembler is absent from
the repository sources).  The definition level observed at the first leaf in
schema order decides, against the node's own levels, whether the node is
absent (`Null`), present but empty, or present with elements; elements and
entries are recovered by splitting every leaf's triples at repetition level
`rd + 1`, failing with a leaf desynchronization when sibling leaves disagree
on the element count or on the node's absence. -/
def assembleValue : SchemaNode → Streams → Nat → Nat → Except AssemblyError NestedValue
  | .mk (.primitive _) rep _, .leaf ts, _, d =>
    match ts with
    | [t] =>
      if t.definitionLevel = d + defInc rep then
        match t.value with
        | some p => .ok (.scalar p)
        | none => .error .valuePresenceMismatch
      else if t.definitionLevel = d then .ok .null
      else .error .leafDesynchronization
    | _ => .error .leafDesynchronization
  | .mk .listKind rep (.cons _ e .nil), .node (.cons s .nil), rd, d =>
    match (firstLeaf s).bind List.head? with
    | none => .error .leafDesynchronization
    | some t0 =>
      if rep = 1 ∧ t0.definitionLevel ≤ d then
        if allLeaves (singletonBelow d) s then .ok .null
        else .error .leafDesynchronization
      else if t0.definitionLevel = d + defInc rep then
        if allLeaves (singletonBelow (d + defInc rep)) s then .ok (.list .nil)
        else .error .leafDesynchronization
      else
        match splitStreams (rd + 1) s with
        | none => .error .leafDesynchronization
        | some chunks => do
          let vs ← mapExcept (fun c => assembleValue e c (rd + 1) (d + defInc rep)) chunks
          .ok (.list (valueListOf vs))
  | .mk .mapKind rep (.cons _ (.mk .structKind _ (.cons _ k (.cons _ w .nil))) .nil),
      .node (.cons s .nil), rd, d =>
    match (firstLeaf s).bind List.head? with
    | none => .error .leafDesynchronization
    | some t0 =>
      if rep = 1 ∧ t0.definitionLevel ≤ d then
        if allLeaves (singletonBelow d) s then .ok .null
        else .error .leafDesynchronization
      else if t0.definitionLevel = d + defInc rep then
        if allLeaves (singletonBelow (d + defInc rep)) s then .ok (.mapEntries .nil)
        else .error .leafDesynchronization
      else
        match splitStreams (rd + 1) s with
        | none => .error .leafDesynchronization
        | some chunks => do
          let es ← mapExcept (fun c =>
            match c with
            | .node (.cons ks (.cons ws .nil)) => do
              let kv ← assembleValue k ks (rd + 1 + repInc k.repetition) (d + defInc rep + 1)
              let vv ← assembleValue w ws (rd + 1 + repInc w.repetition) (d + defInc rep + 1)
              Except.ok (kv, vv)
            | _ => Except.error AssemblyError.leafDesynchronization) chunks
          .ok (.mapEntries (entryListOf es))
  | .mk .structKind rep cs, .node ss, rd, d =>
    match (firstLeafL ss).bind List.head? with
    | none => .error .leafDesynchronization
    | some t0 =>
      if rep = 1 ∧ t0.definitionLevel ≤ d then
        if allLeavesL (singletonBelow d) ss then .ok .null
        else .error .leafDesynchronization
      else do
        let fs ← assembleFields cs ss rd (d + defInc rep)
        .ok (.struct fs)
  | _, _, _, _ => .error .leafDesynchronization
/-- Assemble the fields of a struct in schema order, advancing all field
streams together. -/
def assembleFields : Children → StreamsList → Nat → Nat → Except AssemblyError FieldList
  | .nil, .nil, _, _ => .ok .nil
  | .cons nm c crest, .cons s srest, rd, d => do
    let v ← assembleValue c s (rd + repInc c.repetition) d
    let rest ← assembleFields crest srest rd d
    .ok (.cons nm v rest)
  | _, _, _, _ => .error .leafDesynchronization
end

/-- Assemble one top-level row from its per-leaf triples, after validating
shape, level ranges (`LevelOutOfRange` if a repetition or definition level
exceeds its leaf's computed maximum) and the value-presence invariant. -/
def assembleRow (n : SchemaNode) (s : Streams) : Except AssemblyError NestedValue :=
  if !shapeOf n s then .error .leafDesynchronization
  else if !levelsInRange n s (rootRepDepth n) 0 then .error .levelOutOfRange
  else if !presenceOK n s (rootRepDepth n) 0 then .error .valuePresenceMismatch
  else assembleValue n s (rootRepDepth n) 0

/-- Modelled from the spec: the Assembler over a whole batch — one result per
top-level row, each row assembled independently from its own slice of every
leaf's triples; a malformed row yields an error for that row only and
processing of subsequent rows continues. -/
def assemble (n : SchemaNode) (s : Streams) : List (Except AssemblyError NestedValue) :=
  (List.range (numRows s)).map (fun i =>
    match rowSlice i s with
    | none => .error .leafDesynchronization
    | some rs => assembleRow n rs)

end Parquet

namespace Parquet

/-- A schema usable as the root of a file: well-formed, and Required as every
Parquet message root is (the spec's LevelInfo invariant `root has maxRep=0`
presupposes a non-Repeated root). -/
def wellFormedRoot (n : SchemaNode) : Bool :=
  wellFormed n && n.repetition == 0

/-- Empty, or starting with a triple of repetition level at most `r0`. -/
def headLow (r0 : Nat) : List LeafTriple → Bool
  | [] => true
  | t :: _ => t.repetitionLevel ≤ r0

/-- Nonempty, starting with a triple of repetition level at most `r0`, with
every later triple strictly above `r0`: exactly one chunk of the split at
`r0`. -/
def chunkAt (r0 : Nat) : List LeafTriple → Bool
  | [] => false
  | t :: rest => t.repetitionLevel ≤ r0 && rest.all (fun u => r0 < u.repetitionLevel)

/-- Nonempty, starting with repetition level exactly `r`, with every later
triple strictly above `rd`: the form every leaf's triples take for one
instance of a subtree whose maximum repetition level is `rd`, stamped `r`. -/
def goodChunk (r rd : Nat) : List LeafTriple → Bool
  | [] => false
  | t :: rest => t.repetitionLevel == r && rest.all (fun u => rd < u.repetitionLevel)

/-- Every triple has repetition level strictly above `rd`. -/
def allHigh (rd : Nat) (ts : List LeafTriple) : Bool :=
  ts.all (fun u => rd < u.repetitionLevel)

/-- Every triple has definition level at least `m`. -/
def defsGE (m : Nat) (ts : List LeafTriple) : Bool :=
  ts.all (fun t => m ≤ t.definitionLevel)

/-- Nonempty with first definition level at least `m`. -/
def headDefGE (m : Nat) : List LeafTriple → Bool
  | [] => false
  | t :: _ => m ≤ t.definitionLevel

/-- Every leaf's next triple (if any) has repetition level 0: the streams sit
at a top-level row boundary. -/
def rowAligned (s : Streams) : Bool :=
  allLeaves (headLow 0) s

/-- Every leaf holds exactly `c` repetition-level-0 chunks, i.e. `c` rows. -/
def uniformChunks (c : Nat) (s : Streams) : Bool :=
  allLeaves (fun ts => (splitTriples 0 ts).length == c) s

/-- A `ValueList` as a plain list. -/
def plainOfValueList : ValueList → List NestedValue
  | .nil => []
  | .cons v rest => v :: plainOfValueList rest

/-- An `EntryList` as a plain list of pairs. -/
def plainOfEntryList : EntryList → List (NestedValue × NestedValue)
  | .nil => []
  | .cons k v rest => (k, v) :: plainOfEntryList rest

/-- A `FieldList` as a plain list of named values. -/
def plainOfFieldList : FieldList → List (String × NestedValue)
  | .nil => []
  | .cons nm v rest => (nm, v) :: plainOfFieldList rest

/-- Whether a result is a success. -/
def exceptIsOk : Except ε α → Bool
  | .ok _ => true
  | .error _ => false

/-- The `i`-th child of a node's children sequence. -/
def childAt : Children → Nat → Option SchemaNode
  | .nil, _ => none
  | .cons _ n _, 0 => some n
  | .cons _ _ rest, i + 1 => childAt rest i

/-- Navigate a schema tree along a path of child indices. -/
def getNode : SchemaNode → List Nat → Option SchemaNode
  | n, [] => some n
  | n, i :: p =>
    match childAt n.children i with
    | some c => getNode c p
    | none => none

/-- The repetition codes of the nodes on the path from the root to the node
addressed by `p`, root and target inclusive. -/
def pathCodes : SchemaNode → List Nat → Option (List Nat)
  | n, [] => some [n.repetition]
  | n, i :: p =>
    match childAt n.children i with
    | some c => (pathCodes c p).map (fun l => n.repetition :: l)
    | none => none

/-- The `i`-th child of a level tree's children sequence. -/
def levelChildAt : LevelChildren → Nat → Option LevelTree
  | .nil, _ => none
  | .cons l _, 0 => some l
  | .cons _ rest, i + 1 => levelChildAt rest i

/-- Navigate a level tree along a path of child indices. -/
def getLevel : LevelTree → List Nat → Option LevelTree
  | l, [] => some l
  | .mk _ _ ls, i :: p =>
    match levelChildAt ls i with
    | some c => getLevel c p
    | none => none

end Parquet

namespace Parquet.Fixtures

/-- `string` leaf, Required: the key leaf of the fixtures' maps. -/
def keyLeaf : SchemaNode := .mk (.primitive .byteArray) 0 .nil

/-- `int64` leaf, Optional: the value leaf of the fixtures' maps. -/
def int64Value : SchemaNode := .mk (.primitive .int64) 1 .nil

/-- The synthetic Repeated `key_value` group of `map<string,int64>`. -/
def kvGroup : SchemaNode :=
  .mk .structKind 2 (.cons "key" keyLeaf (.cons "value" int64Value .nil))

/-- `map<string,int64>` as the Repeated element of a list. -/
def mapElem : SchemaNode := .mk .mapKind 2 (.cons "key_value" kvGroup .nil)

/-- The `list<map<string,int64>>` column of `nested_list_of_maps.parquet`. -/
def listOfMaps : SchemaNode := .mk .listKind 1 (.cons "element" mapElem .nil)

/-- Row 0 of the fixture: the map `{"a": 1, "b": 2}`. -/
def mapAB : NestedValue :=
  .mapEntries (.cons (.scalar (.strV "a")) (.scalar (.intV 1))
    (.cons (.scalar (.strV "b")) (.scalar (.intV 2)) .nil))

/-- Row 0 of the fixture: the map `{"x": 10}`. -/
def mapX : NestedValue :=
  .mapEntries (.cons (.scalar (.strV "x")) (.scalar (.intV 10)) .nil)

/-- Row 0 of `generate_list_of_maps`: `[{"a": 1, "b": 2}, {"x": 10}]`. -/
def listOfMapsRow0 : NestedValue := .list (.cons mapAB (.cons mapX .nil))

/-- `map<string,int64>` as an Optional struct field. -/
def attrMap : SchemaNode := .mk .mapKind 1 (.cons "key_value" kvGroup .nil)

/-- The Optional `struct { attributes: optional map<string,int64> }` column of
`nested_struct_with_map.parquet`. -/
def userStruct : SchemaNode := .mk .structKind 1 (.cons "attributes" attrMap .nil)

/-- Row 0 of `generate_struct_with_map`: struct and map present. -/
def userRow0 : NestedValue :=
  .struct (.cons "attributes"
    (.mapEntries (.cons (.scalar (.strV "name")) (.scalar (.intV 1))
      (.cons (.scalar (.strV "age")) (.scalar (.intV 30)) .nil))) .nil)

/-- Row 1 of `generate_struct_with_map`: struct present, empty map. -/
def userRow1 : NestedValue := .struct (.cons "attributes" (.mapEntries .nil) .nil)

/-- Row 2 of `generate_struct_with_map`: struct present, Null map. -/
def userRow2 : NestedValue := .struct (.cons "attributes" .null .nil)

/-- Row 3 of `generate_struct_with_map`: Null struct. -/
def userRow3 : NestedValue := .null

/-- The four struct-with-map rows whose key-leaf definition levels must be
pairwise distinct. -/
def userRows : List NestedValue := [userRow0, userRow1, userRow2, userRow3]

end Parquet.Fixtures

namespace PlainFixture

/-- Number of rows generated by `generate_plain_fixture.py`. -/
def num_rows : Nat := 20

/-- `id_col = list(range(num_rows))`. -/
def id_col : List Nat := List.range num_rows

/-- `bigint_col = [i * 1000000000 for i in range(num_rows)]`. -/
def bigint_col : List Nat := (List.range num_rows).map (fun i => i * 1000000000)

/-- `float_col = [float(i * 1.5) for i in range(num_rows)]`; every value
`i * 1.5` for `i < 20` is exactly representable, so the column is modelled
with exact rationals. -/
def float_col : List Rat := (List.range num_rows).map (fun i => (i : Rat) * (3 / 2))

/-- `f'{i:02d}'`: `i` zero-padded to a minimum of two digits (faithful for
`i < 100`). -/
def pad2 (i : Nat) : String := if i < 10 then "0" ++ toString i else toString i

/-- `string_col = [f'row_{i:02d}' for i in range(num_rows)]`. -/
def string_col : List String := (List.range num_rows).map (fun i => "row_" ++ pad2 i)

/-- The keyword options of the `pq.ParquetWriter` call. -/
structure WriterOptions where
  version : String
  compression : String
  use_dictionary : Bool
  write_statistics : Bool
deriving DecidableEq, Repr

/-- The options the script writes with: version 1.0, uncompressed, no
dictionary encoding, no statistics. -/
def writerOptions : WriterOptions :=
  { version := "1.0", compression := "none",
    use_dictionary := false, write_statistics := false }

/-- The table content written by the script (the `double_col` column is
omitted: its values `float(i * 3.14159)` incur binary64 rounding, which is
out of scope of this embedding and of the claims under verification). -/
structure Table where
  id : List Nat
  bigint : List Nat
  floats : List Rat
  strings : List String
deriving DecidableEq, Repr

/-- One run of the fixture-generation script, producing the table content. -/
def generateTable : Unit → Table :=
  fun _ => { id := id_col, bigint := bigint_col, floats := float_col, strings := string_col }

end PlainFixture

namespace Parquet

/-- The `i`-th element of a streams children sequence. -/
def streamChildAt : StreamsList → Nat → Option Streams
  | .nil, _ => none
  | .cons s _, 0 => some s
  | .cons _ rest, i + 1 => streamChildAt rest i

/-- The triple sequence of the leaf addressed by a path of child indices. -/
def getLeaf : Streams → List Nat → Option (List LeafTriple)
  | .leaf ts, [] => some ts
  | .node ss, i :: p =>
    match streamChildAt ss i with
    | some c => getLeaf c p
    | none => none
  | _, _ => none

/-- Number of Repeated nodes among a path's repetition codes. -/
def countRepeated (codes : List Nat) : Nat := (codes.filter (fun c => c == 2)).length

/-- Number of Optional-or-Repeated nodes among a path's repetition codes. -/
def countPresence (codes : List Nat) : Nat := (codes.filter (fun c => c != 0)).length

mutual
/-- Both level values are non-decreasing from every node to its children. -/
def monoLevels : LevelTree → Bool
  | .mk r d ls => monoLevelsC r d ls
def monoLevelsC (r d : Nat) : LevelChildren → Bool
  | .nil => true
  | .cons (.mk rc dc lc) rest =>
      r ≤ rc && d ≤ dc && monoLevelsC rc dc lc && monoLevelsC r d rest
end

end Parquet

namespace Parquet

theorem foldr_splitStep_high (r0 : Nat) (zs : List LeafTriple)
    (p : List LeafTriple) (cs : List (List LeafTriple))
    (h : ∀ z ∈ zs, r0 < z.repetitionLevel) :
    zs.foldr (splitStep r0) (p, cs) = (zs ++ p, cs) := by
  induction zs with
  | nil => rfl
  | cons z zs ih =>
    have hz := h z (by simp)
    have ih2 := ih (fun u hu => h u (by simp [hu]))
    simp only [List.foldr_cons, ih2, splitStep]
    rw [if_neg (by omega)]
    simp

theorem foldr_splitStep_headLow (r0 : Nat) (ys : List LeafTriple)
    (h : headLow r0 ys = true) :
    ys.foldr (splitStep r0) ([], []) = ([], splitTriples r0 ys) := by
  cases ys with
  | nil => rfl
  | cons y ys =>
    have hy : y.repetitionLevel ≤ r0 := by
      simpa [headLow] using h
    simp only [List.foldr_cons, splitStep, if_pos hy, splitTriples]
    rcases hfold : ys.foldr (splitStep r0) ([], []) with ⟨p, cs⟩
    simp only [splitStep, if_pos hy]
    simp

theorem splitTriples_append (r0 : Nat) (x : LeafTriple) (xt ys : List LeafTriple)
    (hx : x.repetitionLevel ≤ r0) (ht : ∀ u ∈ xt, r0 < u.repetitionLevel)
    (hy : headLow r0 ys = true) :
    splitTriples r0 ((x :: xt) ++ ys) = (x :: xt) :: splitTriples r0 ys := by
  have hfold : (x :: (xt ++ ys)).foldr (splitStep r0) ([], [])
      = ([], (x :: xt) :: splitTriples r0 ys) := by
    simp only [List.foldr_cons, List.foldr_append]
    rw [foldr_splitStep_headLow r0 ys hy, foldr_splitStep_high r0 xt _ _ ht]
    simp [splitStep, if_pos hx]
  show splitTriples r0 (x :: (xt ++ ys)) = _
  simp only [splitTriples, hfold]
  simp

theorem splitTriples_single (r0 : Nat) (x : LeafTriple) (xt : List LeafTriple)
    (hx : x.repetitionLevel ≤ r0) (ht : ∀ u ∈ xt, r0 < u.repetitionLevel) :
    splitTriples r0 (x :: xt) = [x :: xt] := by
  have := splitTriples_append r0 x xt [] hx ht (by simp [headLow])
  simpa [splitTriples] using this

theorem splitTriples_nil (r0 : Nat) : splitTriples r0 [] = [] := rfl

theorem goodChunk_iff (r rd : Nat) (ts : List LeafTriple) :
    goodChunk r rd ts = true ↔
      ∃ x xt, ts = x :: xt ∧ x.repetitionLevel = r ∧ ∀ u ∈ xt, rd < u.repetitionLevel := by
  cases ts with
  | nil => simp [goodChunk]
  | cons x xt =>
    constructor
    · intro h
      simp only [goodChunk, Bool.and_eq_true, beq_iff_eq, List.all_eq_true] at h
      exact ⟨x, xt, rfl, h.1, fun u hu => by simpa using h.2 u hu⟩
    · rintro ⟨y, yt, heq, h1, h2⟩
      injection heq with h3 h4
      subst h3; subst h4
      simp only [goodChunk, Bool.and_eq_true, beq_iff_eq, List.all_eq_true]
      exact ⟨h1, fun u hu => by simpa using h2 u hu⟩

theorem splitTriples_goodChunk_append (r rd r0 : Nat) (xs ys : List LeafTriple)
    (hchunk : goodChunk r rd xs = true) (hr : r ≤ r0) (hrd : r0 ≤ rd)
    (hy : headLow r0 ys = true) :
    splitTriples r0 (xs ++ ys) = xs :: splitTriples r0 ys := by
  rcases (goodChunk_iff r rd xs).mp hchunk with ⟨x, xt, rfl, hx, ht⟩
  exact splitTriples_append r0 x xt ys (by omega)
    (fun u hu => lt_of_le_of_lt hrd (ht u hu)) hy

end Parquet

namespace Parquet

mutual
theorem allLeaves_imp (p q : List LeafTriple → Bool) (h : ∀ ts, p ts = true → q ts = true) :
    (s : Streams) → allLeaves p s = true → allLeaves q s = true
  | .leaf ts, hs => h ts hs
  | .node ss, hs => allLeavesL_imp p q h ss hs
theorem allLeavesL_imp (p q : List LeafTriple → Bool) (h : ∀ ts, p ts = true → q ts = true) :
    (ss : StreamsList) → allLeavesL p ss = true → allLeavesL q ss = true
  | .nil, _ => rfl
  | .cons s rest, hs => by
    simp only [allLeavesL, Bool.and_eq_true] at hs ⊢
    exact ⟨allLeaves_imp p q h s hs.1, allLeavesL_imp p q h rest hs.2⟩
end

theorem wellFormed_parts {k : Kind} {rep : Nat} {cs : Children}
    (h : wellFormed (.mk k rep cs) = true) :
    rep ≤ 2 ∧ kindShapeOK k cs = true ∧ wellFormedC cs = true := by
  simp only [wellFormed, Bool.and_eq_true, decide_eq_true_eq] at h
  exact ⟨h.1.1, h.1.2, h.2⟩

theorem wellFormedC_parts {nm : String} {c : SchemaNode} {rest : Children}
    (h : wellFormedC (.cons nm c rest) = true) :
    wellFormed c = true ∧ wellFormedC rest = true := by
  simp only [wellFormedC, Bool.and_eq_true] at h
  exact h

mutual
theorem allLeaves_append (p q w : List LeafTriple → Bool)
    (hpq : ∀ x y, p x = true → q y = true → w (x ++ y) = true) :
    (a : Streams) → (n : SchemaNode) → (b : Streams) →
    shapeOf n a = true → shapeOf n b = true →
    allLeaves p a = true → allLeaves q b = true →
    allLeaves w (appendStreams a b) = true
  | .leaf ta, .mk (.primitive _) _ _, .leaf tb, _, _, hpa, hqb => hpq ta tb hpa hqb
  | .leaf _, .mk (.primitive _) _ _, .node _, _, hb, _, _ => by
    simp [shapeOf] at hb
  | .leaf _, .mk .listKind _ _, _, ha, _, _, _ => by simp [shapeOf] at ha
  | .leaf _, .mk .mapKind _ _, _, ha, _, _, _ => by simp [shapeOf] at ha
  | .leaf _, .mk .structKind _ _, _, ha, _, _, _ => by simp [shapeOf] at ha
  | .node _, .mk (.primitive _) _ _, _, ha, _, _, _ => by simp [shapeOf] at ha
  | .node sa, .mk .listKind rep cs, .leaf _, _, hb, _, _ => by simp [shapeOf] at hb
  | .node sa, .mk .mapKind rep cs, .leaf _, _, hb, _, _ => by simp [shapeOf] at hb
  | .node sa, .mk .structKind rep cs, .leaf _, _, hb, _, _ => by simp [shapeOf] at hb
  | .node sa, .mk .listKind rep cs, .node sb, ha, hb, hpa, hqb =>
    allLeavesL_append p q w hpq sa cs sb ha hb hpa hqb
  | .node sa, .mk .mapKind rep cs, .node sb, ha, hb, hpa, hqb =>
    allLeavesL_append p q w hpq sa cs sb ha hb hpa hqb
  | .node sa, .mk .structKind rep cs, .node sb, ha, hb, hpa, hqb =>
    allLeavesL_append p q w hpq sa cs sb ha hb hpa hqb
theorem allLeavesL_append (p q w : List LeafTriple → Bool)
    (hpq : ∀ x y, p x = true → q y = true → w (x ++ y) = true) :
    (sa : StreamsList) → (cs : Children) → (sb : StreamsList) →
    shapeOfC cs sa = true → shapeOfC cs sb = true →
    allLeavesL p sa = true → allLeavesL q sb = true →
    allLeavesL w (appendStreamsL sa sb) = true
  | .nil, _, .nil, _, _, _, _ => rfl
  | .nil, .nil, .cons _ _, _, hb, _, _ => by simp [shapeOfC] at hb
  | .nil, .cons _ _ _, _, ha, _, _, _ => by simp [shapeOfC] at ha
  | .cons _ _, .nil, _, ha, _, _, _ => by simp [shapeOfC] at ha
  | .cons _ _, .cons _ _ _, .nil, _, hb, _, _ => by simp [shapeOfC] at hb
  | .cons s srest, .cons _ c crest, .cons u urest, ha, hb, hpa, hqb => by
    simp only [shapeOfC, allLeavesL, appendStreamsL, Bool.and_eq_true] at ha hb hpa hqb ⊢
    exact ⟨allLeaves_append p q w hpq s c u ha.1 hb.1 hpa.1 hqb.1,
      allLeavesL_append p q w hpq srest crest urest ha.2 hb.2 hpa.2 hqb.2⟩
end

mutual
theorem shapeOf_append :
    (a : Streams) → (n : SchemaNode) → (b : Streams) →
    shapeOf n a = true → shapeOf n b = true →
    shapeOf n (appendStreams a b) = true
  | .leaf ta, .mk (.primitive _) _ _, .leaf tb, _, _ => rfl
  | .leaf _, .mk (.primitive _) _ _, .node _, _, hb => by simp [shapeOf] at hb
  | .leaf _, .mk .listKind _ _, _, ha, _ => by simp [shapeOf] at ha
  | .leaf _, .mk .mapKind _ _, _, ha, _ => by simp [shapeOf] at ha
  | .leaf _, .mk .structKind _ _, _, ha, _ => by simp [shapeOf] at ha
  | .node _, .mk (.primitive _) _ _, _, ha, _ => by simp [shapeOf] at ha
  | .node sa, .mk .listKind rep cs, .leaf _, _, hb => by simp [shapeOf] at hb
  | .node sa, .mk .mapKind rep cs, .leaf _, _, hb => by simp [shapeOf] at hb
  | .node sa, .mk .structKind rep cs, .leaf _, _, hb => by simp [shapeOf] at hb
  | .node sa, .mk .listKind rep cs, .node sb, ha, hb => shapeOfC_append sa cs sb ha hb
  | .node sa, .mk .mapKind rep cs, .node sb, ha, hb => shapeOfC_append sa cs sb ha hb
  | .node sa, .mk .structKind rep cs, .node sb, ha, hb => shapeOfC_append sa cs sb ha hb
theorem shapeOfC_append :
    (sa : StreamsList) → (cs : Children) → (sb : StreamsList) →
    shapeOfC cs sa = true → shapeOfC cs sb = true →
    shapeOfC cs (appendStreamsL sa sb) = true
  | .nil, _, .nil, ha, _ => ha
  | .nil, .nil, .cons _ _, _, hb => by simp [shapeOfC] at hb
  | .nil, .cons _ _ _, _, ha, _ => by simp [shapeOfC] at ha
  | .cons _ _, .nil, _, ha, _ => by simp [shapeOfC] at ha
  | .cons _ _, .cons _ _ _, .nil, _, hb => by simp [shapeOfC] at hb
  | .cons s srest, .cons _ c crest, .cons u urest, ha, hb => by
    simp only [shapeOfC, appendStreamsL, Bool.and_eq_true] at ha hb ⊢
    exact ⟨shapeOf_append s c u ha.1 hb.1, shapeOfC_append srest crest urest ha.2 hb.2⟩
end

mutual
theorem shapeOf_const (t : LeafTriple) :
    (n : SchemaNode) → shapeOf n (constStreams n t) = true
  | .mk (.primitive _) _ _ => rfl
  | .mk .listKind _ cs => shapeOfC_const t cs
  | .mk .mapKind _ cs => shapeOfC_const t cs
  | .mk .structKind _ cs => shapeOfC_const t cs
theorem shapeOfC_const (t : LeafTriple) :
    (cs : Children) → shapeOfC cs (constStreamsC cs t) = true
  | .nil => rfl
  | .cons _ c crest => by
    simp only [constStreamsC, shapeOfC, Bool.and_eq_true]
    exact ⟨shapeOf_const t c, shapeOfC_const t crest⟩
end

mutual
theorem shapeOf_empty :
    (n : SchemaNode) → shapeOf n (emptyStreams n) = true
  | .mk (.primitive _) _ _ => rfl
  | .mk .listKind _ cs => shapeOfC_empty cs
  | .mk .mapKind _ cs => shapeOfC_empty cs
  | .mk .structKind _ cs => shapeOfC_empty cs
theorem shapeOfC_empty :
    (cs : Children) → shapeOfC cs (emptyStreamsC cs) = true
  | .nil => rfl
  | .cons _ c crest => by
    simp only [emptyStreamsC, shapeOfC, Bool.and_eq_true]
    exact ⟨shapeOf_empty c, shapeOfC_empty crest⟩
end

mutual
theorem allLeaves_const (p : List LeafTriple → Bool) (t : LeafTriple) (hpt : p [t] = true) :
    (n : SchemaNode) → allLeaves p (constStreams n t) = true
  | .mk (.primitive _) _ _ => hpt
  | .mk .listKind _ cs => allLeavesL_const p t hpt cs
  | .mk .mapKind _ cs => allLeavesL_const p t hpt cs
  | .mk .structKind _ cs => allLeavesL_const p t hpt cs
theorem allLeavesL_const (p : List LeafTriple → Bool) (t : LeafTriple) (hpt : p [t] = true) :
    (cs : Children) → allLeavesL p (constStreamsC cs t) = true
  | .nil => rfl
  | .cons _ c crest => by
    simp only [constStreamsC, allLeavesL, Bool.and_eq_true]
    exact ⟨allLeaves_const p t hpt c, allLeavesL_const p t hpt crest⟩
end

mutual
theorem allLeaves_empty (p : List LeafTriple → Bool) (hp : p [] = true) :
    (n : SchemaNode) → allLeaves p (emptyStreams n) = true
  | .mk (.primitive _) _ _ => hp
  | .mk .listKind _ cs => allLeavesL_empty p hp cs
  | .mk .mapKind _ cs => allLeavesL_empty p hp cs
  | .mk .structKind _ cs => allLeavesL_empty p hp cs
theorem allLeavesL_empty (p : List LeafTriple → Bool) (hp : p [] = true) :
    (cs : Children) → allLeavesL p (emptyStreamsC cs) = true
  | .nil => rfl
  | .cons _ c crest => by
    simp only [emptyStreamsC, allLeavesL, Bool.and_eq_true]
    exact ⟨allLeaves_empty p hp c, allLeavesL_empty p hp crest⟩
end

end Parquet

namespace Parquet

mutual
theorem appendStreams_empty :
    (a : Streams) → (n : SchemaNode) → shapeOf n a = true →
    appendStreams a (emptyStreams n) = a
  | .leaf ta, .mk (.primitive _) _ _, _ => by simp [emptyStreams, appendStreams]
  | .leaf _, .mk .listKind _ _, ha => by simp [shapeOf] at ha
  | .leaf _, .mk .mapKind _ _, ha => by simp [shapeOf] at ha
  | .leaf _, .mk .structKind _ _, ha => by simp [shapeOf] at ha
  | .node _, .mk (.primitive _) _ _, ha => by simp [shapeOf] at ha
  | .node sa, .mk .listKind rep cs, ha => by
    simp only [emptyStreams, appendStreams]
    rw [appendStreamsL_empty sa cs ha]
  | .node sa, .mk .mapKind rep cs, ha => by
    simp only [emptyStreams, appendStreams]
    rw [appendStreamsL_empty sa cs ha]
  | .node sa, .mk .structKind rep cs, ha => by
    simp only [emptyStreams, appendStreams]
    rw [appendStreamsL_empty sa cs ha]
theorem appendStreamsL_empty :
    (sa : StreamsList) → (cs : Children) → shapeOfC cs sa = true →
    appendStreamsL sa (emptyStreamsC cs) = sa
  | .nil, _, _ => rfl
  | .cons _ _, .nil, ha => by simp [shapeOfC] at ha
  | .cons s srest, .cons _ c crest, ha => by
    simp only [shapeOfC, Bool.and_eq_true] at ha
    simp only [emptyStreamsC, appendStreamsL]
    rw [appendStreams_empty s c ha.1, appendStreamsL_empty srest crest ha.2]
end

mutual
theorem levelsInRange_const (t : LeafTriple) :
    (n : SchemaNode) → (rd d : Nat) → t.repetitionLevel ≤ rd → t.definitionLevel ≤ d →
    levelsInRange n (constStreams n t) rd d = true
  | .mk (.primitive _) rep _, rd, d, hr, hd => by
    simp only [constStreams, levelsInRange, List.all_cons, List.all_nil,
      Bool.and_eq_true, decide_eq_true_eq]
    exact ⟨⟨hr, by omega⟩, trivial⟩
  | .mk .listKind rep cs, rd, d, hr, hd =>
    levelsInRangeC_const t cs rd (d + defInc rep) hr (by omega)
  | .mk .mapKind rep cs, rd, d, hr, hd =>
    levelsInRangeC_const t cs rd (d + defInc rep) hr (by omega)
  | .mk .structKind rep cs, rd, d, hr, hd =>
    levelsInRangeC_const t cs rd (d + defInc rep) hr (by omega)
theorem levelsInRangeC_const (t : LeafTriple) :
    (cs : Children) → (rd d : Nat) → t.repetitionLevel ≤ rd → t.definitionLevel ≤ d →
    levelsInRangeC cs (constStreamsC cs t) rd d = true
  | .nil, _, _, _, _ => rfl
  | .cons _ c crest, rd, d, hr, hd => by
    simp only [constStreamsC, levelsInRangeC, Bool.and_eq_true]
    exact ⟨levelsInRange_const t c (rd + repInc c.repetition) d (by omega) hd,
      levelsInRangeC_const t crest rd d hr hd⟩
end

mutual
theorem presenceOK_const (t : LeafTriple) (hv : t.value = none) :
    (n : SchemaNode) → (rd d : Nat) → t.definitionLevel < d + defInc n.repetition →
    presenceOK n (constStreams n t) rd d = true
  | .mk (.primitive _) rep _, rd, d, hd => by
    simp only [constStreams, presenceOK, List.all_cons, List.all_nil, Bool.and_eq_true]
    refine ⟨?_, trivial⟩
    simp only [hv, Option.isSome_none]
    have : t.definitionLevel ≠ d + defInc rep := by
      simp only [SchemaNode.repetition] at hd
      omega
    simp [this]
  | .mk .listKind rep cs, rd, d, hd =>
    presenceOKC_const t hv cs rd (d + defInc rep)
      (by simp only [SchemaNode.repetition] at hd; omega)
  | .mk .mapKind rep cs, rd, d, hd =>
    presenceOKC_const t hv cs rd (d + defInc rep)
      (by simp only [SchemaNode.repetition] at hd; omega)
  | .mk .structKind rep cs, rd, d, hd =>
    presenceOKC_const t hv cs rd (d + defInc rep)
      (by simp only [SchemaNode.repetition] at hd; omega)
theorem presenceOKC_const (t : LeafTriple) (hv : t.value = none) :
    (cs : Children) → (rd d : Nat) → t.definitionLevel < d →
    presenceOKC cs (constStreamsC cs t) rd d = true
  | .nil, _, _, _ => rfl
  | .cons _ c crest, rd, d, hd => by
    simp only [constStreamsC, presenceOKC, Bool.and_eq_true]
    refine ⟨presenceOK_const t hv c (rd + repInc c.repetition) d ?_,
      presenceOKC_const t hv crest rd d hd⟩
    have : d ≤ d + defInc c.repetition := Nat.le_add_right _ _
    omega
end

mutual
theorem levelsInRange_append :
    (a : Streams) → (n : SchemaNode) → (b : Streams) → (rd d : Nat) →
    shapeOf n a = true → shapeOf n b = true →
    levelsInRange n a rd d = true → levelsInRange n b rd d = true →
    levelsInRange n (appendStreams a b) rd d = true
  | .leaf ta, .mk (.primitive _) rep _, .leaf tb, rd, d, _, _, hla, hlb => by
    simp only [appendStreams, levelsInRange, List.all_append, Bool.and_eq_true] at hla hlb ⊢
    exact ⟨hla, hlb⟩
  | .leaf _, .mk (.primitive _) _ _, .node _, _, _, _, hb, _, _ => by simp [shapeOf] at hb
  | .leaf _, .mk .listKind _ _, _, _, _, ha, _, _, _ => by simp [shapeOf] at ha
  | .leaf _, .mk .mapKind _ _, _, _, _, ha, _, _, _ => by simp [shapeOf] at ha
  | .leaf _, .mk .structKind _ _, _, _, _, ha, _, _, _ => by simp [shapeOf] at ha
  | .node _, .mk (.primitive _) _ _, _, _, _, ha, _, _, _ => by simp [shapeOf] at ha
  | .node sa, .mk .listKind rep cs, .leaf _, _, _, _, hb, _, _ => by simp [shapeOf] at hb
  | .node sa, .mk .mapKind rep cs, .leaf _, _, _, _, hb, _, _ => by simp [shapeOf] at hb
  | .node sa, .mk .structKind rep cs, .leaf _, _, _, _, hb, _, _ => by simp [shapeOf] at hb
  | .node sa, .mk .listKind rep cs, .node sb, rd, d, ha, hb, hla, hlb =>
    levelsInRangeC_append sa cs sb rd (d + defInc rep) ha hb hla hlb
  | .node sa, .mk .mapKind rep cs, .node sb, rd, d, ha, hb, hla, hlb =>
    levelsInRangeC_append sa cs sb rd (d + defInc rep) ha hb hla hlb
  | .node sa, .mk .structKind rep cs, .node sb, rd, d, ha, hb, hla, hlb =>
    levelsInRangeC_append sa cs sb rd (d + defInc rep) ha hb hla hlb
theorem levelsInRangeC_append :
    (sa : StreamsList) → (cs : Children) → (sb : StreamsList) → (rd d : Nat) →
    shapeOfC cs sa = true → shapeOfC cs sb = true →
    levelsInRangeC cs sa rd d = true → levelsInRangeC cs sb rd d = true →
    levelsInRangeC cs (appendStreamsL sa sb) rd d = true
  | .nil, _, .nil, _, _, _, _, hla, _ => hla
  | .nil, .nil, .cons _ _, _, _, _, hb, _, _ => by simp [shapeOfC] at hb
  | .nil, .cons _ _ _, _, _, _, ha, _, _, _ => by simp [shapeOfC] at ha
  | .cons _ _, .nil, _, _, _, ha, _, _, _ => by simp [shapeOfC] at ha
  | .cons _ _, .cons _ _ _, .nil, _, _, _, hb, _, _ => by simp [shapeOfC] at hb
  | .cons s srest, .cons _ c crest, .cons u urest, rd, d, ha, hb, hla, hlb => by
    simp only [shapeOfC, levelsInRangeC, appendStreamsL, Bool.and_eq_true] at ha hb hla hlb ⊢
    exact ⟨levelsInRange_append s c u _ _ ha.1 hb.1 hla.1 hlb.1,
      levelsInRangeC_append srest crest urest _ _ ha.2 hb.2 hla.2 hlb.2⟩
end

mutual
theorem presenceOK_append :
    (a : Streams) → (n : SchemaNode) → (b : Streams) → (rd d : Nat) →
    shapeOf n a = true → shapeOf n b = true →
    presenceOK n a rd d = true → presenceOK n b rd d = true →
    presenceOK n (appendStreams a b) rd d = true
  | .leaf ta, .mk (.primitive _) rep _, .leaf tb, rd, d, _, _, hla, hlb => by
    simp only [appendStreams, presenceOK, List.all_append, Bool.and_eq_true] at hla hlb ⊢
    exact ⟨hla, hlb⟩
  | .leaf _, .mk (.primitive _) _ _, .node _, _, _, _, hb, _, _ => by simp [shapeOf] at hb
  | .leaf _, .mk .listKind _ _, _, _, _, ha, _, _, _ => by simp [shapeOf] at ha
  | .leaf _, .mk .mapKind _ _, _, _, _, ha, _, _, _ => by simp [shapeOf] at ha
  | .leaf _, .mk .structKind _ _, _, _, _, ha, _, _, _ => by simp [shapeOf] at ha
  | .node _, .mk (.primitive _) _ _, _, _, _, ha, _, _, _ => by simp [shapeOf] at ha
  | .node sa, .mk .listKind rep cs, .leaf _, _, _, _, hb, _, _ => by simp [shapeOf] at hb
  | .node sa, .mk .mapKind rep cs, .leaf _, _, _, _, hb, _, _ => by simp [shapeOf] at hb
  | .node sa, .mk .structKind rep cs, .leaf _, _, _, _, hb, _, _ => by simp [shapeOf] at hb
  | .node sa, .mk .listKind rep cs, .node sb, rd, d, ha, hb, hla, hlb =>
    presenceOKC_append sa cs sb rd (d + defInc rep) ha hb hla hlb
  | .node sa, .mk .mapKind rep cs, .node sb, rd, d, ha, hb, hla, hlb =>
    presenceOKC_append sa cs sb rd (d + defInc rep) ha hb hla hlb
  | .node sa, .mk .structKind rep cs, .node sb, rd, d, ha, hb, hla, hlb =>
    presenceOKC_append sa cs sb rd (d + defInc rep) ha hb hla hlb
theorem presenceOKC_append :
    (sa : StreamsList) → (cs : Children) → (sb : StreamsList) → (rd d : Nat) →
    shapeOfC cs sa = true → shapeOfC cs sb = true →
    presenceOKC cs sa rd d = true → presenceOKC cs sb rd d = true →
    presenceOKC cs (appendStreamsL sa sb) rd d = true
  | .nil, _, .nil, _, _, _, _, hla, _ => hla
  | .nil, .nil, .cons _ _, _, _, _, hb, _, _ => by simp [shapeOfC] at hb
  | .nil, .cons _ _ _, _, _, _, ha, _, _, _ => by simp [shapeOfC] at ha
  | .cons _ _, .nil, _, _, _, ha, _, _, _ => by simp [shapeOfC] at ha
  | .cons _ _, .cons _ _ _, .nil, _, _, _, hb, _, _ => by simp [shapeOfC] at hb
  | .cons s srest, .cons _ c crest, .cons u urest, rd, d, ha, hb, hla, hlb => by
    simp only [shapeOfC, presenceOKC, appendStreamsL, Bool.and_eq_true] at ha hb hla hlb ⊢
    exact ⟨presenceOK_append s c u _ _ ha.1 hb.1 hla.1 hlb.1,
      presenceOKC_append srest crest urest _ _ ha.2 hb.2 hla.2 hlb.2⟩
end

end Parquet

namespace Parquet

mutual
theorem levelsInRange_empty :
    (n : SchemaNode) → (rd d : Nat) → levelsInRange n (emptyStreams n) rd d = true
  | .mk (.primitive _) _ _, _, _ => rfl
  | .mk .listKind rep cs, rd, d => levelsInRangeC_empty cs rd (d + defInc rep)
  | .mk .mapKind rep cs, rd, d => levelsInRangeC_empty cs rd (d + defInc rep)
  | .mk .structKind rep cs, rd, d => levelsInRangeC_empty cs rd (d + defInc rep)
theorem levelsInRangeC_empty :
    (cs : Children) → (rd d : Nat) → levelsInRangeC cs (emptyStreamsC cs) rd d = true
  | .nil, _, _ => rfl
  | .cons _ c crest, rd, d => by
    simp only [emptyStreamsC, levelsInRangeC, Bool.and_eq_true]
    exact ⟨levelsInRange_empty c _ _, levelsInRangeC_empty crest _ _⟩
end

mutual
theorem presenceOK_empty :
    (n : SchemaNode) → (rd d : Nat) → presenceOK n (emptyStreams n) rd d = true
  | .mk (.primitive _) _ _, _, _ => rfl
  | .mk .listKind rep cs, rd, d => presenceOKC_empty cs rd (d + defInc rep)
  | .mk .mapKind rep cs, rd, d => presenceOKC_empty cs rd (d + defInc rep)
  | .mk .structKind rep cs, rd, d => presenceOKC_empty cs rd (d + defInc rep)
theorem presenceOKC_empty :
    (cs : Children) → (rd d : Nat) → presenceOKC cs (emptyStreamsC cs) rd d = true
  | .nil, _, _ => rfl
  | .cons _ c crest, rd, d => by
    simp only [emptyStreamsC, presenceOKC, Bool.and_eq_true]
    exact ⟨presenceOK_empty c _ _, presenceOKC_empty crest _ _⟩
end

mutual
theorem firstLeaf_pred (p : List LeafTriple → Bool) :
    (s : Streams) → (n : SchemaNode) → wellFormed n = true → shapeOf n s = true →
    allLeaves p s = true → ∃ ts, firstLeaf s = some ts ∧ p ts = true
  | .leaf ts, _, _, _, hp => ⟨ts, rfl, hp⟩
  | .node ss, .mk k rep cs, hw, hs, hp => by
    rcases wellFormed_parts hw with ⟨_, hshape, hwc⟩
    cases k with
    | primitive t => simp [shapeOf] at hs
    | listKind =>
      cases cs with
      | nil => simp [kindShapeOK] at hshape
      | cons nm c crest =>
        exact firstLeafL_pred p ss (.cons nm c crest) hwc hs hp ⟨nm, c, crest, rfl⟩
    | mapKind =>
      cases cs with
      | nil => simp [kindShapeOK] at hshape
      | cons nm c crest =>
        exact firstLeafL_pred p ss (.cons nm c crest) hwc hs hp ⟨nm, c, crest, rfl⟩
    | structKind =>
      cases cs with
      | nil => simp [kindShapeOK] at hshape
      | cons nm c crest =>
        exact firstLeafL_pred p ss (.cons nm c crest) hwc hs hp ⟨nm, c, crest, rfl⟩
theorem firstLeafL_pred (p : List LeafTriple → Bool) :
    (ss : StreamsList) → (cs : Children) →
    wellFormedC cs = true → shapeOfC cs ss = true → allLeavesL p ss = true →
    (∃ nm c crest, cs = .cons nm c crest) →
    ∃ ts, firstLeafL ss = some ts ∧ p ts = true
  | .nil, cs, _, hs, _, hne => by
    rcases hne with ⟨nm, c, crest, rfl⟩
    simp [shapeOfC] at hs
  | .cons s srest, cs, hwc, hs, hp, hne => by
    rcases hne with ⟨nm, c, crest, rfl⟩
    simp only [shapeOfC, allLeavesL, Bool.and_eq_true] at hs hp
    rcases wellFormedC_parts hwc with ⟨hwch, _⟩
    rcases firstLeaf_pred p s c hwch hs.1 hp.1 with ⟨ts, hfl, hpts⟩
    exact ⟨ts, by simp [firstLeafL, hfl], hpts⟩
end

theorem splitStreamsL_cons_nil (r0 : Nat) (s : Streams) :
    splitStreamsL r0 (.cons s .nil)
      = (splitStreams r0 s).bind (fun cs => some (cs.map (fun c => StreamsList.cons c .nil))) := rfl

theorem splitStreamsL_cons_cons (r0 : Nat) (s s2 : Streams) (rest : StreamsList) :
    splitStreamsL r0 (.cons s (.cons s2 rest))
      = (splitStreams r0 s).bind (fun cs =>
          (splitStreamsL r0 (.cons s2 rest)).bind (fun rs =>
            if cs.length = rs.length then
              some (List.zipWith (fun c r => StreamsList.cons c r) cs rs)
            else none)) := rfl

mutual
theorem splitStreams_empty (r0 : Nat) :
    (n : SchemaNode) → wellFormed n = true →
    splitStreams r0 (emptyStreams n) = some []
  | .mk (.primitive _) _ _, _ => rfl
  | .mk .listKind rep cs, hw => by
    rcases wellFormed_parts hw with ⟨_, hshape, hwc⟩
    cases cs with
    | nil => simp [kindShapeOK] at hshape
    | cons nm c crest =>
      simp only [emptyStreams, splitStreams]
      rw [splitStreamsL_empty r0 (.cons nm c crest) hwc ⟨nm, c, crest, rfl⟩]
      rfl
  | .mk .mapKind rep cs, hw => by
    rcases wellFormed_parts hw with ⟨_, hshape, hwc⟩
    cases cs with
    | nil => simp [kindShapeOK] at hshape
    | cons nm c crest =>
      simp only [emptyStreams, splitStreams]
      rw [splitStreamsL_empty r0 (.cons nm c crest) hwc ⟨nm, c, crest, rfl⟩]
      rfl
  | .mk .structKind rep cs, hw => by
    rcases wellFormed_parts hw with ⟨_, hshape, hwc⟩
    cases cs with
    | nil => simp [kindShapeOK] at hshape
    | cons nm c crest =>
      simp only [emptyStreams, splitStreams]
      rw [splitStreamsL_empty r0 (.cons nm c crest) hwc ⟨nm, c, crest, rfl⟩]
      rfl
theorem splitStreamsL_empty (r0 : Nat) :
    (cs : Children) → wellFormedC cs = true →
    (∃ nm c crest, cs = .cons nm c crest) →
    splitStreamsL r0 (emptyStreamsC cs) = some []
  | .nil, _, hne => by
    rcases hne with ⟨_, _, _, h⟩
    cases h
  | .cons nm c crest, hwc, _ => by
    rcases wellFormedC_parts hwc with ⟨hwch, hwcr⟩
    cases crest with
    | nil =>
      simp only [emptyStreamsC, splitStreamsL]
      rw [splitStreams_empty r0 c hwch]
      rfl
    | cons nm2 c2 crest2 =>
      have h1 := splitStreams_empty r0 c hwch
      have h2 := splitStreamsL_empty r0 (.cons nm2 c2 crest2) hwcr ⟨nm2, c2, crest2, rfl⟩
      rw [show emptyStreamsC (Children.cons nm2 c2 crest2)
          = StreamsList.cons (emptyStreams c2) (emptyStreamsC crest2) from rfl] at h2
      show splitStreamsL r0 (.cons (emptyStreams c)
        (.cons (emptyStreams c2) (emptyStreamsC crest2))) = some []
      rw [splitStreamsL_cons_cons, h1, Option.some_bind, h2, Option.some_bind]
      simp
end

end Parquet

namespace Parquet

theorem chunkAt_of_goodChunk (r rd r0 : Nat) (ts : List LeafTriple)
    (h : goodChunk r rd ts = true) (hr : r ≤ r0) (hrd : r0 ≤ rd) :
    chunkAt r0 ts = true := by
  rcases (goodChunk_iff r rd ts).mp h with ⟨x, xt, rfl, hx, ht⟩
  simp only [chunkAt, Bool.and_eq_true, decide_eq_true_eq, List.all_eq_true]
  refine ⟨by omega, fun u hu => ?_⟩
  have := ht u hu
  omega

theorem chunkAt_parts (r0 : Nat) (ts : List LeafTriple) (h : chunkAt r0 ts = true) :
    ∃ x xt, ts = x :: xt ∧ x.repetitionLevel ≤ r0 ∧ ∀ u ∈ xt, r0 < u.repetitionLevel := by
  cases ts with
  | nil => simp [chunkAt] at h
  | cons x xt =>
    simp only [chunkAt, Bool.and_eq_true, decide_eq_true_eq, List.all_eq_true] at h
    exact ⟨x, xt, rfl, h.1, fun u hu => by simpa using h.2 u hu⟩

theorem shapeOfC_cons_parts {nm : String} {c : SchemaNode} {crest : Children}
    {s : Streams} {srest : StreamsList}
    (h : shapeOfC (.cons nm c crest) (.cons s srest) = true) :
    shapeOf c s = true ∧ shapeOfC crest srest = true := by
  simp only [shapeOfC, Bool.and_eq_true] at h
  exact h

theorem allLeavesL_cons_parts {p : List LeafTriple → Bool} {s : Streams} {srest : StreamsList}
    (h : allLeavesL p (.cons s srest) = true) :
    allLeaves p s = true ∧ allLeavesL p srest = true := by
  simp only [allLeavesL, Bool.and_eq_true] at h
  exact h

mutual
theorem splitStreams_append (r0 : Nat) :
    (a : Streams) → (n : SchemaNode) → (b : Streams) → (res : List Streams) →
    shapeOf n a = true → shapeOf n b = true →
    allLeaves (chunkAt r0) a = true → allLeaves (headLow r0) b = true →
    splitStreams r0 b = some res →
    splitStreams r0 (appendStreams a b) = some (a :: res)
  | .leaf ta, .mk (.primitive _) _ _, .leaf tb, res, _, _, hca, hlb, hsp => by
    rcases chunkAt_parts r0 ta hca with ⟨x, xt, rfl, hx, ht⟩
    simp only [splitStreams, Option.some.injEq] at hsp
    show splitStreams r0 (.leaf ((x :: xt) ++ tb)) = _
    simp only [splitStreams, splitTriples_append r0 x xt tb hx ht hlb, List.map_cons,
      Option.some.injEq]
    rw [hsp]
  | .leaf _, .mk (.primitive _) _ _, .node _, _, _, hb, _, _, _ => by simp [shapeOf] at hb
  | .leaf _, .mk .listKind _ _, _, _, ha, _, _, _, _ => by simp [shapeOf] at ha
  | .leaf _, .mk .mapKind _ _, _, _, ha, _, _, _, _ => by simp [shapeOf] at ha
  | .leaf _, .mk .structKind _ _, _, _, ha, _, _, _, _ => by simp [shapeOf] at ha
  | .node _, .mk (.primitive _) _ _, _, _, ha, _, _, _, _ => by simp [shapeOf] at ha
  | .node sa, .mk .listKind _ cs, .leaf _, _, _, hb, _, _, _ => by simp [shapeOf] at hb
  | .node sa, .mk .mapKind _ cs, .leaf _, _, _, hb, _, _, _ => by simp [shapeOf] at hb
  | .node sa, .mk .structKind _ cs, .leaf _, _, _, hb, _, _, _ => by simp [shapeOf] at hb
  | .node sa, .mk .listKind _ cs, .node sb, res, ha, hb, hca, hlb, hsp => by
    simp only [splitStreams] at hsp
    rcases Option.map_eq_some'.mp hsp with ⟨rs, hrs, rfl⟩
    have h := splitStreamsL_append r0 sa cs sb rs ha hb hca hlb hrs
    simp only [appendStreams, splitStreams, h, Option.map_some', List.map_cons]
  | .node sa, .mk .mapKind _ cs, .node sb, res, ha, hb, hca, hlb, hsp => by
    simp only [splitStreams] at hsp
    rcases Option.map_eq_some'.mp hsp with ⟨rs, hrs, rfl⟩
    have h := splitStreamsL_append r0 sa cs sb rs ha hb hca hlb hrs
    simp only [appendStreams, splitStreams, h, Option.map_some', List.map_cons]
  | .node sa, .mk .structKind _ cs, .node sb, res, ha, hb, hca, hlb, hsp => by
    simp only [splitStreams] at hsp
    rcases Option.map_eq_some'.mp hsp with ⟨rs, hrs, rfl⟩
    have h := splitStreamsL_append r0 sa cs sb rs ha hb hca hlb hrs
    simp only [appendStreams, splitStreams, h, Option.map_some', List.map_cons]
theorem splitStreamsL_append (r0 : Nat) :
    (sa : StreamsList) → (cs : Children) → (sb : StreamsList) → (rsb : List StreamsList) →
    shapeOfC cs sa = true → shapeOfC cs sb = true →
    allLeavesL (chunkAt r0) sa = true → allLeavesL (headLow r0) sb = true →
    splitStreamsL r0 sb = some rsb →
    splitStreamsL r0 (appendStreamsL sa sb) = some (sa :: rsb)
  | .nil, .nil, .nil, _, _, _, _, _, hsp => Option.noConfusion hsp
  | .nil, .nil, .cons _ _, _, _, hb, _, _, _ => by simp [shapeOfC] at hb
  | .nil, .cons _ _ _, _, _, ha, _, _, _, _ => by simp [shapeOfC] at ha
  | .cons _ _, .nil, _, _, ha, _, _, _, _ => by simp [shapeOfC] at ha
  | .cons _ _, .cons _ _ _, .nil, _, _, hb, _, _, _ => by simp [shapeOfC] at hb
  | .cons s .nil, .cons _ c .nil, .cons u .nil, rsb, ha0, hb0, hca0, hlb0, hsp => by
    have ha := shapeOfC_cons_parts ha0
    have hb := shapeOfC_cons_parts hb0
    have hca := allLeavesL_cons_parts hca0
    have hlb := allLeavesL_cons_parts hlb0
    rw [splitStreamsL_cons_nil] at hsp
    rcases hu : splitStreams r0 u with _ | cu
    · rw [hu] at hsp; simp at hsp
    · rw [hu, Option.some_bind] at hsp
      have h2 := Option.some.inj hsp
      have hap := splitStreams_append r0 s c u cu ha.1 hb.1 hca.1 hlb.1 hu
      show splitStreamsL r0 (.cons (appendStreams s u) .nil) = _
      rw [splitStreamsL_cons_nil, hap, Option.some_bind]
      simp only [List.map_cons, Option.some.injEq]
      rw [← h2]
  | .cons _ .nil, .cons _ _ (.cons _ _ _), _, _, ha, _, _, _, _ => by
    simp [shapeOfC] at ha
  | .cons _ (.cons _ _), .cons _ _ .nil, _, _, ha, _, _, _, _ => by
    simp [shapeOfC] at ha
  | .cons _ (.cons _ _), .cons _ _ (.cons _ _ _), .cons _ .nil, _, _, hb, _, _, _ => by
    simp [shapeOfC] at hb
  | .cons _ .nil, .cons _ _ .nil, .cons _ (.cons _ _), _, _, hb, _, _, _ => by
    simp [shapeOfC] at hb
  | .cons s (.cons s2 srest), .cons nm1 c (.cons nm2 c2 crest), .cons u (.cons u2 urest),
      rsb, ha0, hb0, hca0, hlb0, hsp => by
    have ha := shapeOfC_cons_parts ha0
    have hb := shapeOfC_cons_parts hb0
    have hca := allLeavesL_cons_parts hca0
    have hlb := allLeavesL_cons_parts hlb0
    rw [splitStreamsL_cons_cons] at hsp
    rcases hu : splitStreams r0 u with _ | cu
    · rw [hu] at hsp; simp at hsp
    · rw [hu, Option.some_bind] at hsp
      rcases hur : splitStreamsL r0 (.cons u2 urest) with _ | rsu
      · rw [hur] at hsp; simp at hsp
      · rw [hur, Option.some_bind] at hsp
        by_cases hlen : cu.length = rsu.length
        · rw [if_pos hlen] at hsp
          have h2 := Option.some.inj hsp
          have hap := splitStreams_append r0 s c u cu ha.1 hb.1 hca.1 hlb.1 hu
          have hapL := splitStreamsL_append r0 (.cons s2 srest) (.cons nm2 c2 crest)
            (.cons u2 urest) rsu ha.2 hb.2 hca.2 hlb.2 hur
          have happ : appendStreamsL (.cons s (.cons s2 srest)) (.cons u (.cons u2 urest))
              = .cons (appendStreams s u)
                  (appendStreamsL (.cons s2 srest) (.cons u2 urest)) := rfl
          rw [happ]
          have happ2 : appendStreamsL (.cons s2 srest) (.cons u2 urest)
              = .cons (appendStreams s2 u2) (appendStreamsL srest urest) := rfl
          rw [happ2, splitStreamsL_cons_cons, hap, Option.some_bind, ← happ2, hapL,
            Option.some_bind]
          rw [if_pos (by simp [hlen])]
          simp only [List.zipWith_cons_cons, Option.some.injEq]
          rw [← h2]
        · rw [if_neg hlen] at hsp; simp at hsp
end

theorem splitStreams_single (r0 : Nat) (a : Streams) (n : SchemaNode)
    (hw : wellFormed n = true) (ha : shapeOf n a = true)
    (hca : allLeaves (chunkAt r0) a = true) :
    splitStreams r0 a = some [a] := by
  have h1 := splitStreams_empty r0 n hw
  have h2 := splitStreams_append r0 a n (emptyStreams n) [] ha (shapeOf_empty n) hca
    (allLeaves_empty (headLow r0) rfl n) h1
  rw [appendStreams_empty a n ha] at h2
  exact h2

end Parquet

namespace Parquet

theorem rowSliceL_cons (i : Nat) (s : Streams) (rest : StreamsList) :
    rowSliceL i (.cons s rest)
      = (rowSlice i s).bind (fun c =>
          (rowSliceL i rest).bind (fun cs => some (StreamsList.cons c cs))) := rfl

theorem numRowsL_cons (s : Streams) (rest : StreamsList) :
    numRowsL (.cons s rest) = max (numRows s) (numRowsL rest) := rfl

mutual
theorem rowSlice_of_split :
    (s : Streams) → (cs : List Streams) → splitStreams 0 s = some cs →
    (∀ i, rowSlice i s = cs[i]?) ∧ numRows s = cs.length
  | .leaf ts, cs, hsp => by
    simp only [splitStreams, Option.some.injEq] at hsp
    subst hsp
    refine ⟨fun i => ?_, by simp [numRows]⟩
    simp only [rowSlice, List.getElem?_map]
  | .node ss, cs, hsp => by
    simp only [splitStreams] at hsp
    rcases Option.map_eq_some'.mp hsp with ⟨rs, hrs, rfl⟩
    have h := rowSliceL_of_split ss rs hrs
    refine ⟨fun i => ?_, by simp only [numRows, h.2, List.length_map]⟩
    simp only [rowSlice, h.1 i, List.getElem?_map]
theorem rowSliceL_of_split :
    (ss : StreamsList) → (rs : List StreamsList) → splitStreamsL 0 ss = some rs →
    (∀ i, rowSliceL i ss = rs[i]?) ∧ numRowsL ss = rs.length
  | .nil, _, hsp => Option.noConfusion hsp
  | .cons s .nil, rs, hsp => by
    rw [splitStreamsL_cons_nil] at hsp
    rcases hcu : splitStreams 0 s with _ | cu
    · rw [hcu] at hsp; exact Option.noConfusion hsp
    · rw [hcu, Option.some_bind] at hsp
      have h2 := Option.some.inj hsp
      subst h2
      have ih := rowSlice_of_split s cu hcu
      refine ⟨fun i => ?_, ?_⟩
      · rw [rowSliceL_cons, ih.1 i]
        simp only [List.getElem?_map]
        rcases cu[i]? with _ | c <;> simp [rowSliceL]
      · rw [numRowsL_cons, ih.2]
        simp [numRowsL, List.length_map]
  | .cons s (.cons s2 rest2), rs, hsp => by
    rw [splitStreamsL_cons_cons] at hsp
    rcases hcu : splitStreams 0 s with _ | cu
    · rw [hcu] at hsp; exact Option.noConfusion hsp
    · rw [hcu, Option.some_bind] at hsp
      rcases hru : splitStreamsL 0 (.cons s2 rest2) with _ | rsu
      · rw [hru] at hsp; exact Option.noConfusion hsp
      · rw [hru, Option.some_bind] at hsp
        by_cases hlen : cu.length = rsu.length
        · rw [if_pos hlen] at hsp
          have h2 := Option.some.inj hsp
          subst h2
          have ih1 := rowSlice_of_split s cu hcu
          have ih2 := rowSliceL_of_split (.cons s2 rest2) rsu hru
          refine ⟨fun i => ?_, ?_⟩
          · rw [rowSliceL_cons, ih1.1 i, ih2.1 i, List.getElem?_zipWith']
            rcases cu[i]? with _ | c <;> rcases rsu[i]? with _ | r <;> simp
          · rw [numRowsL_cons, ih1.2, ih2.2, List.length_zipWith]
            omega
        · rw [if_neg hlen] at hsp; exact Option.noConfusion hsp
end

end Parquet

namespace Parquet

mutual
theorem allLeaves_and (p q : List LeafTriple → Bool) :
    (s : Streams) → allLeaves p s = true → allLeaves q s = true →
    allLeaves (fun ts => p ts && q ts) s = true
  | .leaf ts, hp, hq => by simp only [allLeaves] at *; simp [hp, hq]
  | .node ss, hp, hq => allLeavesL_and p q ss hp hq
theorem allLeavesL_and (p q : List LeafTriple → Bool) :
    (ss : StreamsList) → allLeavesL p ss = true → allLeavesL q ss = true →
    allLeavesL (fun ts => p ts && q ts) ss = true
  | .nil, _, _ => rfl
  | .cons s rest, hp, hq => by
    rcases allLeavesL_cons_parts hp with ⟨hp1, hp2⟩
    rcases allLeavesL_cons_parts hq with ⟨hq1, hq2⟩
    simp only [allLeavesL, Bool.and_eq_true]
    exact ⟨allLeaves_and p q s hp1 hq1, allLeavesL_and p q rest hp2 hq2⟩
end

theorem conforms_null_rep {n : SchemaNode} (h : conforms n .null = true) :
    n.repetition = 1 := by
  rcases n with ⟨k, rep, cs⟩
  show rep = 1
  rw [conforms.eq_def] at h
  split at h <;>
    first
      | simpa [SchemaNode.repetition] using h
      | (rename_i hv; cases hv)
      | (rename_i hn hv; cases hv)

theorem defsGE_mono (m m' : Nat) (hm : m' ≤ m) (ts : List LeafTriple)
    (h : defsGE m ts = true) : defsGE m' ts = true := by
  simp only [defsGE, List.all_eq_true, decide_eq_true_eq] at h ⊢
  exact fun t ht => le_trans hm (h t ht)

theorem goodChunk_combine (r rd : Nat) (x y : List LeafTriple)
    (hx : goodChunk r (rd + 1) x = true)
    (hy : (headLow (rd + 1) y && allHigh rd y) = true) :
    goodChunk r rd (x ++ y) = true := by
  rcases (goodChunk_iff r (rd + 1) x).mp hx with ⟨h, ht, rfl, hh, hta⟩
  simp only [Bool.and_eq_true] at hy
  rcases hy with ⟨_, hy2⟩
  refine (goodChunk_iff r rd _).mpr ⟨h, ht ++ y, by simp, hh, fun u hu => ?_⟩
  rcases List.mem_append.mp hu with h1 | h2
  · have := hta u h1; omega
  · simp only [allHigh, List.all_eq_true, decide_eq_true_eq] at hy2
    exact hy2 u h2

theorem tailPred_combine (rd : Nat) (x y : List LeafTriple)
    (hx : goodChunk (rd + 1) (rd + 1) x = true)
    (hy : (headLow (rd + 1) y && allHigh rd y) = true) :
    (headLow (rd + 1) (x ++ y) && allHigh rd (x ++ y)) = true := by
  rcases (goodChunk_iff (rd + 1) (rd + 1) x).mp hx with ⟨h, ht, rfl, hh, hta⟩
  simp only [Bool.and_eq_true] at hy
  rcases hy with ⟨_, hy2⟩
  simp only [allHigh, List.all_eq_true, decide_eq_true_eq] at hy2
  simp only [List.cons_append, headLow, Bool.and_eq_true, decide_eq_true_eq, allHigh,
    List.all_eq_true]
  refine ⟨by omega, fun u hu => ?_⟩
  rcases List.mem_cons.mp hu with rfl | hu2
  · omega
  · rcases List.mem_append.mp hu2 with h1 | h2
    · have := hta u h1; omega
    · exact hy2 u h2

theorem defsGE_append (m : Nat) (x y : List LeafTriple)
    (hx : defsGE m x = true) (hy : defsGE m y = true) :
    defsGE m (x ++ y) = true := by
  simp only [defsGE, List.all_append, Bool.and_eq_true]
  exact ⟨hx, hy⟩

end Parquet

namespace Parquet

theorem shredValue_null (n : SchemaNode) (r rd d : Nat) :
    shredValue n .null r rd d = constStreams n ⟨r, d, none⟩ := by
  rw [shredValue.eq_def]
  split <;> first | rfl | (rename_i hv; cases hv) | (rename_i h1 hv; cases hv)

theorem shredValue_scalar (t : PrimType) (rep : Nat) (cs : Children) (p : PrimVal)
    (r rd d : Nat) :
    shredValue (.mk (.primitive t) rep cs) (.scalar p) r rd d
      = .leaf [⟨r, d + defInc rep, some p⟩] := rfl

theorem shredValue_list_nil (rep : Nat) (nm : String) (e : SchemaNode) (r rd d : Nat) :
    shredValue (.mk .listKind rep (.cons nm e .nil)) (.list .nil) r rd d
      = .node (.cons (constStreams e ⟨r, d + defInc rep, none⟩) .nil) := rfl

theorem shredValue_list_cons (rep : Nat) (nm : String) (e : SchemaNode)
    (v : NestedValue) (rest : ValueList) (r rd d : Nat) :
    shredValue (.mk .listKind rep (.cons nm e .nil)) (.list (.cons v rest)) r rd d
      = .node (.cons (appendStreams (shredValue e v r (rd + 1) (d + defInc rep))
          (shredElemsTail e rest rd (d + defInc rep))) .nil) := rfl

theorem shredValue_map_nil (rep kvrep : Nat) (nm nmk nmw : String) (k w : SchemaNode)
    (r rd d : Nat) :
    shredValue (.mk .mapKind rep
        (.cons nm (.mk .structKind kvrep (.cons nmk k (.cons nmw w .nil))) .nil))
      (.mapEntries .nil) r rd d
      = .node (.cons (constStreams (.mk .structKind kvrep (.cons nmk k (.cons nmw w .nil)))
          ⟨r, d + defInc rep, none⟩) .nil) := rfl

theorem shredValue_map_cons (rep kvrep : Nat) (nm nmk nmw : String) (k w : SchemaNode)
    (kv vv : NestedValue) (rest : EntryList) (r rd d : Nat) :
    shredValue (.mk .mapKind rep
        (.cons nm (.mk .structKind kvrep (.cons nmk k (.cons nmw w .nil))) .nil))
      (.mapEntries (.cons kv vv rest)) r rd d
      = .node (.cons (appendStreams
          (.node (.cons (shredValue k kv r (rd + 1 + repInc k.repetition) (d + defInc rep + 1))
            (.cons (shredValue w vv r (rd + 1 + repInc w.repetition) (d + defInc rep + 1)) .nil)))
          (shredEntriesTail k w rest rd (d + defInc rep))) .nil) := rfl

theorem shredValue_struct (rep : Nat) (cs : Children) (fs : FieldList) (r rd d : Nat) :
    shredValue (.mk .structKind rep cs) (.struct fs) r rd d
      = .node (shredFields cs fs r rd (d + defInc rep)) := rfl

end Parquet

namespace Parquet

theorem kindShapeOK_prim_inv {t : PrimType} {cs : Children}
    (h : kindShapeOK (.primitive t) cs = true) : cs = .nil := by
  cases cs with
  | nil => rfl
  | cons a b c => exact Bool.noConfusion h

theorem kindShapeOK_list_inv {cs : Children} (h : kindShapeOK .listKind cs = true) :
    ∃ nm e, cs = .cons nm e .nil ∧ SchemaNode.repetition e = 2 := by
  rw [kindShapeOK.eq_def] at h
  split at h <;>
    first
      | (exact ⟨_, _, rfl, by simpa using h⟩)
      | (rename_i heq; cases heq)
      | (exact Bool.noConfusion h)

theorem kindShapeOK_map_inv {cs : Children} (h : kindShapeOK .mapKind cs = true) :
    ∃ nm kvrep nmk k nmw w,
      cs = .cons nm (.mk .structKind kvrep (.cons nmk k (.cons nmw w .nil))) .nil
      ∧ kvrep = 2 ∧ SchemaNode.repetition k ≠ 2 := by
  rw [kindShapeOK.eq_def] at h
  split at h <;>
    first
      | (exact ⟨_, _, _, _, _, _, rfl, by
          simp only [Bool.and_eq_true, beq_iff_eq, bne_iff_ne, ne_eq] at h
          exact ⟨h.1, h.2⟩⟩)
      | (rename_i heq; cases heq)
      | (exact Bool.noConfusion h)

theorem kindShapeOK_struct_inv {cs : Children} (h : kindShapeOK .structKind cs = true) :
    ∃ nm c crest, cs = .cons nm c crest := by
  cases cs with
  | nil => exact Bool.noConfusion h
  | cons a b c => exact ⟨a, b, c, rfl⟩

end Parquet

namespace Parquet

theorem goodChunk_mono_rd (r rd rd' : Nat) (ts : List LeafTriple)
    (h : goodChunk r rd' ts = true) (hle : rd ≤ rd') : goodChunk r rd ts = true := by
  rcases (goodChunk_iff r rd' ts).mp h with ⟨x, xt, rfl, hx, ht⟩
  exact (goodChunk_iff r rd _).mpr ⟨x, xt, rfl, hx, fun u hu => lt_of_le_of_lt hle (ht u hu)⟩

theorem shredElemsTail_nil (e : SchemaNode) (rd d : Nat) :
    shredElemsTail e .nil rd d = emptyStreams e := rfl

theorem shredElemsTail_cons (e : SchemaNode) (v : NestedValue) (rest : ValueList)
    (rd d : Nat) :
    shredElemsTail e (.cons v rest) rd d
      = appendStreams (shredValue e v (rd + 1) (rd + 1) d) (shredElemsTail e rest rd d) := rfl

theorem shredEntriesTail_nil (k w : SchemaNode) (rd d : Nat) :
    shredEntriesTail k w .nil rd d
      = .node (.cons (emptyStreams k) (.cons (emptyStreams w) .nil)) := rfl

theorem shredEntriesTail_cons (k w : SchemaNode) (kv vv : NestedValue) (rest : EntryList)
    (rd d : Nat) :
    shredEntriesTail k w (.cons kv vv rest) rd d
      = appendStreams
          (.node (.cons (shredValue k kv (rd + 1) (rd + 1 + repInc k.repetition) (d + 1))
            (.cons (shredValue w vv (rd + 1) (rd + 1 + repInc w.repetition) (d + 1)) .nil)))
          (shredEntriesTail k w rest rd d) := rfl

theorem shredFields_cons (nm nm2 : String) (c : SchemaNode) (crest : Children)
    (fv : NestedValue) (frest : FieldList) (r rd d : Nat) :
    shredFields (.cons nm2 c crest) (.cons nm fv frest) r rd d
      = .cons (shredValue c fv r (rd + repInc c.repetition) d)
          (shredFields crest frest r rd d) := rfl

end Parquet

namespace Parquet

theorem kvNodeInv (nmk nmw : String) (k w : SchemaNode) (K W : Streams) (r rd d : Nat)
    (s1 : shapeOf k K = true) (s2 : shapeOf w W = true)
    (c1 : allLeaves (goodChunk r (rd + 1 + repInc (SchemaNode.repetition k))) K = true)
    (c2 : allLeaves (goodChunk r (rd + 1 + repInc (SchemaNode.repetition w))) W = true)
    (d1 : allLeaves (defsGE (d + 1)) K = true) (d2 : allLeaves (defsGE (d + 1)) W = true)
    (l1 : levelsInRange k K (rd + 1 + repInc (SchemaNode.repetition k)) (d + 1) = true)
    (l2 : levelsInRange w W (rd + 1 + repInc (SchemaNode.repetition w)) (d + 1) = true)
    (p1 : presenceOK k K (rd + 1 + repInc (SchemaNode.repetition k)) (d + 1) = true)
    (p2 : presenceOK w W (rd + 1 + repInc (SchemaNode.repetition w)) (d + 1) = true) :
    shapeOf (.mk .structKind 2 (.cons nmk k (.cons nmw w .nil)))
        (.node (.cons K (.cons W .nil))) = true
    ∧ allLeaves (goodChunk r (rd + 1)) (.node (.cons K (.cons W .nil))) = true
    ∧ allLeaves (defsGE (d + 1)) (.node (.cons K (.cons W .nil))) = true
    ∧ levelsInRange (.mk .structKind 2 (.cons nmk k (.cons nmw w .nil)))
        (.node (.cons K (.cons W .nil))) (rd + 1) d = true
    ∧ presenceOK (.mk .structKind 2 (.cons nmk k (.cons nmw w .nil)))
        (.node (.cons K (.cons W .nil))) (rd + 1) d = true := by
  refine ⟨?_, ?_, ?_, ?_, ?_⟩
  · simp only [shapeOf, shapeOfC, Bool.and_eq_true]
    exact ⟨s1, s2, trivial⟩
  · simp only [allLeaves, allLeavesL, Bool.and_eq_true]
    exact ⟨allLeaves_imp _ _
        (fun ts h => goodChunk_mono_rd r (rd + 1) _ ts h (Nat.le_add_right _ _)) K c1,
      allLeaves_imp _ _
        (fun ts h => goodChunk_mono_rd r (rd + 1) _ ts h (Nat.le_add_right _ _)) W c2,
      trivial⟩
  · simp only [allLeaves, allLeavesL, Bool.and_eq_true]
    exact ⟨d1, d2, trivial⟩
  · simp only [levelsInRange, levelsInRangeC, Bool.and_eq_true]
    exact ⟨l1, l2, trivial⟩
  · simp only [presenceOK, presenceOKC, Bool.and_eq_true]
    exact ⟨p1, p2, trivial⟩

theorem oneChildNodeInv (kk : Kind) (hkk : kindIsPrimitive kk = false)
    (rep : Nat) (nm : String) (child : SchemaNode) (A : Streams) (r rd d : Nat)
    (h1 : shapeOf child A = true)
    (h2 : allLeaves (goodChunk r rd) A = true)
    (h3 : allLeaves (defsGE (d + defInc rep)) A = true)
    (h5 : levelsInRange child A (rd + repInc (SchemaNode.repetition child))
      (d + defInc rep) = true)
    (h6 : presenceOK child A (rd + repInc (SchemaNode.repetition child))
      (d + defInc rep) = true) :
    shapeOf (.mk kk rep (.cons nm child .nil)) (.node (.cons A .nil)) = true
    ∧ allLeaves (goodChunk r rd) (.node (.cons A .nil)) = true
    ∧ allLeaves (defsGE d) (.node (.cons A .nil)) = true
    ∧ allLeaves (defsGE (d + defInc rep)) (.node (.cons A .nil)) = true
    ∧ levelsInRange (.mk kk rep (.cons nm child .nil)) (.node (.cons A .nil)) rd d = true
    ∧ presenceOK (.mk kk rep (.cons nm child .nil)) (.node (.cons A .nil)) rd d = true := by
  have h3w : allLeaves (defsGE d) A = true :=
    allLeaves_imp _ _ (fun ts h => defsGE_mono _ _ (Nat.le_add_right _ _) ts h) A h3
  cases kk with
  | primitive t => exact Bool.noConfusion hkk
  | listKind =>
    refine ⟨?_, ?_, ?_, ?_, ?_, ?_⟩
    · simp only [shapeOf, shapeOfC, Bool.and_eq_true]
      exact ⟨h1, trivial⟩
    · simp only [allLeaves, allLeavesL, Bool.and_eq_true]
      exact ⟨h2, trivial⟩
    · simp only [allLeaves, allLeavesL, Bool.and_eq_true]
      exact ⟨h3w, trivial⟩
    · simp only [allLeaves, allLeavesL, Bool.and_eq_true]
      exact ⟨h3, trivial⟩
    · simp only [levelsInRange, levelsInRangeC, Bool.and_eq_true]
      exact ⟨h5, trivial⟩
    · simp only [presenceOK, presenceOKC, Bool.and_eq_true]
      exact ⟨h6, trivial⟩
  | mapKind =>
    refine ⟨?_, ?_, ?_, ?_, ?_, ?_⟩
    · simp only [shapeOf, shapeOfC, Bool.and_eq_true]
      exact ⟨h1, trivial⟩
    · simp only [allLeaves, allLeavesL, Bool.and_eq_true]
      exact ⟨h2, trivial⟩
    · simp only [allLeaves, allLeavesL, Bool.and_eq_true]
      exact ⟨h3w, trivial⟩
    · simp only [allLeaves, allLeavesL, Bool.and_eq_true]
      exact ⟨h3, trivial⟩
    · simp only [levelsInRange, levelsInRangeC, Bool.and_eq_true]
      exact ⟨h5, trivial⟩
    · simp only [presenceOK, presenceOKC, Bool.and_eq_true]
      exact ⟨h6, trivial⟩
  | structKind =>
    refine ⟨?_, ?_, ?_, ?_, ?_, ?_⟩
    · simp only [shapeOf, shapeOfC, Bool.and_eq_true]
      exact ⟨h1, trivial⟩
    · simp only [allLeaves, allLeavesL, Bool.and_eq_true]
      exact ⟨h2, trivial⟩
    · simp only [allLeaves, allLeavesL, Bool.and_eq_true]
      exact ⟨h3w, trivial⟩
    · simp only [allLeaves, allLeavesL, Bool.and_eq_true]
      exact ⟨h3, trivial⟩
    · simp only [levelsInRange, levelsInRangeC, Bool.and_eq_true]
      exact ⟨h5, trivial⟩
    · simp only [presenceOK, presenceOKC, Bool.and_eq_true]
      exact ⟨h6, trivial⟩

mutual
theorem shredInv : (v : NestedValue) → (n : SchemaNode) → (r rd d : Nat) →
    wellFormed n = true → conforms n v = true → r ≤ rd →
    shapeOf n (shredValue n v r rd d) = true
    ∧ allLeaves (goodChunk r rd) (shredValue n v r rd d) = true
    ∧ allLeaves (defsGE d) (shredValue n v r rd d) = true
    ∧ (v ≠ .null → allLeaves (defsGE (d + defInc n.repetition)) (shredValue n v r rd d) = true)
    ∧ levelsInRange n (shredValue n v r rd d) rd d = true
    ∧ presenceOK n (shredValue n v r rd d) rd d = true
  | .null, n, r, rd, d, hw, hc, hr => by
    have hrep := conforms_null_rep hc
    rw [shredValue_null]
    have hd1 : defInc n.repetition = 1 := by rw [hrep]; rfl
    refine ⟨shapeOf_const _ n, ?_, ?_, fun hnull => absurd rfl hnull, ?_, ?_⟩
    · exact allLeaves_const _ _ (by simp [goodChunk]) n
    · exact allLeaves_const _ _ (by simp [defsGE]) n
    · exact levelsInRange_const _ n rd d hr (le_refl d)
    · exact presenceOK_const _ rfl n rd d (by simp [hd1])
  | .scalar p, n, r, rd, d, hw, hc, hr => by
    rcases n with ⟨k, rep, cs⟩
    rcases wellFormed_parts hw with ⟨hrep2, hshape, hwc⟩
    cases k with
    | primitive t =>
      rw [shredValue_scalar]
      refine ⟨rfl, ?_, ?_, fun _ => ?_, ?_, ?_⟩
      · simp [allLeaves, goodChunk]
      · simp [allLeaves, defsGE]
      · simp [allLeaves, defsGE, SchemaNode.repetition]
      · simp [levelsInRange, hr]
      · simp [presenceOK]
    | listKind =>
      rcases kindShapeOK_list_inv hshape with ⟨nm, e, rfl, _⟩
      exact Bool.noConfusion hc
    | mapKind =>
      rcases kindShapeOK_map_inv hshape with ⟨nm, kvrep, nmk, k2, nmw, w2, rfl, rfl, _⟩
      exact Bool.noConfusion hc
    | structKind => exact Bool.noConfusion hc
  | .list vs, n, r, rd, d, hw, hc, hr => by
    rcases n with ⟨k, rep, cs⟩
    rcases wellFormed_parts hw with ⟨hrep2, hshape, hwc⟩
    cases k with
    | primitive t => exact Bool.noConfusion hc
    | mapKind =>
      rcases kindShapeOK_map_inv hshape with ⟨nm, kvrep, nmk, k2, nmw, w2, rfl, rfl, _⟩
      exact Bool.noConfusion hc
    | structKind => exact Bool.noConfusion hc
    | listKind =>
      rcases kindShapeOK_list_inv hshape with ⟨nm, e, rfl, herep⟩
      rcases wellFormedC_parts hwc with ⟨hwe, _⟩
      have hc2 : conformsElems e vs = true := hc
      cases vs with
      | nil =>
        rw [shredValue_list_nil]
        refine ⟨?_, ?_, ?_, fun _ => ?_, ?_, ?_⟩
        · simp only [shapeOf, shapeOfC, Bool.and_eq_true]
          exact ⟨shapeOf_const _ e, trivial⟩
        · simp only [allLeaves, allLeavesL, Bool.and_eq_true]
          exact ⟨allLeaves_const _ _ (by simp [goodChunk]) e, trivial⟩
        · simp only [allLeaves, allLeavesL, Bool.and_eq_true]
          exact ⟨allLeaves_const _ _ (by simp [defsGE]) e, trivial⟩
        · simp only [allLeaves, allLeavesL, Bool.and_eq_true, SchemaNode.repetition]
          exact ⟨allLeaves_const _ _ (by simp [defsGE]) e, trivial⟩
        · simp only [levelsInRange, levelsInRangeC, Bool.and_eq_true]
          exact ⟨levelsInRange_const _ e _ _ (le_trans hr (Nat.le_add_right rd _))
            (le_refl _), trivial⟩
        · simp only [presenceOK, presenceOKC, Bool.and_eq_true]
          refine ⟨presenceOK_const _ rfl e _ _ ?_, trivial⟩
          rw [herep]
          simp [defInc]
      | cons v rest =>
        have hpair : conforms e v = true ∧ conformsElems e rest = true := by
          have h0 : (conforms e v && conformsElems e rest) = true := hc2
          simpa [Bool.and_eq_true] using h0
        rw [shredValue_list_cons]
        have IH := shredInv v e r (rd + 1) (d + defInc rep) hwe hpair.1 (by omega)
        have IHT := shredInvElems rest e rd (d + defInc rep) hwe herep hpair.2
        have hvnn : v ≠ .null := by
          intro hveq
          subst hveq
          have h1 := conforms_null_rep hpair.1
          rw [h1] at herep
          exact absurd herep (by decide)
        have hC4 : allLeaves (defsGE (d + defInc rep + 1))
            (shredValue e v r (rd + 1) (d + defInc rep)) = true := by
          have h4 := IH.2.2.2.1 hvnn
          rw [herep] at h4
          simpa [defInc] using h4
        refine ⟨?_, ?_, ?_, fun _ => ?_, ?_, ?_⟩
        · simp only [shapeOf, shapeOfC, Bool.and_eq_true]
          exact ⟨shapeOf_append _ e _ IH.1 IHT.1, trivial⟩
        · simp only [allLeaves, allLeavesL, Bool.and_eq_true]
          exact ⟨allLeaves_append _ _ _ (fun x y hx hy => goodChunk_combine r rd x y hx hy)
            _ e _ IH.1 IHT.1 IH.2.1 IHT.2.1, trivial⟩
        · simp only [allLeaves, allLeavesL, Bool.and_eq_true]
          exact ⟨allLeaves_append _ _ _ (fun x y hx hy =>
            defsGE_append d x y (defsGE_mono _ _ (by omega) x hx)
              (defsGE_mono _ _ (by omega) y hy))
            _ e _ IH.1 IHT.1 IH.2.2.1 IHT.2.2.1, trivial⟩
        · simp only [allLeaves, allLeavesL, Bool.and_eq_true, SchemaNode.repetition]
          exact ⟨allLeaves_append _ _ _ (fun x y hx hy =>
            defsGE_append _ x y hx (defsGE_mono _ _ (by omega) y hy))
            _ e _ IH.1 IHT.1 IH.2.2.1 IHT.2.2.1, trivial⟩
        · simp only [levelsInRange, levelsInRangeC, Bool.and_eq_true]
          rw [herep, show repInc 2 = 1 from rfl]
          exact ⟨levelsInRange_append _ e _ (rd + 1) (d + defInc rep) IH.1 IHT.1
            IH.2.2.2.2.1 IHT.2.2.2.1, trivial⟩
        · simp only [presenceOK, presenceOKC, Bool.and_eq_true]
          rw [herep, show repInc 2 = 1 from rfl]
          exact ⟨presenceOK_append _ e _ (rd + 1) (d + defInc rep) IH.1 IHT.1
            IH.2.2.2.2.2 IHT.2.2.2.2, trivial⟩
  | .mapEntries es, n, r, rd, d, hw, hc, hr => by
    rcases n with ⟨k, rep, cs⟩
    rcases wellFormed_parts hw with ⟨hrep2, hshape, hwc⟩
    cases k with
    | primitive t => exact Bool.noConfusion hc
    | listKind =>
      rcases kindShapeOK_list_inv hshape with ⟨nm, e, rfl, _⟩
      exact Bool.noConfusion hc
    | structKind => exact Bool.noConfusion hc
    | mapKind =>
      rcases kindShapeOK_map_inv hshape with ⟨nm, kvrep, nmk, k2, nmw, w2, rfl, rfl, _⟩
      rcases wellFormedC_parts hwc with ⟨hwkv, _⟩
      rcases wellFormed_parts hwkv with ⟨_, _, hwkvc⟩
      rcases wellFormedC_parts hwkvc with ⟨hwk, hwrest⟩
      rcases wellFormedC_parts hwrest with ⟨hww, _⟩
      have hc2 : conformsEntries k2 w2 es = true := hc
      cases es with
      | nil =>
        rw [shredValue_map_nil]
        have h1 : shapeOf (.mk .structKind 2 (.cons nmk k2 (.cons nmw w2 .nil)))
            (constStreams (.mk .structKind 2 (.cons nmk k2 (.cons nmw w2 .nil)))
              ⟨r, d + defInc rep, none⟩) = true :=
          shapeOf_const ⟨r, d + defInc rep, none⟩
            (.mk .structKind 2 (.cons nmk k2 (.cons nmw w2 .nil)))
        have h2 : allLeaves (goodChunk r rd)
            (constStreams (.mk .structKind 2 (.cons nmk k2 (.cons nmw w2 .nil)))
              ⟨r, d + defInc rep, none⟩) = true :=
          allLeaves_const _ ⟨r, d + defInc rep, none⟩ (by simp [goodChunk])
            (.mk .structKind 2 (.cons nmk k2 (.cons nmw w2 .nil)))
        have h3 : allLeaves (defsGE (d + defInc rep))
            (constStreams (.mk .structKind 2 (.cons nmk k2 (.cons nmw w2 .nil)))
              ⟨r, d + defInc rep, none⟩) = true :=
          allLeaves_const _ ⟨r, d + defInc rep, none⟩ (by simp [defsGE])
            (.mk .structKind 2 (.cons nmk k2 (.cons nmw w2 .nil)))
        have h5 : levelsInRange (.mk .structKind 2 (.cons nmk k2 (.cons nmw w2 .nil)))
            (constStreams (.mk .structKind 2 (.cons nmk k2 (.cons nmw w2 .nil)))
              ⟨r, d + defInc rep, none⟩) (rd + 1) (d + defInc rep) = true :=
          levelsInRange_const ⟨r, d + defInc rep, none⟩
            (.mk .structKind 2 (.cons nmk k2 (.cons nmw w2 .nil))) _ _
            (le_trans hr (Nat.le_add_right rd _)) (le_refl _)
        have h6 : presenceOK (.mk .structKind 2 (.cons nmk k2 (.cons nmw w2 .nil)))
            (constStreams (.mk .structKind 2 (.cons nmk k2 (.cons nmw w2 .nil)))
              ⟨r, d + defInc rep, none⟩) (rd + 1) (d + defInc rep) = true :=
          presenceOK_const ⟨r, d + defInc rep, none⟩ rfl
            (.mk .structKind 2 (.cons nmk k2 (.cons nmw w2 .nil))) _ _
            (by simp [SchemaNode.repetition, defInc])
        have hall := oneChildNodeInv .mapKind rfl rep nm
          (.mk .structKind 2 (.cons nmk k2 (.cons nmw w2 .nil))) _ r rd d h1 h2 h3 h5 h6
        exact ⟨hall.1, hall.2.1, hall.2.2.1, fun _ => hall.2.2.2.1,
          hall.2.2.2.2.1, hall.2.2.2.2.2⟩
      | cons kv vv rest =>
        have htrip : conforms k2 kv = true ∧ conforms w2 vv = true
            ∧ conformsEntries k2 w2 rest = true := by
          have h0 : (conforms k2 kv && conforms w2 vv && conformsEntries k2 w2 rest)
              = true := hc2
          simpa [Bool.and_eq_true, and_assoc] using h0
        rw [shredValue_map_cons]
        have IHk := shredInv kv k2 r (rd + 1 + repInc k2.repetition)
          (d + defInc rep + 1) hwk htrip.1 (by omega)
        have IHw := shredInv vv w2 r (rd + 1 + repInc w2.repetition)
          (d + defInc rep + 1) hww htrip.2.1 (by omega)
        have IHT := shredInvEntries rest k2 w2 nmk nmw rd (d + defInc rep) hwk hww htrip.2.2
        have hE := kvNodeInv nmk nmw k2 w2 _ _ r rd (d + defInc rep)
          IHk.1 IHw.1 IHk.2.1 IHw.2.1 IHk.2.2.1 IHw.2.2.1
          IHk.2.2.2.2.1 IHw.2.2.2.2.1 IHk.2.2.2.2.2 IHw.2.2.2.2.2
        have h1 := shapeOf_append _
          (.mk .structKind 2 (.cons nmk k2 (.cons nmw w2 .nil))) _ hE.1 IHT.1
        have h2 := allLeaves_append _ _ _
          (fun x y hx hy => goodChunk_combine r rd x y hx hy)
          _ (.mk .structKind 2 (.cons nmk k2 (.cons nmw w2 .nil))) _
          hE.1 IHT.1 hE.2.1 IHT.2.1
        have h3 := allLeaves_append _ _ _ (fun x y hx hy =>
            defsGE_append (d + defInc rep) x y (defsGE_mono _ _ (by omega) x hx)
              (defsGE_mono _ _ (by omega) y hy))
          _ (.mk .structKind 2 (.cons nmk k2 (.cons nmw w2 .nil))) _
          hE.1 IHT.1 hE.2.2.1 IHT.2.2.1
        have h5 := levelsInRange_append _
          (.mk .structKind 2 (.cons nmk k2 (.cons nmw w2 .nil))) _ (rd + 1)
          (d + defInc rep) hE.1 IHT.1 hE.2.2.2.1 IHT.2.2.2.1
        have h6 := presenceOK_append _
          (.mk .structKind 2 (.cons nmk k2 (.cons nmw w2 .nil))) _ (rd + 1)
          (d + defInc rep) hE.1 IHT.1 hE.2.2.2.2 IHT.2.2.2.2
        have hall := oneChildNodeInv .mapKind rfl rep nm
          (.mk .structKind 2 (.cons nmk k2 (.cons nmw w2 .nil))) _ r rd d h1 h2 h3 h5 h6
        exact ⟨hall.1, hall.2.1, hall.2.2.1, fun _ => hall.2.2.2.1,
          hall.2.2.2.2.1, hall.2.2.2.2.2⟩
  | .struct fs, n, r, rd, d, hw, hc, hr => by
    rcases n with ⟨k, rep, cs⟩
    rcases wellFormed_parts hw with ⟨hrep2, hshape, hwc⟩
    cases k with
    | primitive t => exact Bool.noConfusion hc
    | listKind =>
      rcases kindShapeOK_list_inv hshape with ⟨nm, e, rfl, _⟩
      exact Bool.noConfusion hc
    | mapKind =>
      rcases kindShapeOK_map_inv hshape with ⟨nm, kvrep, nmk, k2, nmw, w2, rfl, rfl, _⟩
      exact Bool.noConfusion hc
    | structKind =>
      have hcf : conformsFields cs fs = true := hc
      rw [shredValue_struct]
      have IH := shredInvFields fs cs r rd (d + defInc rep) hwc hcf hr
      refine ⟨IH.1, IH.2.1, ?_, fun _ => ?_, IH.2.2.2.1, IH.2.2.2.2⟩
      · exact allLeavesL_imp _ _ (fun ts h => defsGE_mono _ _ (Nat.le_add_right _ _) ts h)
          _ IH.2.2.1
      · exact IH.2.2.1
theorem shredInvElems : (vs : ValueList) → (e : SchemaNode) → (rd d : Nat) →
    wellFormed e = true → SchemaNode.repetition e = 2 → conformsElems e vs = true →
    shapeOf e (shredElemsTail e vs rd d) = true
    ∧ allLeaves (fun ts => headLow (rd + 1) ts && allHigh rd ts) (shredElemsTail e vs rd d) = true
    ∧ allLeaves (defsGE (d + 1)) (shredElemsTail e vs rd d) = true
    ∧ levelsInRange e (shredElemsTail e vs rd d) (rd + 1) d = true
    ∧ presenceOK e (shredElemsTail e vs rd d) (rd + 1) d = true
  | .nil, e, rd, d, hwe, herep, hce => by
    rw [shredElemsTail_nil]
    exact ⟨shapeOf_empty e, allLeaves_empty _ (by simp [headLow, allHigh]) e,
      allLeaves_empty _ (by simp [defsGE]) e, levelsInRange_empty e _ _,
      presenceOK_empty e _ _⟩
  | .cons v rest, e, rd, d, hwe, herep, hce => by
    have hpair : conforms e v = true ∧ conformsElems e rest = true := by
      have h0 : (conforms e v && conformsElems e rest) = true := hce
      simpa [Bool.and_eq_true] using h0
    rw [shredElemsTail_cons]
    have IH := shredInv v e (rd + 1) (rd + 1) d hwe hpair.1 (le_refl _)
    have IHT := shredInvElems rest e rd d hwe herep hpair.2
    have hvnn : v ≠ .null := by
      intro hveq
      subst hveq
      have h1 := conforms_null_rep hpair.1
      rw [h1] at herep
      exact absurd herep (by decide)
    have hC4 : allLeaves (defsGE (d + 1)) (shredValue e v (rd + 1) (rd + 1) d) = true := by
      have h4 := IH.2.2.2.1 hvnn
      rw [herep] at h4
      simpa [defInc] using h4
    refine ⟨shapeOf_append _ e _ IH.1 IHT.1, ?_, ?_, ?_, ?_⟩
    · exact allLeaves_append _ _ _ (fun x y hx hy => tailPred_combine rd x y hx hy)
        _ e _ IH.1 IHT.1 IH.2.1 IHT.2.1
    · exact allLeaves_append _ _ _ (fun x y hx hy => defsGE_append _ x y hx hy)
        _ e _ IH.1 IHT.1 hC4 IHT.2.2.1
    · exact levelsInRange_append _ e _ (rd + 1) d IH.1 IHT.1 IH.2.2.2.2.1 IHT.2.2.2.1
    · exact presenceOK_append _ e _ (rd + 1) d IH.1 IHT.1 IH.2.2.2.2.2 IHT.2.2.2.2
theorem shredInvEntries : (es : EntryList) → (k w : SchemaNode) → (nmk nmw : String) →
    (rd d : Nat) → wellFormed k = true → wellFormed w = true →
    conformsEntries k w es = true →
    shapeOf (.mk .structKind 2 (.cons nmk k (.cons nmw w .nil)))
        (shredEntriesTail k w es rd d) = true
    ∧ allLeaves (fun ts => headLow (rd + 1) ts && allHigh rd ts)
        (shredEntriesTail k w es rd d) = true
    ∧ allLeaves (defsGE (d + 1)) (shredEntriesTail k w es rd d) = true
    ∧ levelsInRange (.mk .structKind 2 (.cons nmk k (.cons nmw w .nil)))
        (shredEntriesTail k w es rd d) (rd + 1) d = true
    ∧ presenceOK (.mk .structKind 2 (.cons nmk k (.cons nmw w .nil)))
        (shredEntriesTail k w es rd d) (rd + 1) d = true
  | .nil, k, w, nmk, nmw, rd, d, hwk, hww, hce => by
    rw [shredEntriesTail_nil]
    refine ⟨?_, ?_, ?_, ?_, ?_⟩
    · simp only [shapeOf, shapeOfC, Bool.and_eq_true]
      exact ⟨shapeOf_empty k, shapeOf_empty w, trivial⟩
    · simp only [allLeaves, allLeavesL, Bool.and_eq_true]
      exact ⟨allLeaves_empty _ (by simp [headLow, allHigh]) k,
        allLeaves_empty _ (by simp [headLow, allHigh]) w, trivial⟩
    · simp only [allLeaves, allLeavesL, Bool.and_eq_true]
      exact ⟨allLeaves_empty _ (by simp [defsGE]) k, allLeaves_empty _ (by simp [defsGE]) w,
        trivial⟩
    · simp only [levelsInRange, levelsInRangeC, Bool.and_eq_true]
      exact ⟨levelsInRange_empty k _ _, levelsInRange_empty w _ _, trivial⟩
    · simp only [presenceOK, presenceOKC, Bool.and_eq_true]
      exact ⟨presenceOK_empty k _ _, presenceOK_empty w _ _, trivial⟩
  | .cons kv vv rest, k, w, nmk, nmw, rd, d, hwk, hww, hce => by
    have htrip : conforms k kv = true ∧ conforms w vv = true
        ∧ conformsEntries k w rest = true := by
      have h0 : (conforms k kv && conforms w vv && conformsEntries k w rest) = true := hce
      simpa [Bool.and_eq_true, and_assoc] using h0
    rw [shredEntriesTail_cons]
    have IHk := shredInv kv k (rd + 1) (rd + 1 + repInc k.repetition) (d + 1) hwk htrip.1
      (Nat.le_add_right _ _)
    have IHw := shredInv vv w (rd + 1) (rd + 1 + repInc w.repetition) (d + 1) hww htrip.2.1
      (Nat.le_add_right _ _)
    have IHT := shredInvEntries rest k w nmk nmw rd d hwk hww htrip.2.2
    have hE := kvNodeInv nmk nmw k w _ _ (rd + 1) rd d
      IHk.1 IHw.1 IHk.2.1 IHw.2.1 IHk.2.2.1 IHw.2.2.1
      IHk.2.2.2.2.1 IHw.2.2.2.2.1 IHk.2.2.2.2.2 IHw.2.2.2.2.2
    refine ⟨?_, ?_, ?_, ?_, ?_⟩
    · exact shapeOf_append _ _ _ hE.1 IHT.1
    · exact allLeaves_append _ _ _ (fun x y hx hy => tailPred_combine rd x y hx hy)
        _ (.mk .structKind 2 (.cons nmk k (.cons nmw w .nil))) _
        hE.1 IHT.1 hE.2.1 IHT.2.1
    · exact allLeaves_append _ _ _ (fun x y hx hy => defsGE_append _ x y hx hy)
        _ (.mk .structKind 2 (.cons nmk k (.cons nmw w .nil))) _
        hE.1 IHT.1 hE.2.2.1 IHT.2.2.1
    · exact levelsInRange_append _ (.mk .structKind 2 (.cons nmk k (.cons nmw w .nil))) _
        (rd + 1) d hE.1 IHT.1 hE.2.2.2.1 IHT.2.2.2.1
    · exact presenceOK_append _ (.mk .structKind 2 (.cons nmk k (.cons nmw w .nil))) _
        (rd + 1) d hE.1 IHT.1 hE.2.2.2.2 IHT.2.2.2.2
theorem shredInvFields : (fs : FieldList) → (cs : Children) → (r rd d : Nat) →
    wellFormedC cs = true → conformsFields cs fs = true → r ≤ rd →
    shapeOfC cs (shredFields cs fs r rd d) = true
    ∧ allLeavesL (goodChunk r rd) (shredFields cs fs r rd d) = true
    ∧ allLeavesL (defsGE d) (shredFields cs fs r rd d) = true
    ∧ levelsInRangeC cs (shredFields cs fs r rd d) rd d = true
    ∧ presenceOKC cs (shredFields cs fs r rd d) rd d = true
  | .nil, cs, r, rd, d, hwc, hcf, hr => by
    cases cs with
    | nil => exact ⟨rfl, rfl, rfl, rfl, rfl⟩
    | cons nm2 c crest => exact Bool.noConfusion hcf
  | .cons nm fv frest, cs, r, rd, d, hwc, hcf, hr => by
    cases cs with
    | nil => exact Bool.noConfusion hcf
    | cons nm2 c crest =>
      have htrip : (nm2 == nm) = true ∧ conforms c fv = true
          ∧ conformsFields crest frest = true := by
        have h0 : ((nm2 == nm) && conforms c fv && conformsFields crest frest) = true := hcf
        simpa [Bool.and_eq_true, and_assoc] using h0
      rcases wellFormedC_parts hwc with ⟨hwch, hwcr⟩
      rw [shredFields_cons]
      have IHv := shredInv fv c r (rd + repInc c.repetition) d hwch htrip.2.1
        (le_trans hr (Nat.le_add_right _ _))
      have IHf := shredInvFields frest crest r rd d hwcr htrip.2.2 hr
      refine ⟨?_, ?_, ?_, ?_, ?_⟩
      · simp only [shapeOfC, Bool.and_eq_true]
        exact ⟨IHv.1, IHf.1⟩
      · simp only [allLeavesL, Bool.and_eq_true]
        exact ⟨allLeaves_imp _ _
          (fun ts h => goodChunk_mono_rd r rd _ ts h (Nat.le_add_right _ _)) _ IHv.2.1,
          IHf.2.1⟩
      · simp only [allLeavesL, Bool.and_eq_true]
        exact ⟨IHv.2.2.1, IHf.2.2.1⟩
      · simp only [levelsInRangeC, Bool.and_eq_true]
        exact ⟨IHv.2.2.2.2.1, IHf.2.2.2.1⟩
      · simp only [presenceOKC, Bool.and_eq_true]
        exact ⟨IHv.2.2.2.2.2, IHf.2.2.2.2⟩
end

end Parquet

namespace Parquet

theorem band_left {a b : Bool} (h : (a && b) = true) : a = true := by
  simp only [Bool.and_eq_true] at h
  exact h.1

theorem band_right {a b : Bool} (h : (a && b) = true) : b = true := by
  simp only [Bool.and_eq_true] at h
  exact h.2

theorem goodChunk_headLow (r rd r0 : Nat) (x y : List LeafTriple)
    (h : goodChunk r rd x = true) (hr : r ≤ r0) : headLow r0 (x ++ y) = true := by
  rcases (goodChunk_iff r rd x).mp h with ⟨t, tt, rfl, ht, _⟩
  simp only [List.cons_append, headLow, decide_eq_true_eq]
  omega

theorem goodDef_headDef (r rd m : Nat) (ts : List LeafTriple)
    (h : (goodChunk r rd ts && defsGE m ts) = true) : headDefGE m ts = true := by
  rcases (goodChunk_iff r rd ts).mp (band_left h) with ⟨t, tt, rfl, _, _⟩
  have hd := band_right h
  simp only [defsGE, List.all_cons, Bool.and_eq_true, decide_eq_true_eq] at hd
  simp only [headDefGE, decide_eq_true_eq]
  exact hd.1

theorem headDef_append (r rd m : Nat) (x y : List LeafTriple)
    (hx : (goodChunk r rd x && defsGE m x) = true) : headDefGE m (x ++ y) = true := by
  rcases (goodChunk_iff r rd x).mp (band_left hx) with ⟨t, tt, rfl, _, _⟩
  have hd := band_right hx
  simp only [defsGE, List.all_cons, Bool.and_eq_true, decide_eq_true_eq] at hd
  simp only [List.cons_append, headDefGE, decide_eq_true_eq]
  exact hd.1

theorem splitStreams_elemsTail : (vs : ValueList) → (e : SchemaNode) → (rd d : Nat) →
    wellFormed e = true → SchemaNode.repetition e = 2 → conformsElems e vs = true →
    splitStreams (rd + 1) (shredElemsTail e vs rd d)
      = some (elemChunks e vs (rd + 1) rd d)
  | .nil, e, rd, d, hwe, _, _ => by
    rw [shredElemsTail_nil]
    exact splitStreams_empty (rd + 1) e hwe
  | .cons v rest, e, rd, d, hwe, herep, hce => by
    have hpair : conforms e v = true ∧ conformsElems e rest = true := by
      have h0 : (conforms e v && conformsElems e rest) = true := hce
      simpa [Bool.and_eq_true] using h0
    rw [shredElemsTail_cons]
    have IH := splitStreams_elemsTail rest e rd d hwe herep hpair.2
    have hInv := shredInv v e (rd + 1) (rd + 1) d hwe hpair.1 (le_refl _)
    have hTI := shredInvElems rest e rd d hwe herep hpair.2
    have hchunk : allLeaves (chunkAt (rd + 1)) (shredValue e v (rd + 1) (rd + 1) d) = true :=
      allLeaves_imp _ _
        (fun ts h => chunkAt_of_goodChunk (rd + 1) (rd + 1) (rd + 1) ts h (le_refl _) (le_refl _))
        _ hInv.2.1
    have hlow : allLeaves (headLow (rd + 1)) (shredElemsTail e rest rd d) = true :=
      allLeaves_imp _ _ (fun ts h => band_left h) _ hTI.2.1
    exact splitStreams_append (rd + 1) _ e _ _ hInv.1 hTI.1 hchunk hlow IH

theorem splitStreams_entriesTail : (es : EntryList) → (k w : SchemaNode) →
    (nmk nmw : String) → (rd d : Nat) →
    wellFormed k = true → wellFormed w = true → conformsEntries k w es = true →
    splitStreams (rd + 1) (shredEntriesTail k w es rd d)
      = some (entryChunks k w es (rd + 1) rd d)
  | .nil, k, w, nmk, nmw, rd, d, hwk, hww, _ => by
    have hwkv : wellFormed (.mk .structKind 2 (.cons nmk k (.cons nmw w .nil))) = true := by
      simp [wellFormed, wellFormedC, kindShapeOK, hwk, hww]
    rw [shredEntriesTail_nil]
    exact splitStreams_empty (rd + 1) (.mk .structKind 2 (.cons nmk k (.cons nmw w .nil))) hwkv
  | .cons kv vv rest, k, w, nmk, nmw, rd, d, hwk, hww, hce => by
    have htrip : conforms k kv = true ∧ conforms w vv = true
        ∧ conformsEntries k w rest = true := by
      have h0 : (conforms k kv && conforms w vv && conformsEntries k w rest) = true := hce
      simpa [Bool.and_eq_true, and_assoc] using h0
    rw [shredEntriesTail_cons]
    have IH := splitStreams_entriesTail rest k w nmk nmw rd d hwk hww htrip.2.2
    have hIk := shredInv kv k (rd + 1) (rd + 1 + repInc k.repetition) (d + 1) hwk htrip.1
      (Nat.le_add_right _ _)
    have hIw := shredInv vv w (rd + 1) (rd + 1 + repInc w.repetition) (d + 1) hww htrip.2.1
      (Nat.le_add_right _ _)
    have hE := kvNodeInv nmk nmw k w _ _ (rd + 1) rd d
      hIk.1 hIw.1 hIk.2.1 hIw.2.1 hIk.2.2.1 hIw.2.2.1
      hIk.2.2.2.2.1 hIw.2.2.2.2.1 hIk.2.2.2.2.2 hIw.2.2.2.2.2
    have hTI := shredInvEntries rest k w nmk nmw rd d hwk hww htrip.2.2
    have hchunk : allLeaves (chunkAt (rd + 1))
        (Streams.node (.cons (shredValue k kv (rd + 1) (rd + 1 + repInc k.repetition) (d + 1))
          (.cons (shredValue w vv (rd + 1) (rd + 1 + repInc w.repetition) (d + 1)) .nil)))
        = true :=
      allLeaves_imp _ _
        (fun ts h => chunkAt_of_goodChunk (rd + 1) (rd + 1) (rd + 1) ts h (le_refl _) (le_refl _))
        _ hE.2.1
    have hlow : allLeaves (headLow (rd + 1)) (shredEntriesTail k w rest rd d) = true :=
      allLeaves_imp _ _ (fun ts h => band_left h) _ hTI.2.1
    exact splitStreams_append (rd + 1) _
      (.mk .structKind 2 (.cons nmk k (.cons nmw w .nil))) _ _ hE.1 hTI.1 hchunk hlow IH

theorem shred_split : (vs : List NestedValue) → (n : SchemaNode) →
    wellFormed n = true → conformsAll n vs = true →
    shapeOf n (shred n vs) = true
    ∧ allLeaves (headLow 0) (shred n vs) = true
    ∧ splitStreams 0 (shred n vs) = some (rowChunks n vs)
  | [], n, hw, _ =>
    ⟨shapeOf_empty n, allLeaves_empty _ rfl n, splitStreams_empty 0 n hw⟩
  | v :: vs, n, hw, hca => by
    have hpair : conforms n v = true ∧ conformsAll n vs = true := by
      have h0 : (conforms n v && vs.all (fun u => conforms n u)) = true := hca
      simpa [conformsAll, Bool.and_eq_true] using h0
    have IH := shred_split vs n hw hpair.2
    have hInv := shredInv v n 0 (rootRepDepth n) 0 hw hpair.1 (Nat.zero_le _)
    have hchunk : allLeaves (chunkAt 0) (shredRow n v) = true :=
      allLeaves_imp _ _
        (fun ts h => chunkAt_of_goodChunk 0 (rootRepDepth n) 0 ts h (le_refl _) (Nat.zero_le _))
        _ hInv.2.1
    have hsp := splitStreams_append 0 (shredRow n v) n (shred n vs) (rowChunks n vs)
      hInv.1 IH.1 hchunk IH.2.1 IH.2.2
    refine ⟨shapeOf_append _ n _ hInv.1 IH.1, ?_, hsp⟩
    exact allLeaves_append _ _ _
      (fun x y hx _ => goodChunk_headLow 0 (rootRepDepth n) 0 x y hx (le_refl _))
      _ n _ hInv.1 IH.1 hInv.2.1 IH.2.1

end Parquet

namespace Parquet

theorem valueListOf_plainOf : (vs : ValueList) → valueListOf (plainOfValueList vs) = vs
  | .nil => rfl
  | .cons v rest => congrArg (ValueList.cons v) (valueListOf_plainOf rest)

theorem entryListOf_plainOf : (es : EntryList) → entryListOf (plainOfEntryList es) = es
  | .nil => rfl
  | .cons k v rest => congrArg (EntryList.cons k v) (entryListOf_plainOf rest)

theorem mapExcept_nil (f : α → Except ε β) : mapExcept f [] = .ok [] := rfl

theorem mapExcept_cons_ok (f : α → Except ε β) (c : α) (cs : List α) (b : β) (bs : List β)
    (hf : f c = .ok b) (hrest : mapExcept f cs = .ok bs) :
    mapExcept f (c :: cs) = .ok (b :: bs) := by
  show (do
    let x ← f c
    let xs ← mapExcept f cs
    Except.ok (x :: xs)) = Except.ok (b :: bs)
  rw [hf, hrest]
  rfl

theorem firstLeaf_const_eq (n : SchemaNode) (t : LeafTriple) (hw : wellFormed n = true) :
    firstLeaf (constStreams n t) = some [t] := by
  rcases firstLeaf_pred (fun ts => ts == [t]) (constStreams n t) n hw (shapeOf_const t n)
    (allLeaves_const _ t (by simp) n) with ⟨ts, hfl, hts⟩
  have h2 : ts = [t] := by simpa using hts
  rw [hfl, h2]

theorem firstLeafL_const_eq (cs : Children) (t : LeafTriple) (hwc : wellFormedC cs = true)
    (hne : ∃ nm c crest, cs = .cons nm c crest) :
    firstLeafL (constStreamsC cs t) = some [t] := by
  rcases firstLeafL_pred (fun ts => ts == [t]) (constStreamsC cs t) cs hwc (shapeOfC_const t cs)
    (allLeavesL_const _ t (by simp) cs) hne with ⟨ts, hfl, hts⟩
  have h2 : ts = [t] := by simpa using hts
  rw [hfl, h2]

end Parquet

namespace Parquet

theorem assembleValue_prim (t : PrimType) (rep : Nat) (cs : Children) (t1 : LeafTriple)
    (rd d : Nat) :
    assembleValue (.mk (.primitive t) rep cs) (.leaf [t1]) rd d
      = (if t1.definitionLevel = d + defInc rep then
          match t1.value with
          | some p => .ok (.scalar p)
          | none => .error .valuePresenceMismatch
        else if t1.definitionLevel = d then .ok .null
        else .error .leafDesynchronization) := rfl

theorem assembleValue_list_eq (rep : Nat) (nm : String) (e : SchemaNode) (s : Streams)
    (rd d : Nat) :
    assembleValue (.mk .listKind rep (.cons nm e .nil)) (.node (.cons s .nil)) rd d
      = (match (firstLeaf s).bind List.head? with
        | none => .error .leafDesynchronization
        | some t0 =>
          if rep = 1 ∧ t0.definitionLevel ≤ d then
            if allLeaves (singletonBelow d) s then .ok .null
            else .error .leafDesynchronization
          else if t0.definitionLevel = d + defInc rep then
            if allLeaves (singletonBelow (d + defInc rep)) s then .ok (.list .nil)
            else .error .leafDesynchronization
          else
            match splitStreams (rd + 1) s with
            | none => .error .leafDesynchronization
            | some chunks => do
              let vs ← mapExcept (fun c => assembleValue e c (rd + 1) (d + defInc rep)) chunks
              .ok (.list (valueListOf vs))) := rfl

theorem assembleValue_map_eq (rep kvrep : Nat) (nm nmk nmw : String) (k w : SchemaNode)
    (s : Streams) (rd d : Nat) :
    assembleValue (.mk .mapKind rep
        (.cons nm (.mk .structKind kvrep (.cons nmk k (.cons nmw w .nil))) .nil))
      (.node (.cons s .nil)) rd d
      = (match (firstLeaf s).bind List.head? with
        | none => .error .leafDesynchronization
        | some t0 =>
          if rep = 1 ∧ t0.definitionLevel ≤ d then
            if allLeaves (singletonBelow d) s then .ok .null
            else .error .leafDesynchronization
          else if t0.definitionLevel = d + defInc rep then
            if allLeaves (singletonBelow (d + defInc rep)) s then .ok (.mapEntries .nil)
            else .error .leafDesynchronization
          else
            match splitStreams (rd + 1) s with
            | none => .error .leafDesynchronization
            | some chunks => do
              let es ← mapExcept (fun c =>
                match c with
                | .node (.cons ks (.cons ws .nil)) => do
                  let kv ← assembleValue k ks (rd + 1 + repInc k.repetition) (d + defInc rep + 1)
                  let vv ← assembleValue w ws (rd + 1 + repInc w.repetition) (d + defInc rep + 1)
                  Except.ok (kv, vv)
                | _ => Except.error AssemblyError.leafDesynchronization) chunks
              .ok (.mapEntries (entryListOf es))) := rfl

theorem assembleValue_struct_eq (rep : Nat) (cs : Children) (ss : StreamsList) (rd d : Nat) :
    assembleValue (.mk .structKind rep cs) (.node ss) rd d
      = (match (firstLeafL ss).bind List.head? with
        | none => .error .leafDesynchronization
        | some t0 =>
          if rep = 1 ∧ t0.definitionLevel ≤ d then
            if allLeavesL (singletonBelow d) ss then .ok .null
            else .error .leafDesynchronization
          else do
            let fs ← assembleFields cs ss rd (d + defInc rep)
            .ok (.struct fs)) := rfl

end Parquet

namespace Parquet

theorem assembleValue_list_some (rep : Nat) (nm : String) (e : SchemaNode) (s : Streams)
    (rd d : Nat) (t0 : LeafTriple) (hfl : (firstLeaf s).bind List.head? = some t0) :
    assembleValue (.mk .listKind rep (.cons nm e .nil)) (.node (.cons s .nil)) rd d
      = (if rep = 1 ∧ t0.definitionLevel ≤ d then
          if allLeaves (singletonBelow d) s then .ok .null
          else .error .leafDesynchronization
        else if t0.definitionLevel = d + defInc rep then
          if allLeaves (singletonBelow (d + defInc rep)) s then .ok (.list .nil)
          else .error .leafDesynchronization
        else
          match splitStreams (rd + 1) s with
          | none => .error .leafDesynchronization
          | some chunks => do
            let vs ← mapExcept (fun c => assembleValue e c (rd + 1) (d + defInc rep)) chunks
            .ok (.list (valueListOf vs))) := by
  rw [assembleValue_list_eq, hfl]

theorem assembleValue_map_some (rep kvrep : Nat) (nm nmk nmw : String) (k w : SchemaNode)
    (s : Streams) (rd d : Nat) (t0 : LeafTriple)
    (hfl : (firstLeaf s).bind List.head? = some t0) :
    assembleValue (.mk .mapKind rep
        (.cons nm (.mk .structKind kvrep (.cons nmk k (.cons nmw w .nil))) .nil))
      (.node (.cons s .nil)) rd d
      = (if rep = 1 ∧ t0.definitionLevel ≤ d then
          if allLeaves (singletonBelow d) s then .ok .null
          else .error .leafDesynchronization
        else if t0.definitionLevel = d + defInc rep then
          if allLeaves (singletonBelow (d + defInc rep)) s then .ok (.mapEntries .nil)
          else .error .leafDesynchronization
        else
          match splitStreams (rd + 1) s with
          | none => .error .leafDesynchronization
          | some chunks => do
            let es ← mapExcept (fun c =>
              match c with
              | .node (.cons ks (.cons ws .nil)) => do
                let kv ← assembleValue k ks (rd + 1 + repInc k.repetition) (d + defInc rep + 1)
                let vv ← assembleValue w ws (rd + 1 + repInc w.repetition) (d + defInc rep + 1)
                Except.ok (kv, vv)
              | _ => Except.error AssemblyError.leafDesynchronization) chunks
            .ok (.mapEntries (entryListOf es))) := by
  rw [assembleValue_map_eq, hfl]

theorem assembleValue_struct_some (rep : Nat) (cs : Children) (ss : StreamsList) (rd d : Nat)
    (t0 : LeafTriple) (hfl : (firstLeafL ss).bind List.head? = some t0) :
    assembleValue (.mk .structKind rep cs) (.node ss) rd d
      = (if rep = 1 ∧ t0.definitionLevel ≤ d then
          if allLeavesL (singletonBelow d) ss then .ok .null
          else .error .leafDesynchronization
        else do
          let fs ← assembleFields cs ss rd (d + defInc rep)
          .ok (.struct fs)) := by
  rw [assembleValue_struct_eq, hfl]

end Parquet

namespace Parquet

theorem assembleValue_prim_scalar (t : PrimType) (rep : Nat) (cs : Children) (p : PrimVal)
    (r rd d : Nat) :
    assembleValue (.mk (.primitive t) rep cs) (.leaf [⟨r, d + defInc rep, some p⟩]) rd d
      = .ok (.scalar p) := by
  rw [assembleValue_prim, if_pos rfl]

theorem assembleValue_prim_null (t : PrimType) (cs : Children) (r rd d : Nat) :
    assembleValue (.mk (.primitive t) 1 cs) (.leaf [⟨r, d, none⟩]) rd d = .ok .null := by
  rw [assembleValue_prim, if_neg (by simp [defInc]), if_pos rfl]

theorem assembleValue_list_null (nm : String) (e : SchemaNode) (r rd d : Nat)
    (hwe : wellFormed e = true) :
    assembleValue (.mk .listKind 1 (.cons nm e .nil))
      (.node (.cons (constStreams e ⟨r, d, none⟩) .nil)) rd d = .ok .null := by
  have hfl : (firstLeaf (constStreams e ⟨r, d, none⟩)).bind List.head?
      = some ⟨r, d, none⟩ := by
    rw [firstLeaf_const_eq e ⟨r, d, none⟩ hwe]
    rfl
  rw [assembleValue_list_some 1 nm e _ rd d _ hfl, if_pos ⟨rfl, le_refl d⟩,
    if_pos (allLeaves_const (singletonBelow d) ⟨r, d, none⟩ (by simp [singletonBelow]) e)]

theorem assembleValue_list_empty (rep : Nat) (nm : String) (e : SchemaNode) (r rd d : Nat)
    (hwe : wellFormed e = true) :
    assembleValue (.mk .listKind rep (.cons nm e .nil))
      (.node (.cons (constStreams e ⟨r, d + defInc rep, none⟩) .nil)) rd d
      = .ok (.list .nil) := by
  have hfl : (firstLeaf (constStreams e ⟨r, d + defInc rep, none⟩)).bind List.head?
      = some ⟨r, d + defInc rep, none⟩ := by
    rw [firstLeaf_const_eq e ⟨r, d + defInc rep, none⟩ hwe]
    rfl
  rw [assembleValue_list_some rep nm e _ rd d _ hfl,
    if_neg (by rintro ⟨rfl, hle⟩; simp [defInc] at hle), if_pos rfl,
    if_pos (allLeaves_const (singletonBelow (d + defInc rep)) ⟨r, d + defInc rep, none⟩
      (by simp [singletonBelow]) e)]

theorem assembleValue_map_null (kvrep : Nat) (nm nmk nmw : String) (k w : SchemaNode)
    (r rd d : Nat)
    (hwkv : wellFormed (.mk .structKind kvrep (.cons nmk k (.cons nmw w .nil))) = true) :
    assembleValue (.mk .mapKind 1
        (.cons nm (.mk .structKind kvrep (.cons nmk k (.cons nmw w .nil))) .nil))
      (.node (.cons (constStreams (.mk .structKind kvrep (.cons nmk k (.cons nmw w .nil)))
        ⟨r, d, none⟩) .nil)) rd d = .ok .null := by
  have hfl : (firstLeaf (constStreams
      (.mk .structKind kvrep (.cons nmk k (.cons nmw w .nil))) ⟨r, d, none⟩)).bind List.head?
      = some ⟨r, d, none⟩ := by
    rw [firstLeaf_const_eq _ ⟨r, d, none⟩ hwkv]
    rfl
  rw [assembleValue_map_some 1 kvrep nm nmk nmw k w _ rd d _ hfl, if_pos ⟨rfl, le_refl d⟩,
    if_pos (allLeaves_const (singletonBelow d) ⟨r, d, none⟩ (by simp [singletonBelow]) _)]

theorem assembleValue_map_empty (rep kvrep : Nat) (nm nmk nmw : String) (k w : SchemaNode)
    (r rd d : Nat)
    (hwkv : wellFormed (.mk .structKind kvrep (.cons nmk k (.cons nmw w .nil))) = true) :
    assembleValue (.mk .mapKind rep
        (.cons nm (.mk .structKind kvrep (.cons nmk k (.cons nmw w .nil))) .nil))
      (.node (.cons (constStreams (.mk .structKind kvrep (.cons nmk k (.cons nmw w .nil)))
        ⟨r, d + defInc rep, none⟩) .nil)) rd d = .ok (.mapEntries .nil) := by
  have hfl : (firstLeaf (constStreams
      (.mk .structKind kvrep (.cons nmk k (.cons nmw w .nil)))
      ⟨r, d + defInc rep, none⟩)).bind List.head? = some ⟨r, d + defInc rep, none⟩ := by
    rw [firstLeaf_const_eq _ ⟨r, d + defInc rep, none⟩ hwkv]
    rfl
  rw [assembleValue_map_some rep kvrep nm nmk nmw k w _ rd d _ hfl,
    if_neg (by rintro ⟨rfl, hle⟩; simp [defInc] at hle), if_pos rfl,
    if_pos (allLeaves_const (singletonBelow (d + defInc rep)) ⟨r, d + defInc rep, none⟩
      (by simp [singletonBelow]) _)]

theorem assembleValue_struct_null (cs : Children) (r rd d : Nat)
    (hwc : wellFormedC cs = true) (hne : ∃ nm c crest, cs = .cons nm c crest) :
    assembleValue (.mk .structKind 1 cs) (.node (constStreamsC cs ⟨r, d, none⟩)) rd d
      = .ok .null := by
  have hfl : (firstLeafL (constStreamsC cs ⟨r, d, none⟩)).bind List.head?
      = some ⟨r, d, none⟩ := by
    rw [firstLeafL_const_eq cs ⟨r, d, none⟩ hwc hne]
    rfl
  rw [assembleValue_struct_some 1 cs _ rd d _ hfl, if_pos ⟨rfl, le_refl d⟩,
    if_pos (allLeavesL_const (singletonBelow d) ⟨r, d, none⟩ (by simp [singletonBelow]) cs)]

end Parquet

namespace Parquet

theorem assembleValue_list_present (rep : Nat) (nm : String) (e : SchemaNode) (S : Streams)
    (rd d : Nat) (chunks : List Streams) (vs0 : ValueList)
    (hwe : wellFormed e = true) (hshape : shapeOf e S = true)
    (hdef : allLeaves (headDefGE (d + defInc rep + 1)) S = true)
    (hsplit : splitStreams (rd + 1) S = some chunks)
    (hmap : mapExcept (fun c => assembleValue e c (rd + 1) (d + defInc rep)) chunks
      = .ok (plainOfValueList vs0)) :
    assembleValue (.mk .listKind rep (.cons nm e .nil)) (.node (.cons S .nil)) rd d
      = .ok (.list vs0) := by
  rcases firstLeaf_pred (headDefGE (d + defInc rep + 1)) S e hwe hshape hdef with ⟨ts, hfl, hts⟩
  rcases ts with _ | ⟨t0, tt⟩
  · exact absurd hts (by simp [headDefGE])
  · have ht0 : d + defInc rep + 1 ≤ t0.definitionLevel := by
      simpa [headDefGE] using hts
    rw [assembleValue_list_some rep nm e S rd d t0 (by rw [hfl]; rfl)]
    rw [if_neg (by rintro ⟨_, hle⟩; omega), if_neg (by omega), hsplit]
    show (do
      let vs ← mapExcept (fun c => assembleValue e c (rd + 1) (d + defInc rep)) chunks
      Except.ok (NestedValue.list (valueListOf vs))) = Except.ok (.list vs0)
    rw [hmap]
    show Except.ok (NestedValue.list (valueListOf (plainOfValueList vs0))) = _
    rw [valueListOf_plainOf]

theorem assembleValue_map_present (rep kvrep : Nat) (nm nmk nmw : String) (k w : SchemaNode)
    (S : Streams) (rd d : Nat) (chunks : List Streams) (es0 : EntryList)
    (hwkv : wellFormed (.mk .structKind kvrep (.cons nmk k (.cons nmw w .nil))) = true)
    (hshape : shapeOf (.mk .structKind kvrep (.cons nmk k (.cons nmw w .nil))) S = true)
    (hdef : allLeaves (headDefGE (d + defInc rep + 1)) S = true)
    (hsplit : splitStreams (rd + 1) S = some chunks)
    (hmap : mapExcept (fun c =>
        match c with
        | Streams.node (.cons ks (.cons ws .nil)) => do
          let kv ← assembleValue k ks (rd + 1 + repInc k.repetition) (d + defInc rep + 1)
          let vv ← assembleValue w ws (rd + 1 + repInc w.repetition) (d + defInc rep + 1)
          Except.ok (kv, vv)
        | _ => Except.error AssemblyError.leafDesynchronization) chunks
      = .ok (plainOfEntryList es0)) :
    assembleValue (.mk .mapKind rep
        (.cons nm (.mk .structKind kvrep (.cons nmk k (.cons nmw w .nil))) .nil))
      (.node (.cons S .nil)) rd d = .ok (.mapEntries es0) := by
  rcases firstLeaf_pred (headDefGE (d + defInc rep + 1)) S
    (.mk .structKind kvrep (.cons nmk k (.cons nmw w .nil))) hwkv hshape hdef
    with ⟨ts, hfl, hts⟩
  rcases ts with _ | ⟨t0, tt⟩
  · exact absurd hts (by simp [headDefGE])
  · have ht0 : d + defInc rep + 1 ≤ t0.definitionLevel := by
      simpa [headDefGE] using hts
    rw [assembleValue_map_some rep kvrep nm nmk nmw k w S rd d t0 (by rw [hfl]; rfl)]
    rw [if_neg (by rintro ⟨_, hle⟩; omega), if_neg (by omega), hsplit]
    show (do
      let es ← mapExcept (fun c =>
        match c with
        | Streams.node (.cons ks (.cons ws .nil)) => do
          let kv ← assembleValue k ks (rd + 1 + repInc k.repetition) (d + defInc rep + 1)
          let vv ← assembleValue w ws (rd + 1 + repInc w.repetition) (d + defInc rep + 1)
          Except.ok (kv, vv)
        | _ => Except.error AssemblyError.leafDesynchronization) chunks
      Except.ok (NestedValue.mapEntries (entryListOf es))) = Except.ok (.mapEntries es0)
    rw [hmap]
    show Except.ok (NestedValue.mapEntries (entryListOf (plainOfEntryList es0))) = _
    rw [entryListOf_plainOf]

theorem assembleValue_struct_present (rep : Nat) (cs : Children) (ss : StreamsList)
    (rd d : Nat) (fs : FieldList)
    (hwc : wellFormedC cs = true) (hshape : shapeOfC cs ss = true)
    (hne : ∃ nm c crest, cs = .cons nm c crest)
    (hdef : allLeavesL (headDefGE (d + defInc rep)) ss = true)
    (hfields : assembleFields cs ss rd (d + defInc rep) = .ok fs) :
    assembleValue (.mk .structKind rep cs) (.node ss) rd d = .ok (.struct fs) := by
  rcases firstLeafL_pred (headDefGE (d + defInc rep)) ss cs hwc hshape hdef hne
    with ⟨ts, hfl, hts⟩
  rcases ts with _ | ⟨t0, tt⟩
  · exact absurd hts (by simp [headDefGE])
  · have ht0 : d + defInc rep ≤ t0.definitionLevel := by
      simpa [headDefGE] using hts
    rw [assembleValue_struct_some rep cs ss rd d t0 (by rw [hfl]; rfl)]
    rw [if_neg ?hneg]
    case hneg =>
      rintro ⟨hrep1, hle⟩
      subst hrep1
      have h1 : defInc 1 = 1 := rfl
      rw [h1] at ht0
      omega
    show (do
      let fs ← assembleFields cs ss rd (d + defInc rep)
      Except.ok (NestedValue.struct fs)) = Except.ok (.struct fs)
    rw [hfields]
    rfl

theorem entryAssembleOk (k w : SchemaNode) (K W : Streams) (rd D : Nat)
    (kv vv : NestedValue)
    (h1 : assembleValue k K (rd + 1 + repInc k.repetition) (D + 1) = .ok kv)
    (h2 : assembleValue w W (rd + 1 + repInc w.repetition) (D + 1) = .ok vv) :
    (fun c =>
      match c with
      | Streams.node (.cons ks (.cons ws .nil)) => do
        let kv ← assembleValue k ks (rd + 1 + repInc k.repetition) (D + 1)
        let vv ← assembleValue w ws (rd + 1 + repInc w.repetition) (D + 1)
        Except.ok (kv, vv)
      | _ => Except.error AssemblyError.leafDesynchronization)
      (Streams.node (.cons K (.cons W .nil)))
      = Except.ok (kv, vv) := by
  show (do
    let a ← assembleValue k K (rd + 1 + repInc k.repetition) (D + 1)
    let b ← assembleValue w W (rd + 1 + repInc w.repetition) (D + 1)
    Except.ok (a, b)) = Except.ok (kv, vv)
  rw [h1, h2]
  rfl

theorem assembleFields_cons_ok (nm : String) (c : SchemaNode) (crest : Children)
    (S : Streams) (SS : StreamsList) (rd d : Nat) (v : NestedValue) (fr : FieldList)
    (h1 : assembleValue c S (rd + repInc c.repetition) d = .ok v)
    (h2 : assembleFields crest SS rd d = .ok fr) :
    assembleFields (.cons nm c crest) (.cons S SS) rd d = .ok (.cons nm v fr) := by
  show (do
    let x ← assembleValue c S (rd + repInc c.repetition) d
    let xs ← assembleFields crest SS rd d
    Except.ok (FieldList.cons nm x xs)) = Except.ok (.cons nm v fr)
  rw [h1, h2]
  rfl

end Parquet

namespace Parquet

theorem elemChunks_cons (e : SchemaNode) (v : NestedValue) (rest : ValueList) (r rd d : Nat) :
    elemChunks e (.cons v rest) r rd d
      = shredValue e v r (rd + 1) d :: elemChunks e rest (rd + 1) rd d := rfl

theorem entryChunks_cons (k w : SchemaNode) (kv vv : NestedValue) (rest : EntryList)
    (r rd d : Nat) :
    entryChunks k w (.cons kv vv rest) r rd d
      = Streams.node (.cons (shredValue k kv r (rd + 1 + repInc k.repetition) (d + 1))
          (.cons (shredValue w vv r (rd + 1 + repInc w.repetition) (d + 1)) .nil))
        :: entryChunks k w rest (rd + 1) rd d := rfl

mutual
theorem rt_value : (v : NestedValue) → (n : SchemaNode) → (r rd d : Nat) →
    wellFormed n = true → conforms n v = true → r ≤ rd →
    assembleValue n (shredValue n v r rd d) rd d = .ok v
  | .null, n, r, rd, d, hw, hc, hr => by
    have hrep := conforms_null_rep hc
    rw [shredValue_null]
    rcases n with ⟨k, rep, cs⟩
    have hrep' : rep = 1 := hrep
    subst hrep'
    rcases wellFormed_parts hw with ⟨_, hshape, hwc⟩
    cases k with
    | primitive t =>
      have hnil := kindShapeOK_prim_inv hshape
      subst hnil
      exact assembleValue_prim_null t .nil r rd d
    | listKind =>
      rcases kindShapeOK_list_inv hshape with ⟨nm, e, rfl, _⟩
      rcases wellFormedC_parts hwc with ⟨hwe, _⟩
      exact assembleValue_list_null nm e r rd d hwe
    | mapKind =>
      rcases kindShapeOK_map_inv hshape with ⟨nm, kvrep, nmk, k2, nmw, w2, rfl, rfl, _⟩
      rcases wellFormedC_parts hwc with ⟨hwkv, _⟩
      exact assembleValue_map_null 2 nm nmk nmw k2 w2 r rd d hwkv
    | structKind =>
      have hne := kindShapeOK_struct_inv hshape
      exact assembleValue_struct_null cs r rd d hwc hne
  | .scalar p, n, r, rd, d, hw, hc, hr => by
    rcases n with ⟨k, rep, cs⟩
    rcases wellFormed_parts hw with ⟨_, hshape, hwc⟩
    cases k with
    | primitive t =>
      have hnil := kindShapeOK_prim_inv hshape
      subst hnil
      rw [shredValue_scalar]
      exact assembleValue_prim_scalar t rep .nil p r rd d
    | listKind =>
      rcases kindShapeOK_list_inv hshape with ⟨nm, e, rfl, _⟩
      exact Bool.noConfusion hc
    | mapKind =>
      rcases kindShapeOK_map_inv hshape with ⟨nm, kvrep, nmk, k2, nmw, w2, rfl, rfl, _⟩
      exact Bool.noConfusion hc
    | structKind => exact Bool.noConfusion hc
  | .list vs, n, r, rd, d, hw, hc, hr => by
    rcases n with ⟨k, rep, cs⟩
    rcases wellFormed_parts hw with ⟨hrep2, hshape, hwc⟩
    cases k with
    | primitive t =>
      have hnil := kindShapeOK_prim_inv hshape
      subst hnil
      exact Bool.noConfusion hc
    | mapKind =>
      rcases kindShapeOK_map_inv hshape with ⟨nm, kvrep, nmk, k2, nmw, w2, rfl, rfl, _⟩
      exact Bool.noConfusion hc
    | structKind => exact Bool.noConfusion hc
    | listKind =>
      rcases kindShapeOK_list_inv hshape with ⟨nm, e, rfl, herep⟩
      rcases wellFormedC_parts hwc with ⟨hwe, _⟩
      have hce : conformsElems e vs = true := hc
      cases vs with
      | nil =>
        rw [shredValue_list_nil]
        exact assembleValue_list_empty rep nm e r rd d hwe
      | cons v rest =>
        have hpair : conforms e v = true ∧ conformsElems e rest = true := by
          have h0 : (conforms e v && conformsElems e rest) = true := hce
          simpa [Bool.and_eq_true] using h0
        rw [shredValue_list_cons]
        have hIv := shredInv v e r (rd + 1) (d + defInc rep) hwe hpair.1
          (le_trans hr (Nat.le_succ rd))
        have hTI := shredInvElems rest e rd (d + defInc rep) hwe herep hpair.2
        have hvnn : v ≠ .null := by
          intro hveq
          subst hveq
          have h1 := conforms_null_rep hpair.1
          rw [h1] at herep
          exact absurd herep (by decide)
        have hC4 : allLeaves (defsGE (d + defInc rep + 1))
            (shredValue e v r (rd + 1) (d + defInc rep)) = true := by
          have h4 := hIv.2.2.2.1 hvnn
          rw [herep] at h4
          simpa [defInc] using h4
        have hshapeS := shapeOf_append (shredValue e v r (rd + 1) (d + defInc rep)) e
          (shredElemsTail e rest rd (d + defInc rep)) hIv.1 hTI.1
        have hgooddef := allLeaves_and (goodChunk r (rd + 1)) (defsGE (d + defInc rep + 1))
          _ hIv.2.1 hC4
        have hdefS := allLeaves_append
          (fun ts => goodChunk r (rd + 1) ts && defsGE (d + defInc rep + 1) ts)
          (fun ts => headLow (rd + 1) ts && allHigh rd ts)
          (headDefGE (d + defInc rep + 1))
          (fun x y hx _ => headDef_append r (rd + 1) (d + defInc rep + 1) x y hx)
          _ e _ hIv.1 hTI.1 hgooddef hTI.2.1
        have hchunk := allLeaves_imp _ _
          (fun ts h => chunkAt_of_goodChunk r (rd + 1) (rd + 1) ts h
            (le_trans hr (Nat.le_succ rd)) (le_refl _)) _ hIv.2.1
        have hlow := allLeaves_imp _ _ (fun ts h => band_left h) _ hTI.2.1
        have hsplitT := splitStreams_elemsTail rest e rd (d + defInc rep) hwe herep hpair.2
        have hsplit := splitStreams_append (rd + 1) _ e _ _ hIv.1 hTI.1 hchunk hlow hsplitT
        have hhead := rt_value v e r (rd + 1) (d + defInc rep) hwe hpair.1
          (le_trans hr (Nat.le_succ rd))
        have htail := rt_elems rest e rd (d + defInc rep) hwe herep hpair.2
        have hmap := mapExcept_cons_ok
          (fun c => assembleValue e c (rd + 1) (d + defInc rep))
          (shredValue e v r (rd + 1) (d + defInc rep))
          (elemChunks e rest (rd + 1) rd (d + defInc rep))
          v (plainOfValueList rest) hhead htail
        exact assembleValue_list_present rep nm e _ rd d _ (ValueList.cons v rest)
          hwe hshapeS hdefS hsplit hmap
  | .mapEntries es, n, r, rd, d, hw, hc, hr => by
    rcases n with ⟨k, rep, cs⟩
    rcases wellFormed_parts hw with ⟨hrep2, hshape, hwc⟩
    cases k with
    | primitive t =>
      have hnil := kindShapeOK_prim_inv hshape
      subst hnil
      exact Bool.noConfusion hc
    | listKind =>
      rcases kindShapeOK_list_inv hshape with ⟨nm, e, rfl, _⟩
      exact Bool.noConfusion hc
    | structKind => exact Bool.noConfusion hc
    | mapKind =>
      rcases kindShapeOK_map_inv hshape with ⟨nm, kvrep, nmk, k2, nmw, w2, rfl, rfl, _⟩
      rcases wellFormedC_parts hwc with ⟨hwkv, _⟩
      rcases wellFormed_parts hwkv with ⟨_, _, hwkvc⟩
      rcases wellFormedC_parts hwkvc with ⟨hwk, hwrest⟩
      rcases wellFormedC_parts hwrest with ⟨hww, _⟩
      have hc2 : conformsEntries k2 w2 es = true := hc
      cases es with
      | nil =>
        rw [shredValue_map_nil]
        exact assembleValue_map_empty rep 2 nm nmk nmw k2 w2 r rd d hwkv
      | cons kv vv rest =>
        have htrip : conforms k2 kv = true ∧ conforms w2 vv = true
            ∧ conformsEntries k2 w2 rest = true := by
          have h0 : (conforms k2 kv && conforms w2 vv && conformsEntries k2 w2 rest)
              = true := hc2
          simpa [Bool.and_eq_true, and_assoc] using h0
        rw [shredValue_map_cons]
        have hIk := shredInv kv k2 r (rd + 1 + repInc k2.repetition) (d + defInc rep + 1)
          hwk htrip.1 (by omega)
        have hIw := shredInv vv w2 r (rd + 1 + repInc w2.repetition) (d + defInc rep + 1)
          hww htrip.2.1 (by omega)
        have hE := kvNodeInv nmk nmw k2 w2 _ _ r rd (d + defInc rep)
          hIk.1 hIw.1 hIk.2.1 hIw.2.1 hIk.2.2.1 hIw.2.2.1
          hIk.2.2.2.2.1 hIw.2.2.2.2.1 hIk.2.2.2.2.2 hIw.2.2.2.2.2
        have hTI := shredInvEntries rest k2 w2 nmk nmw rd (d + defInc rep) hwk hww htrip.2.2
        have hshapeS := shapeOf_append _
          (.mk .structKind 2 (.cons nmk k2 (.cons nmw w2 .nil))) _ hE.1 hTI.1
        have hgooddef := allLeaves_and (goodChunk r (rd + 1)) (defsGE (d + defInc rep + 1))
          _ hE.2.1 hE.2.2.1
        have hdefS := allLeaves_append
          (fun ts => goodChunk r (rd + 1) ts && defsGE (d + defInc rep + 1) ts)
          (fun ts => headLow (rd + 1) ts && allHigh rd ts)
          (headDefGE (d + defInc rep + 1))
          (fun x y hx _ => headDef_append r (rd + 1) (d + defInc rep + 1) x y hx)
          _ (.mk .structKind 2 (.cons nmk k2 (.cons nmw w2 .nil))) _
          hE.1 hTI.1 hgooddef hTI.2.1
        have hchunk := allLeaves_imp _ _
          (fun ts h => chunkAt_of_goodChunk r (rd + 1) (rd + 1) ts h
            (le_trans hr (Nat.le_succ rd)) (le_refl _)) _ hE.2.1
        have hlow := allLeaves_imp _ _ (fun ts h => band_left h) _ hTI.2.1
        have hsplitT := splitStreams_entriesTail rest k2 w2 nmk nmw rd (d + defInc rep)
          hwk hww htrip.2.2
        have hsplit := splitStreams_append (rd + 1) _
          (.mk .structKind 2 (.cons nmk k2 (.cons nmw w2 .nil))) _ _
          hE.1 hTI.1 hchunk hlow hsplitT
        have hkv := rt_value kv k2 r (rd + 1 + repInc k2.repetition) (d + defInc rep + 1)
          hwk htrip.1 (by omega)
        have hvv := rt_value vv w2 r (rd + 1 + repInc w2.repetition) (d + defInc rep + 1)
          hww htrip.2.1 (by omega)
        have hfC := entryAssembleOk k2 w2 _ _ rd (d + defInc rep) kv vv hkv hvv
        have htailM := rt_entries rest k2 w2 rd (d + defInc rep) hwk hww htrip.2.2
        have hmap := mapExcept_cons_ok
          (fun c =>
            match c with
            | Streams.node (.cons ks (.cons ws .nil)) => do
              let kv ← assembleValue k2 ks (rd + 1 + repInc k2.repetition)
                (d + defInc rep + 1)
              let vv ← assembleValue w2 ws (rd + 1 + repInc w2.repetition)
                (d + defInc rep + 1)
              Except.ok (kv, vv)
            | _ => Except.error AssemblyError.leafDesynchronization)
          (Streams.node (.cons
            (shredValue k2 kv r (rd + 1 + repInc k2.repetition) (d + defInc rep + 1))
            (.cons (shredValue w2 vv r (rd + 1 + repInc w2.repetition)
              (d + defInc rep + 1)) .nil)))
          (entryChunks k2 w2 rest (rd + 1) rd (d + defInc rep))
          (kv, vv) (plainOfEntryList rest) hfC htailM
        exact assembleValue_map_present rep 2 nm nmk nmw k2 w2 _ rd d _
          (EntryList.cons kv vv rest) hwkv hshapeS hdefS hsplit hmap
  | .struct fs, n, r, rd, d, hw, hc, hr => by
    rcases n with ⟨k, rep, cs⟩
    rcases wellFormed_parts hw with ⟨hrep2, hshape, hwc⟩
    cases k with
    | primitive t =>
      have hnil := kindShapeOK_prim_inv hshape
      subst hnil
      exact Bool.noConfusion hc
    | listKind =>
      rcases kindShapeOK_list_inv hshape with ⟨nm, e, rfl, _⟩
      exact Bool.noConfusion hc
    | mapKind =>
      rcases kindShapeOK_map_inv hshape with ⟨nm, kvrep, nmk, k2, nmw, w2, rfl, rfl, _⟩
      exact Bool.noConfusion hc
    | structKind =>
      have hcf : conformsFields cs fs = true := hc
      rw [shredValue_struct]
      have hne := kindShapeOK_struct_inv hshape
      have hIF := shredInvFields fs cs r rd (d + defInc rep) hwc hcf hr
      have hgooddef := allLeavesL_and (goodChunk r rd) (defsGE (d + defInc rep))
        _ hIF.2.1 hIF.2.2.1
      have hdefS := allLeavesL_imp _ _
        (fun ts h => goodDef_headDef r rd (d + defInc rep) ts h) _ hgooddef
      have hF := rt_fields fs cs r rd (d + defInc rep) hwc hcf hr
      exact assembleValue_struct_present rep cs _ rd d fs hwc hIF.1 hne hdefS hF
theorem rt_elems : (vs : ValueList) → (e : SchemaNode) → (rd d : Nat) →
    wellFormed e = true → SchemaNode.repetition e = 2 → conformsElems e vs = true →
    mapExcept (fun c => assembleValue e c (rd + 1) d) (elemChunks e vs (rd + 1) rd d)
      = .ok (plainOfValueList vs)
  | .nil, e, rd, d, _, _, _ => rfl
  | .cons v rest, e, rd, d, hwe, herep, hce => by
    have hpair : conforms e v = true ∧ conformsElems e rest = true := by
      have h0 : (conforms e v && conformsElems e rest) = true := hce
      simpa [Bool.and_eq_true] using h0
    rw [elemChunks_cons]
    have hhead := rt_value v e (rd + 1) (rd + 1) d hwe hpair.1 (le_refl _)
    have htail := rt_elems rest e rd d hwe herep hpair.2
    exact mapExcept_cons_ok _ _ _ v (plainOfValueList rest) hhead htail
theorem rt_entries : (es : EntryList) → (k w : SchemaNode) → (rd d : Nat) →
    wellFormed k = true → wellFormed w = true → conformsEntries k w es = true →
    mapExcept (fun c =>
      match c with
      | Streams.node (.cons ks (.cons ws .nil)) => do
        let kv ← assembleValue k ks (rd + 1 + repInc k.repetition) (d + 1)
        let vv ← assembleValue w ws (rd + 1 + repInc w.repetition) (d + 1)
        Except.ok (kv, vv)
      | _ => Except.error AssemblyError.leafDesynchronization)
      (entryChunks k w es (rd + 1) rd d)
      = .ok (plainOfEntryList es)
  | .nil, k, w, rd, d, _, _, _ => rfl
  | .cons kv vv rest, k, w, rd, d, hwk, hww, hce => by
    have htrip : conforms k kv = true ∧ conforms w vv = true
        ∧ conformsEntries k w rest = true := by
      have h0 : (conforms k kv && conforms w vv && conformsEntries k w rest) = true := hce
      simpa [Bool.and_eq_true, and_assoc] using h0
    rw [entryChunks_cons]
    have hkv := rt_value kv k (rd + 1) (rd + 1 + repInc k.repetition) (d + 1) hwk htrip.1
      (Nat.le_add_right _ _)
    have hvv := rt_value vv w (rd + 1) (rd + 1 + repInc w.repetition) (d + 1) hww htrip.2.1
      (Nat.le_add_right _ _)
    have hfC := entryAssembleOk k w _ _ rd d kv vv hkv hvv
    have htailM := rt_entries rest k w rd d hwk hww htrip.2.2
    exact mapExcept_cons_ok
      (fun c =>
        match c with
        | Streams.node (.cons ks (.cons ws .nil)) => do
          let kv ← assembleValue k ks (rd + 1 + repInc k.repetition) (d + 1)
          let vv ← assembleValue w ws (rd + 1 + repInc w.repetition) (d + 1)
          Except.ok (kv, vv)
        | _ => Except.error AssemblyError.leafDesynchronization)
      (Streams.node (.cons (shredValue k kv (rd + 1) (rd + 1 + repInc k.repetition) (d + 1))
        (.cons (shredValue w vv (rd + 1) (rd + 1 + repInc w.repetition) (d + 1)) .nil)))
      (entryChunks k w rest (rd + 1) rd d)
      (kv, vv) (plainOfEntryList rest) hfC htailM
theorem rt_fields : (fs : FieldList) → (cs : Children) → (r rd d : Nat) →
    wellFormedC cs = true → conformsFields cs fs = true → r ≤ rd →
    assembleFields cs (shredFields cs fs r rd d) rd d = .ok fs
  | .nil, cs, r, rd, d, hwc, hcf, hr => by
    cases cs with
    | nil => rfl
    | cons nm2 c crest => exact Bool.noConfusion hcf
  | .cons nm fv frest, cs, r, rd, d, hwc, hcf, hr => by
    cases cs with
    | nil => exact Bool.noConfusion hcf
    | cons nm2 c crest =>
      have htrip : (nm2 == nm) = true ∧ conforms c fv = true
          ∧ conformsFields crest frest = true := by
        have h0 : ((nm2 == nm) && conforms c fv && conformsFields crest frest) = true := hcf
        simpa [Bool.and_eq_true, and_assoc] using h0
      have hname : nm2 = nm := by simpa using htrip.1
      subst hname
      rcases wellFormedC_parts hwc with ⟨hwch, hwcr⟩
      rw [shredFields_cons]
      have h1 := rt_value fv c r (rd + repInc c.repetition) d hwch htrip.2.1
        (le_trans hr (Nat.le_add_right _ _))
      have h2 := rt_fields frest crest r rd d hwcr htrip.2.2 hr
      exact assembleFields_cons_ok nm2 c crest _ _ rd d fv frest h1 h2
end

end Parquet

namespace Parquet

theorem assembleRow_shredRow (n : SchemaNode) (v : NestedValue)
    (hw : wellFormed n = true) (hc : conforms n v = true) :
    assembleRow n (shredRow n v) = .ok v := by
  have hInv := shredInv v n 0 (rootRepDepth n) 0 hw hc (Nat.zero_le _)
  have hrt := rt_value v n 0 (rootRepDepth n) 0 hw hc (Nat.zero_le _)
  simp only [assembleRow]
  rw [show shredRow n v = shredValue n v 0 (rootRepDepth n) 0 from rfl]
  simp [hInv.1, hInv.2.2.2.2.1, hInv.2.2.2.2.2, hrt]

theorem assemble_shred (n : SchemaNode) (vs : List NestedValue)
    (hw : wellFormed n = true) (hca : conformsAll n vs = true) :
    assemble n (shred n vs) = vs.map Except.ok := by
  have hsp := shred_split vs n hw hca
  have hrows := rowSlice_of_split (shred n vs) (rowChunks n vs) hsp.2.2
  have hlen : numRows (shred n vs) = vs.length := by
    rw [hrows.2]
    simp [rowChunks]
  simp only [assemble, hlen]
  apply List.ext_getElem
  · simp
  · intro i h1 h2
    simp only [List.getElem_map, List.getElem_range]
    rw [hrows.1 i]
    have hi : i < vs.length := by simpa using h1
    have hchunk : (rowChunks n vs)[i]? = some (shredRow n vs[i]) := by
      simp [rowChunks, List.getElem?_map, List.getElem?_eq_getElem hi]
    rw [hchunk]
    have hcv : conforms n vs[i] = true := by
      have hall := hca
      simp only [conformsAll, List.all_eq_true] at hall
      exact hall vs[i] (List.getElem_mem hi)
    exact assembleRow_shredRow n vs[i] hw hcv

end Parquet

namespace Parquet

theorem exceptIsOk_bind_ok (x : Except ε α) (f : α → β) :
    exceptIsOk (do
      let a ← x
      Except.ok (f a)) = exceptIsOk x := by
  cases x <;> rfl

theorem computeLevelsAt_ok_shape (k : Kind) (rep : Nat) (cs : Children) (rd d : Nat)
    (lt : LevelTree) (h : computeLevelsAt (.mk k rep cs) rd d = .ok lt) :
    ∃ ls, computeLevelsC cs (rd + repInc rep) (d + defInc rep) = .ok ls
      ∧ lt = .mk (rd + repInc rep) (d + defInc rep) ls := by
  simp only [computeLevelsAt] at h
  split at h
  · exact Except.noConfusion h
  · split at h
    · exact Except.noConfusion h
    · split at h
      · exact Except.noConfusion h
      · rcases hcc : computeLevelsC cs (rd + repInc rep) (d + defInc rep) with e | ls
        · rw [hcc] at h
          exact Except.noConfusion h
        · rw [hcc] at h
          have h2 : Except.ok (ε := SchemaError)
              (LevelTree.mk (rd + repInc rep) (d + defInc rep) ls) = .ok lt := h
          exact ⟨ls, rfl, (Except.ok.inj h2).symm⟩

theorem clC_cons_ok (nm : String) (n : SchemaNode) (rest : Children) (rd d : Nat)
    (ls : LevelChildren) (h : computeLevelsC (.cons nm n rest) rd d = .ok ls) :
    ∃ l ls2, computeLevelsAt n rd d = .ok l ∧ computeLevelsC rest rd d = .ok ls2
      ∧ ls = .cons l ls2 := by
  simp only [computeLevelsC] at h
  rcases hx : computeLevelsAt n rd d with e | l
  · rw [hx] at h
    exact Except.noConfusion h
  · rw [hx] at h
    rcases hy : computeLevelsC rest rd d with e2 | ls2
    · rw [hy] at h
      exact Except.noConfusion h
    · rw [hy] at h
      have h2 : Except.ok (ε := SchemaError) (LevelChildren.cons l ls2) = .ok ls := h
      exact ⟨l, ls2, rfl, rfl, (Except.ok.inj h2).symm⟩

theorem clC_childAt : (cs : Children) → (i : Nat) → (rd d : Nat) → (c : SchemaNode) →
    (ls : LevelChildren) → childAt cs i = some c → computeLevelsC cs rd d = .ok ls →
    ∃ l, levelChildAt ls i = some l ∧ computeLevelsAt c rd d = .ok l
  | .nil, i, _, _, _, _, hc, _ => Option.noConfusion hc
  | .cons nm n rest, 0, rd, d, c, ls, hc, hok => by
    have hcn : n = c := Option.some.inj hc
    subst hcn
    rcases clC_cons_ok nm n rest rd d ls hok with ⟨l, ls2, h1, _, rfl⟩
    exact ⟨l, rfl, h1⟩
  | .cons nm n rest, i + 1, rd, d, c, ls, hc, hok => by
    rcases clC_cons_ok nm n rest rd d ls hok with ⟨l, ls2, _, h2, rfl⟩
    have hc2 : childAt rest i = some c := hc
    rcases clC_childAt rest i rd d c ls2 hc2 h2 with ⟨l2, hl2, hok2⟩
    exact ⟨l2, hl2, hok2⟩

theorem countRepeated_cons (c : Nat) (l : List Nat) :
    countRepeated (c :: l) = repInc c + countRepeated l := by
  by_cases hc : c = 2 <;>
    simp [countRepeated, repInc, hc, List.filter_cons] <;> omega

theorem countPresence_cons (c : Nat) (l : List Nat) :
    countPresence (c :: l) = defInc c + countPresence l := by
  by_cases hc : c = 0 <;>
    simp [countPresence, defInc, hc, List.filter_cons] <;> omega

theorem countRepeated_singleton (c : Nat) : countRepeated [c] = repInc c := by
  by_cases hc : c = 2 <;> simp [countRepeated, repInc, hc, List.filter_cons]

theorem countPresence_singleton (c : Nat) : countPresence [c] = defInc c := by
  by_cases hc : c = 0 <;> simp [countPresence, defInc, hc, List.filter_cons]

theorem getLevel_spec : (p : List Nat) → (n : SchemaNode) → (rd d : Nat) →
    (m : SchemaNode) → (lt : LevelTree) →
    getNode n p = some m → computeLevelsAt n rd d = .ok lt →
    ∃ l codes, getLevel lt p = some l ∧ pathCodes n p = some codes
      ∧ LevelTree.maxRepetitionLevel l = rd + countRepeated codes
      ∧ LevelTree.maxDefinitionLevel l = d + countPresence codes
  | [], n, rd, d, m, lt, _, hok => by
    rcases n with ⟨k, rep, cs⟩
    rcases computeLevelsAt_ok_shape k rep cs rd d lt hok with ⟨ls, _, rfl⟩
    refine ⟨.mk (rd + repInc rep) (d + defInc rep) ls, [rep], rfl, rfl, ?_, ?_⟩
    · rw [countRepeated_singleton]
      rfl
    · rw [countPresence_singleton]
      rfl
  | i :: p, n, rd, d, m, lt, hm, hok => by
    rcases n with ⟨k, rep, cs⟩
    rcases computeLevelsAt_ok_shape k rep cs rd d lt hok with ⟨ls, hls, rfl⟩
    simp only [getNode] at hm
    rcases hci : childAt (SchemaNode.mk k rep cs).children i with _ | c
    · rw [hci] at hm
      exact Option.noConfusion hm
    · rw [hci] at hm
      have hci2 : childAt cs i = some c := hci
      rcases clC_childAt cs i (rd + repInc rep) (d + defInc rep) c ls hci2 hls
        with ⟨l, hl, hokc⟩
      rcases getLevel_spec p c (rd + repInc rep) (d + defInc rep) m l hm hokc
        with ⟨l2, codes, hgl, hpc, hrep, hdef⟩
    -- assemble the result for the extended path
      refine ⟨l2, rep :: codes, ?_, ?_, ?_, ?_⟩
      · simp only [getLevel, hl]
        exact hgl
      · simp only [pathCodes, SchemaNode.children, hci2, hpc, Option.map_some']
        rfl
      · rw [countRepeated_cons, hrep]
        omega
      · rw [countPresence_cons, hdef]
        omega

end Parquet

namespace Parquet

theorem monoLevelsC_cons_intro (r d rc dc : Nat) (lc rest : LevelChildren)
    (h1 : r ≤ rc) (h2 : d ≤ dc) (h3 : monoLevelsC rc dc lc = true)
    (h4 : monoLevelsC r d rest = true) :
    monoLevelsC r d (.cons (.mk rc dc lc) rest) = true := by
  simp [monoLevelsC, h1, h2, h3, h4]

mutual
theorem mono_clAt : (n : SchemaNode) → (rd d : Nat) → (lt : LevelTree) →
    computeLevelsAt n rd d = .ok lt → monoLevels lt = true
  | .mk k rep cs, rd, d, lt, hok => by
    rcases computeLevelsAt_ok_shape k rep cs rd d lt hok with ⟨ls, hls, rfl⟩
    exact mono_clC cs (rd + repInc rep) (d + defInc rep) ls hls
theorem mono_clC : (cs : Children) → (rd d : Nat) → (ls : LevelChildren) →
    computeLevelsC cs rd d = .ok ls → monoLevelsC rd d ls = true
  | .nil, rd, d, ls, hok => by
    have h2 : Except.ok (ε := SchemaError) LevelChildren.nil = .ok ls := hok
    rw [← Except.ok.inj h2]
    rfl
  | .cons nm n rest, rd, d, ls, hok => by
    rcases clC_cons_ok nm n rest rd d ls hok with ⟨l, ls2, h1, h2, rfl⟩
    rcases n with ⟨k2, rep2, cs2⟩
    rcases computeLevelsAt_ok_shape k2 rep2 cs2 rd d l h1 with ⟨lc, hlc, rfl⟩
    have hm1 := mono_clC cs2 (rd + repInc rep2) (d + defInc rep2) lc hlc
    have hm2 := mono_clC rest rd d ls2 h2
    exact monoLevelsC_cons_intro rd d (rd + repInc rep2) (d + defInc rep2) lc ls2
      (Nat.le_add_right _ _) (Nat.le_add_right _ _) hm1 hm2
end

theorem isOk_clAt_node (k : Kind) (rep : Nat) (cs : Children) (rd d : Nat)
    (hchild : exceptIsOk (computeLevelsC cs (rd + repInc rep) (d + defInc rep))
      = !hasSchemaFaultC cs) :
    exceptIsOk (computeLevelsAt (.mk k rep cs) rd d)
      = !hasSchemaFault (.mk k rep cs) := by
  simp only [computeLevelsAt, hasSchemaFault]
  by_cases h1 : rep > 2
  · simp [h1, exceptIsOk]
  · by_cases h2 : (kindIsPrimitive k && !childrenIsNil cs) = true
    · simp [h1, h2, exceptIsOk]
    · by_cases h3 : mapKeyIsRepeated (.mk k rep cs) = true
      · simp [h1, h2, h3, exceptIsOk]
      · rw [if_neg h1, if_neg (by simpa using h2), if_neg (by simpa using h3)]
        rw [exceptIsOk_bind_ok (computeLevelsC cs (rd + repInc rep) (d + defInc rep))
          (fun ls => LevelTree.mk (rd + repInc rep) (d + defInc rep) ls)]
        rw [hchild]
        simp only [Bool.not_eq_true'] at h2 h3
        simp [h1, h2, h3]
end Parquet

namespace Parquet

theorem isOk_clC_cons (nm : String) (n : SchemaNode) (rest : Children) (rd d : Nat)
    (h1 : exceptIsOk (computeLevelsAt n rd d) = !hasSchemaFault n)
    (h2 : exceptIsOk (computeLevelsC rest rd d) = !hasSchemaFaultC rest) :
    exceptIsOk (computeLevelsC (.cons nm n rest) rd d)
      = !hasSchemaFaultC (.cons nm n rest) := by
  simp only [computeLevelsC, hasSchemaFaultC]
  rcases hx : computeLevelsAt n rd d with e | l
  · rw [hx] at h1
    have hf : hasSchemaFault n = true := by
      simpa [exceptIsOk] using h1.symm
    rw [hf]
    rfl
  · rw [hx] at h1
    have hf : hasSchemaFault n = false := by
      simpa [exceptIsOk] using h1.symm
    rcases hy : computeLevelsC rest rd d with e2 | ls
    · rw [hy] at h2
      have hf2 : hasSchemaFaultC rest = true := by
        simpa [exceptIsOk] using h2.symm
      rw [hf, hf2]
      rfl
    · rw [hy] at h2
      have hf2 : hasSchemaFaultC rest = false := by
        simpa [exceptIsOk] using h2.symm
      rw [hf, hf2]
      rfl

mutual
theorem clAt_isOk_eq : (n : SchemaNode) → (rd d : Nat) →
    exceptIsOk (computeLevelsAt n rd d) = !hasSchemaFault n
  | .mk k rep cs, rd, d =>
    isOk_clAt_node k rep cs rd d (clC_isOk_eq cs (rd + repInc rep) (d + defInc rep))
theorem clC_isOk_eq : (cs : Children) → (rd d : Nat) →
    exceptIsOk (computeLevelsC cs rd d) = !hasSchemaFaultC cs
  | .nil, _, _ => rfl
  | .cons nm n rest, rd, d =>
    isOk_clC_cons nm n rest rd d (clAt_isOk_eq n rd d) (clC_isOk_eq rest rd d)
end

theorem wf_noFault_node (k : Kind) (rep : Nat) (cs : Children)
    (hw : wellFormed (.mk k rep cs) = true) (hfc : hasSchemaFaultC cs = false) :
    hasSchemaFault (.mk k rep cs) = false := by
  rcases wellFormed_parts hw with ⟨hrep2, hshape, _⟩
  simp only [hasSchemaFault, Bool.or_eq_false_iff]
  refine ⟨⟨⟨by simpa using Nat.not_lt.mpr hrep2, ?_⟩, ?_⟩, hfc⟩
  · cases k with
    | primitive t =>
      have := kindShapeOK_prim_inv hshape
      subst this
      rfl
    | listKind => rfl
    | mapKind => rfl
    | structKind => rfl
  · cases k with
    | primitive t =>
      have := kindShapeOK_prim_inv hshape
      subst this
      rfl
    | listKind =>
      rcases kindShapeOK_list_inv hshape with ⟨nm, e, rfl, _⟩
      rfl
    | mapKind =>
      rcases kindShapeOK_map_inv hshape with ⟨nm, kvrep, nmk, k2, nmw, w2, rfl, rfl, hk2⟩
      simp [mapKeyIsRepeated, hk2]
    | structKind =>
      rcases kindShapeOK_struct_inv hshape with ⟨nm, c, crest, rfl⟩
      rfl

mutual
theorem wf_noFault : (n : SchemaNode) → wellFormed n = true → hasSchemaFault n = false
  | .mk k rep cs, hw => by
    rcases wellFormed_parts hw with ⟨_, _, hwc⟩
    exact wf_noFault_node k rep cs hw (wf_noFaultC cs hwc)
theorem wf_noFaultC : (cs : Children) → wellFormedC cs = true → hasSchemaFaultC cs = false
  | .nil, _ => rfl
  | .cons nm n rest, hwc => by
    rcases wellFormedC_parts hwc with ⟨hwn, hwr⟩
    have h1 := wf_noFault n hwn
    have h2 := wf_noFaultC rest hwr
    simp [hasSchemaFaultC, h1, h2]
end

end Parquet

namespace Parquet

theorem assemble_append (n : SchemaNode) (a b : Streams) (cb : List Streams)
    (hsa : shapeOf n a = true) (hsb : shapeOf n b = true)
    (hca : allLeaves (chunkAt 0) a = true) (hlb : allLeaves (headLow 0) b = true)
    (hsplitb : splitStreams 0 b = some cb) :
    assemble n (appendStreams a b) = assembleRow n a :: assemble n b := by
  have hsp := splitStreams_append 0 a n b cb hsa hsb hca hlb hsplitb
  have h1 := rowSlice_of_split _ _ hsp
  have h2 := rowSlice_of_split b cb hsplitb
  have hlen1 : numRows (appendStreams a b) = cb.length + 1 := by
    rw [h1.2]
    simp
  simp only [assemble, hlen1, h2.2]
  apply List.ext_getElem
  · simp
  · intro i hi1 hi2
    simp only [List.getElem_cons, List.getElem_map, List.getElem_range]
    cases i with
    | zero =>
      rw [h1.1 0]
      simp
    | succ j =>
      rw [h1.1 (j + 1)]
      have hj : j < cb.length := by simpa using hi2
      rw [show j + 1 - 1 = j from rfl, h2.1 j]
      simp

theorem uniform_combine (rdm m : Nat) (x y : List LeafTriple)
    (hx : goodChunk 0 rdm x = true)
    (hy : (((splitTriples 0 y).length == m) && headLow 0 y) = true) :
    ((splitTriples 0 (x ++ y)).length == m + 1) = true := by
  have h1 := band_left hy
  have h2 := band_right hy
  rw [splitTriples_goodChunk_append 0 rdm 0 x y hx (le_refl 0) (Nat.zero_le rdm) h2]
  simp only [List.length_cons, beq_iff_eq] at h1 ⊢
  omega

theorem shred_uniform : (vs : List NestedValue) → (n : SchemaNode) →
    wellFormed n = true → conformsAll n vs = true →
    uniformChunks vs.length (shred n vs) = true
  | [], n, hw, _ => allLeaves_empty _ (by simp [splitTriples]) n
  | v :: vs, n, hw, hca => by
    have hpair : conforms n v = true ∧ conformsAll n vs = true := by
      have h0 : (conforms n v && vs.all (fun u => conforms n u)) = true := hca
      simpa [conformsAll, Bool.and_eq_true] using h0
    have IH := shred_uniform vs n hw hpair.2
    have hInv := shredInv v n 0 (rootRepDepth n) 0 hw hpair.1 (Nat.zero_le _)
    have hsp := shred_split vs n hw hpair.2
    have hq := allLeaves_and (fun ts => (splitTriples 0 ts).length == vs.length)
      (headLow 0) _ IH hsp.2.1
    have hres := allLeaves_append (goodChunk 0 (rootRepDepth n))
      (fun ts => ((splitTriples 0 ts).length == vs.length) && headLow 0 ts)
      (fun ts => (splitTriples 0 ts).length == vs.length + 1)
      (fun x y hx hy => uniform_combine (rootRepDepth n) vs.length x y hx hy)
      _ n _ hInv.1 hsp.1 hInv.2.1 hq
    exact hres

end Parquet

namespace Parquet

theorem allLeaves_node1 (p : List LeafTriple → Bool) (A : Streams)
    (h : allLeaves p A = true) : allLeaves p (.node (.cons A .nil)) = true := by
  simp [allLeaves, allLeavesL, h]

theorem allLeaves_node2 (p : List LeafTriple → Bool) (K W : Streams)
    (h1 : allLeaves p K = true) (h2 : allLeaves p W = true) :
    allLeaves p (.node (.cons K (.cons W .nil))) = true := by
  simp [allLeaves, allLeavesL, h1, h2]

end Parquet

namespace Parquet

/-- C1: Shredder/Assembler round trip — for every well-formed schema and every
conforming sequence of rows, assembling the shredded per-leaf triples returns
exactly the original rows value-for-value (in particular preserving the
Null-vs-empty distinction carried by the `NestedValue`s themselves), and a
zero-length input shreds to empty triple sequences at every leaf and
assembles back to zero rows rather than an error. -/
theorem C1_round_trip (n : SchemaNode) (vs : List NestedValue)
    (hw : wellFormed n = true) (hca : conformsAll n vs = true) :
    assemble n (shred n vs) = vs.map Except.ok
    ∧ shred n [] = emptyStreams n
    ∧ assemble n (shred n []) = [] := by
  refine ⟨assemble_shred n vs hw hca, rfl, ?_⟩
  simpa using assemble_shred n [] hw rfl

theorem C1_round_trip_witness :
    assemble Fixtures.userStruct (shred Fixtures.userStruct Fixtures.userRows)
        = Fixtures.userRows.map Except.ok
    ∧ shred Fixtures.userStruct [] = emptyStreams Fixtures.userStruct
    ∧ assemble Fixtures.userStruct (shred Fixtures.userStruct []) = [] :=
  C1_round_trip Fixtures.userStruct Fixtures.userRows (by decide) (by decide)

/-- C2: Multi-level repetition — shredding the single row
`[{"a":1,"b":2}, {"x":10}]` of the `list<map<string,int64>>` schema stamps the
key leaf with repetition levels `[0, 2, 1]` (new row, new entry within the
first map, new map), and assembling the shredded streams reconstructs exactly
the original one-element row list whose single list value holds two maps. -/
theorem C2_multilevel_repetition :
    ((getLeaf (shred Fixtures.listOfMaps [Fixtures.listOfMapsRow0]) [0, 0, 0]).map
      (List.map LeafTriple.repetitionLevel)) = some [0, 2, 1]
    ∧ assemble Fixtures.listOfMaps (shred Fixtures.listOfMaps [Fixtures.listOfMapsRow0])
        = [.ok Fixtures.listOfMapsRow0] := by
  constructor
  · decide
  · decide

/-- C3: Presence depth in nested optional containers — for the
`optional struct { attributes: optional map<string,int64> }` schema, the four
rows (struct and map present; struct present, empty map; struct present, Null
map; Null struct) produce the pairwise distinct definition levels 3, 2, 1, 0
at the map's key leaf (and 4, 2, 1, 0 at its value leaf), and all four rows
round-trip exactly through shredding and assembly. -/
theorem C3_presence_depth :
    ((getLeaf (shredRow Fixtures.userStruct Fixtures.userRow0) [0, 0, 0]).map
      (List.map LeafTriple.definitionLevel)) = some [3, 3]
    ∧ ((getLeaf (shredRow Fixtures.userStruct Fixtures.userRow1) [0, 0, 0]).map
      (List.map LeafTriple.definitionLevel)) = some [2]
    ∧ ((getLeaf (shredRow Fixtures.userStruct Fixtures.userRow2) [0, 0, 0]).map
      (List.map LeafTriple.definitionLevel)) = some [1]
    ∧ ((getLeaf (shredRow Fixtures.userStruct Fixtures.userRow3) [0, 0, 0]).map
      (List.map LeafTriple.definitionLevel)) = some [0]
    ∧ ((getLeaf (shredRow Fixtures.userStruct Fixtures.userRow0) [0, 0, 1]).map
      (List.map LeafTriple.definitionLevel)) = some [4, 4]
    ∧ ((getLeaf (shredRow Fixtures.userStruct Fixtures.userRow1) [0, 0, 1]).map
      (List.map LeafTriple.definitionLevel)) = some [2]
    ∧ ((getLeaf (shredRow Fixtures.userStruct Fixtures.userRow2) [0, 0, 1]).map
      (List.map LeafTriple.definitionLevel)) = some [1]
    ∧ ((getLeaf (shredRow Fixtures.userStruct Fixtures.userRow3) [0, 0, 1]).map
      (List.map LeafTriple.definitionLevel)) = some [0]
    ∧ assemble Fixtures.userStruct (shred Fixtures.userStruct Fixtures.userRows)
        = Fixtures.userRows.map Except.ok := by decide

end Parquet

namespace Parquet

/-- C4: Null vs empty containers — under an Optional list or map node,
shredding `Null` emits one triple per descendant leaf at the node's
pre-presence definition level `d`, shredding the empty-but-present container
emits the level `d + 1` (exactly one greater), every element or entry of a
non-empty container sits at definition level at least `d + 2` (strictly above
the empty case), and assembly maps each of the four shredded forms back to
exactly the original Null or empty value. -/
theorem C4_null_vs_empty (nm nmk nmw : String) (e k w : SchemaNode)
    (r rd d : Nat) (v : NestedValue) (rest : ValueList)
    (kv vv : NestedValue) (erest : EntryList)
    (hwl : wellFormed (.mk .listKind 1 (.cons nm e .nil)) = true)
    (hwm : wellFormed (.mk .mapKind 1
      (.cons nm (.mk .structKind 2 (.cons nmk k (.cons nmw w .nil))) .nil)) = true)
    (hr : r ≤ rd)
    (hcl : conformsElems e (.cons v rest) = true)
    (hcm : conformsEntries k w (.cons kv vv erest) = true) :
    shredValue (.mk .listKind 1 (.cons nm e .nil)) .null r rd d
      = constStreams (.mk .listKind 1 (.cons nm e .nil)) ⟨r, d, none⟩
    ∧ shredValue (.mk .listKind 1 (.cons nm e .nil)) (.list .nil) r rd d
      = .node (.cons (constStreams e ⟨r, d + 1, none⟩) .nil)
    ∧ shredValue (.mk .mapKind 1
        (.cons nm (.mk .structKind 2 (.cons nmk k (.cons nmw w .nil))) .nil)) .null r rd d
      = constStreams (.mk .mapKind 1
          (.cons nm (.mk .structKind 2 (.cons nmk k (.cons nmw w .nil))) .nil)) ⟨r, d, none⟩
    ∧ shredValue (.mk .mapKind 1
        (.cons nm (.mk .structKind 2 (.cons nmk k (.cons nmw w .nil))) .nil))
        (.mapEntries .nil) r rd d
      = .node (.cons (constStreams (.mk .structKind 2 (.cons nmk k (.cons nmw w .nil)))
          ⟨r, d + 1, none⟩) .nil)
    ∧ allLeaves (defsGE (d + 2)) (shredValue (.mk .listKind 1 (.cons nm e .nil))
        (.list (.cons v rest)) r rd d) = true
    ∧ allLeaves (defsGE (d + 2)) (shredValue (.mk .mapKind 1
        (.cons nm (.mk .structKind 2 (.cons nmk k (.cons nmw w .nil))) .nil))
        (.mapEntries (.cons kv vv erest)) r rd d) = true
    ∧ assembleValue (.mk .listKind 1 (.cons nm e .nil))
        (shredValue (.mk .listKind 1 (.cons nm e .nil)) .null r rd d) rd d = .ok .null
    ∧ assembleValue (.mk .listKind 1 (.cons nm e .nil))
        (shredValue (.mk .listKind 1 (.cons nm e .nil)) (.list .nil) r rd d) rd d
        = .ok (.list .nil)
    ∧ assembleValue (.mk .mapKind 1
        (.cons nm (.mk .structKind 2 (.cons nmk k (.cons nmw w .nil))) .nil))
        (shredValue (.mk .mapKind 1
          (.cons nm (.mk .structKind 2 (.cons nmk k (.cons nmw w .nil))) .nil))
          .null r rd d) rd d = .ok .null
    ∧ assembleValue (.mk .mapKind 1
        (.cons nm (.mk .structKind 2 (.cons nmk k (.cons nmw w .nil))) .nil))
        (shredValue (.mk .mapKind 1
          (.cons nm (.mk .structKind 2 (.cons nmk k (.cons nmw w .nil))) .nil))
          (.mapEntries .nil) r rd d) rd d = .ok (.mapEntries .nil) := by
  rcases wellFormed_parts hwl with ⟨_, hshapeL, hwcL⟩
  have herep : SchemaNode.repetition e = 2 := by
    have h := hshapeL
    simp only [kindShapeOK, beq_iff_eq] at h
    exact h
  rcases wellFormedC_parts hwcL with ⟨hwe, _⟩
  rcases wellFormed_parts hwm with ⟨_, _, hwcM⟩
  rcases wellFormedC_parts hwcM with ⟨hwkv, _⟩
  rcases wellFormed_parts hwkv with ⟨_, _, hwkvc⟩
  rcases wellFormedC_parts hwkvc with ⟨hwk, hwrest⟩
  rcases wellFormedC_parts hwrest with ⟨hww, _⟩
  have hclv : conforms e v = true ∧ conformsElems e rest = true := by
    have h0 : (conforms e v && conformsElems e rest) = true := hcl
    simpa [Bool.and_eq_true] using h0
  have hcme : conforms k kv = true ∧ conforms w vv = true
      ∧ conformsEntries k w erest = true := by
    have h0 : (conforms k kv && conforms w vv && conformsEntries k w erest) = true := hcm
    simpa [Bool.and_eq_true, and_assoc] using h0
  refine ⟨shredValue_null _ r rd d, ?_, shredValue_null _ r rd d, ?_, ?_, ?_, ?_, ?_, ?_, ?_⟩
  · rw [shredValue_list_nil]
    exact rfl
  · rw [shredValue_map_nil]
    exact rfl
  · -- list element leaves sit at definition level at least d + 2
    have hIv := shredInv v e r (rd + 1) (d + 1) hwe hclv.1 (by omega)
    have hvnn : v ≠ .null := by
      intro hveq
      subst hveq
      have h1 := conforms_null_rep hclv.1
      rw [h1] at herep
      exact absurd herep (by decide)
    have hA : allLeaves (defsGE (d + 2)) (shredValue e v r (rd + 1) (d + 1)) = true := by
      have h4 := hIv.2.2.2.1 hvnn
      rw [herep] at h4
      exact h4
    have hTI := shredInvElems rest e rd (d + 1) hwe herep hclv.2
    rw [shredValue_list_cons]
    exact allLeaves_node1 _ _ (allLeaves_append _ _ _
      (fun x y hx hy => defsGE_append (d + 2) x y hx hy) _ e _
      hIv.1 hTI.1 hA hTI.2.2.1)
  · -- map entry leaves sit at definition level at least d + 2
    have hIk := shredInv kv k r (rd + 1 + repInc k.repetition) (d + 2) hwk hcme.1 (by omega)
    have hIw := shredInv vv w r (rd + 1 + repInc w.repetition) (d + 2) hww hcme.2.1 (by omega)
    have hEshape : shapeOf (.mk .structKind 2 (.cons nmk k (.cons nmw w .nil)))
        (Streams.node (.cons (shredValue k kv r (rd + 1 + repInc k.repetition) (d + 2))
          (.cons (shredValue w vv r (rd + 1 + repInc w.repetition) (d + 2)) .nil)))
        = true := by
      simp [shapeOf, shapeOfC, hIk.1, hIw.1]
    have hE2 := allLeaves_node2 (defsGE (d + 2)) _ _ hIk.2.2.1 hIw.2.2.1
    have hTI := shredInvEntries erest k w nmk nmw rd (d + 1) hwk hww hcme.2.2
    rw [shredValue_map_cons]
    exact allLeaves_node1 _ _ (allLeaves_append _ _ _
      (fun x y hx hy => defsGE_append (d + 2) x y hx hy) _
      (.mk .structKind 2 (.cons nmk k (.cons nmw w .nil))) _
      hEshape hTI.1 hE2 hTI.2.2.1)
  · exact rt_value .null (.mk .listKind 1 (.cons nm e .nil)) r rd d hwl rfl hr
  · exact rt_value (.list .nil) (.mk .listKind 1 (.cons nm e .nil)) r rd d hwl rfl hr
  · exact rt_value .null (.mk .mapKind 1
      (.cons nm (.mk .structKind 2 (.cons nmk k (.cons nmw w .nil))) .nil)) r rd d hwm rfl hr
  · exact rt_value (.mapEntries .nil) (.mk .mapKind 1
      (.cons nm (.mk .structKind 2 (.cons nmk k (.cons nmw w .nil))) .nil)) r rd d hwm rfl hr

theorem C4_null_vs_empty_witness :
    shredValue (.mk .listKind 1 (.cons "element" (.mk (.primitive .int64) 2 .nil) .nil))
        .null 0 0 0
      = constStreams (.mk .listKind 1
          (.cons "element" (.mk (.primitive .int64) 2 .nil) .nil)) ⟨0, 0, none⟩
    ∧ shredValue (.mk .listKind 1 (.cons "element" (.mk (.primitive .int64) 2 .nil) .nil))
        (.list .nil) 0 0 0
      = .node (.cons (constStreams (.mk (.primitive .int64) 2 .nil) ⟨0, 0 + 1, none⟩) .nil)
    ∧ shredValue (.mk .mapKind 1 (.cons "key_value" (.mk .structKind 2
        (.cons "key" Fixtures.keyLeaf (.cons "value" Fixtures.int64Value .nil))) .nil))
        .null 0 0 0
      = constStreams (.mk .mapKind 1 (.cons "key_value" (.mk .structKind 2
          (.cons "key" Fixtures.keyLeaf (.cons "value" Fixtures.int64Value .nil))) .nil))
          ⟨0, 0, none⟩
    ∧ shredValue (.mk .mapKind 1 (.cons "key_value" (.mk .structKind 2
        (.cons "key" Fixtures.keyLeaf (.cons "value" Fixtures.int64Value .nil))) .nil))
        (.mapEntries .nil) 0 0 0
      = .node (.cons (constStreams (.mk .structKind 2
          (.cons "key" Fixtures.keyLeaf (.cons "value" Fixtures.int64Value .nil)))
          ⟨0, 0 + 1, none⟩) .nil)
    ∧ allLeaves (defsGE (0 + 2)) (shredValue (.mk .listKind 1
        (.cons "element" (.mk (.primitive .int64) 2 .nil) .nil))
        (.list (.cons (.scalar (.intV 5)) .nil)) 0 0 0) = true
    ∧ allLeaves (defsGE (0 + 2)) (shredValue (.mk .mapKind 1 (.cons "key_value"
        (.mk .structKind 2 (.cons "key" Fixtures.keyLeaf
          (.cons "value" Fixtures.int64Value .nil))) .nil))
        (.mapEntries (.cons (.scalar (.strV "a")) (.scalar (.intV 7)) .nil)) 0 0 0) = true
    ∧ assembleValue (.mk .listKind 1 (.cons "element" (.mk (.primitive .int64) 2 .nil) .nil))
        (shredValue (.mk .listKind 1 (.cons "element" (.mk (.primitive .int64) 2 .nil) .nil))
          .null 0 0 0) 0 0 = .ok .null
    ∧ assembleValue (.mk .listKind 1 (.cons "element" (.mk (.primitive .int64) 2 .nil) .nil))
        (shredValue (.mk .listKind 1 (.cons "element" (.mk (.primitive .int64) 2 .nil) .nil))
          (.list .nil) 0 0 0) 0 0 = .ok (.list .nil)
    ∧ assembleValue (.mk .mapKind 1 (.cons "key_value" (.mk .structKind 2
        (.cons "key" Fixtures.keyLeaf (.cons "value" Fixtures.int64Value .nil))) .nil))
        (shredValue (.mk .mapKind 1 (.cons "key_value" (.mk .structKind 2
          (.cons "key" Fixtures.keyLeaf (.cons "value" Fixtures.int64Value .nil))) .nil))
          .null 0 0 0) 0 0 = .ok .null
    ∧ assembleValue (.mk .mapKind 1 (.cons "key_value" (.mk .structKind 2
        (.cons "key" Fixtures.keyLeaf (.cons "value" Fixtures.int64Value .nil))) .nil))
        (shredValue (.mk .mapKind 1 (.cons "key_value" (.mk .structKind 2
          (.cons "key" Fixtures.keyLeaf (.cons "value" Fixtures.int64Value .nil))) .nil))
          (.mapEntries .nil) 0 0 0) 0 0 = .ok (.mapEntries .nil) :=
  C4_null_vs_empty "element" "key" "value" (.mk (.primitive .int64) 2 .nil)
    Fixtures.keyLeaf Fixtures.int64Value 0 0 0 (.scalar (.intV 5)) .nil
    (.scalar (.strV "a")) (.scalar (.intV 7)) .nil
    (by decide) (by decide) (by decide) (by decide) (by decide)

end Parquet

namespace Parquet

/-- C5: Level Calculus values — for a well-formed Required-root schema whose
level computation succeeds, every node reachable by a child-index path is
assigned a maximum repetition level equal to the number of Repeated nodes on
the root-to-node path inclusive and a maximum definition level equal to the
number of Optional-or-Repeated nodes on that path inclusive; both values are
non-decreasing from every node to each of its children, and the root's
maximum repetition level is 0. -/
theorem C5_level_calculus (n : SchemaNode) (p : List Nat) (m : SchemaNode) (lt : LevelTree)
    (hw : wellFormedRoot n = true) (hm : getNode n p = some m)
    (hok : computeLevels n = .ok lt) :
    (∃ l codes, getLevel lt p = some l ∧ pathCodes n p = some codes
      ∧ LevelTree.maxRepetitionLevel l = countRepeated codes
      ∧ LevelTree.maxDefinitionLevel l = countPresence codes)
    ∧ monoLevels lt = true
    ∧ LevelTree.maxRepetitionLevel lt = 0 := by
  have hok2 : computeLevelsAt n 0 0 = .ok lt := hok
  refine ⟨?_, mono_clAt n 0 0 lt hok2, ?_⟩
  · rcases getLevel_spec p n 0 0 m lt hm hok2 with ⟨l, codes, h1, h2, h3, h4⟩
    exact ⟨l, codes, h1, h2, by simpa using h3, by simpa using h4⟩
  · rcases n with ⟨k, rep, cs⟩
    rcases computeLevelsAt_ok_shape k rep cs 0 0 lt hok2 with ⟨ls, _, rfl⟩
    have hrep0 : rep = 0 := by
      have h := band_right hw
      simpa [SchemaNode.repetition] using h
    subst hrep0
    rfl

theorem C5_level_calculus_witness :
    ((∃ l codes, getLevel (.mk 0 0 (.cons (.mk 0 1 (.cons (.mk 1 2 (.cons (.mk 2 3
          (.cons (.mk 2 3 .nil) (.cons (.mk 2 4 .nil) .nil))) .nil)) .nil)) .nil))
          [0, 0, 0, 0] = some l
      ∧ pathCodes (.mk .structKind 0 (.cons "doc" Fixtures.listOfMaps .nil)) [0, 0, 0, 0]
          = some codes
      ∧ LevelTree.maxRepetitionLevel l = countRepeated codes
      ∧ LevelTree.maxDefinitionLevel l = countPresence codes)
    ∧ monoLevels (.mk 0 0 (.cons (.mk 0 1 (.cons (.mk 1 2 (.cons (.mk 2 3
        (.cons (.mk 2 3 .nil) (.cons (.mk 2 4 .nil) .nil))) .nil)) .nil)) .nil)) = true
    ∧ LevelTree.maxRepetitionLevel (.mk 0 0 (.cons (.mk 0 1 (.cons (.mk 1 2 (.cons (.mk 2 3
        (.cons (.mk 2 3 .nil) (.cons (.mk 2 4 .nil) .nil))) .nil)) .nil)) .nil)) = 0) :=
  C5_level_calculus (.mk .structKind 0 (.cons "doc" Fixtures.listOfMaps .nil)) [0, 0, 0, 0]
    Fixtures.keyLeaf
    (.mk 0 0 (.cons (.mk 0 1 (.cons (.mk 1 2 (.cons (.mk 2 3
      (.cons (.mk 2 3 .nil) (.cons (.mk 2 4 .nil) .nil))) .nil)) .nil)) .nil))
    (by decide) (by decide) (by decide)

/-- C6: LeafTriple value-presence invariant — every triple emitted by the
Shredder carries a primitive value exactly when its definition level equals
the leaf's maximum definition level, and any streams accepted by the
Assembler's row validation (an `ok` result of `assembleRow`) satisfy the same
invariant at every leaf. -/
theorem C6_value_presence (n : SchemaNode) (v : NestedValue) (s : Streams) (r rd d : Nat)
    (hw : wellFormed n = true) (hc : conforms n v = true) (hr : r ≤ rd) :
    presenceOK n (shredValue n v r rd d) rd d = true
    ∧ (exceptIsOk (assembleRow n s) = true → presenceOK n s (rootRepDepth n) 0 = true) := by
  refine ⟨(shredInv v n r rd d hw hc hr).2.2.2.2.2, ?_⟩
  intro hok
  simp only [assembleRow] at hok
  by_cases h1 : shapeOf n s = true
  · by_cases h2 : levelsInRange n s (rootRepDepth n) 0 = true
    · by_cases h3 : presenceOK n s (rootRepDepth n) 0 = true
      · exact h3
      · rw [if_neg (by simp [h1]), if_neg (by simp [h2]), if_pos (by simp [h3])] at hok
        simp [exceptIsOk] at hok
    · rw [if_neg (by simp [h1]), if_pos (by simp [h2])] at hok
      simp [exceptIsOk] at hok
  · rw [if_pos (by simp [h1])] at hok
    simp [exceptIsOk] at hok

theorem C6_value_presence_witness :
    presenceOK Fixtures.userStruct
        (shredValue Fixtures.userStruct Fixtures.userRow0 0 0 0) 0 0 = true
    ∧ (exceptIsOk (assembleRow Fixtures.userStruct
          (shredRow Fixtures.userStruct Fixtures.userRow0)) = true →
        presenceOK Fixtures.userStruct (shredRow Fixtures.userStruct Fixtures.userRow0)
          (rootRepDepth Fixtures.userStruct) 0 = true) :=
  C6_value_presence Fixtures.userStruct Fixtures.userRow0
    (shredRow Fixtures.userStruct Fixtures.userRow0) 0 0 0
    (by decide) (by decide) (by decide)

/-- C7: Level Calculus contract — `computeLevels` is a pure function
(recomputation on an unchanged schema yields an identical result), it
succeeds exactly when no node of the schema has an unrecognized repetition
code, no primitive node has children, and no Map's key child is Repeated, and
on every well-formed schema it is total, returning a level tree. -/
theorem C7_computeLevels_contract (n : SchemaNode) :
    exceptIsOk (computeLevels n) = !hasSchemaFault n
    ∧ (wellFormed n = true → ∃ lt, computeLevels n = .ok lt)
    ∧ computeLevels n = computeLevels n := by
  refine ⟨clAt_isOk_eq n 0 0, ?_, rfl⟩
  intro hw
  have h1 : exceptIsOk (computeLevels n) = true := by
    have h := clAt_isOk_eq n 0 0
    rw [wf_noFault n hw] at h
    simpa using h
  rcases hx : computeLevels n with e | lt
  · rw [hx] at h1
    exact Bool.noConfusion h1
  · exact ⟨lt, rfl⟩

theorem C7_computeLevels_contract_witness :
    exceptIsOk (computeLevels Fixtures.listOfMaps) = !hasSchemaFault Fixtures.listOfMaps
    ∧ (∃ lt, computeLevels Fixtures.listOfMaps = .ok lt)
    ∧ computeLevels Fixtures.listOfMaps = computeLevels Fixtures.listOfMaps :=
  ⟨(C7_computeLevels_contract Fixtures.listOfMaps).1,
   (C7_computeLevels_contract Fixtures.listOfMaps).2.1 (by decide),
   (C7_computeLevels_contract Fixtures.listOfMaps).2.2⟩

/-- C8: Error locality and row atomicity — prepending one aligned row's
streams to a batch makes the Assembler produce exactly one result for that
row followed by the unchanged results of the rest of the batch, so an error
in one row never aborts the batch; a row whose levels exceed the computed
maxima yields `LevelOutOfRange` for that row alone, and a row breaking the
value-presence invariant yields `ValuePresenceMismatch`, never a silently
repaired value. -/
theorem C8_error_locality (n : SchemaNode) (a b : Streams) (cb : List Streams)
    (hsa : shapeOf n a = true) (hsb : shapeOf n b = true)
    (hca : allLeaves (chunkAt 0) a = true) (hlb : allLeaves (headLow 0) b = true)
    (hsplitb : splitStreams 0 b = some cb) :
    assemble n (appendStreams a b) = assembleRow n a :: assemble n b
    ∧ (levelsInRange n a (rootRepDepth n) 0 = false →
        assembleRow n a = .error .levelOutOfRange)
    ∧ (levelsInRange n a (rootRepDepth n) 0 = true →
        presenceOK n a (rootRepDepth n) 0 = false →
        assembleRow n a = .error .valuePresenceMismatch) := by
  refine ⟨assemble_append n a b cb hsa hsb hca hlb hsplitb, ?_, ?_⟩
  · intro hlv
    simp [assembleRow, hsa, hlv]
  · intro hlv hpr
    simp [assembleRow, hsa, hlv, hpr]

theorem C8_error_locality_witness :
    assemble Fixtures.userStruct
        (appendStreams (constStreams Fixtures.userStruct ⟨0, 99, none⟩)
          (shredRow Fixtures.userStruct Fixtures.userRow0))
      = assembleRow Fixtures.userStruct (constStreams Fixtures.userStruct ⟨0, 99, none⟩)
        :: assemble Fixtures.userStruct (shredRow Fixtures.userStruct Fixtures.userRow0)
    ∧ (levelsInRange Fixtures.userStruct (constStreams Fixtures.userStruct ⟨0, 99, none⟩)
          (rootRepDepth Fixtures.userStruct) 0 = false →
        assembleRow Fixtures.userStruct (constStreams Fixtures.userStruct ⟨0, 99, none⟩)
          = .error .levelOutOfRange)
    ∧ (levelsInRange Fixtures.userStruct (constStreams Fixtures.userStruct ⟨0, 99, none⟩)
          (rootRepDepth Fixtures.userStruct) 0 = true →
        presenceOK Fixtures.userStruct (constStreams Fixtures.userStruct ⟨0, 99, none⟩)
          (rootRepDepth Fixtures.userStruct) 0 = false →
        assembleRow Fixtures.userStruct (constStreams Fixtures.userStruct ⟨0, 99, none⟩)
          = .error .valuePresenceMismatch) :=
  C8_error_locality Fixtures.userStruct (constStreams Fixtures.userStruct ⟨0, 99, none⟩)
    (shredRow Fixtures.userStruct Fixtures.userRow0)
    [shredRow Fixtures.userStruct Fixtures.userRow0]
    (by decide) (by decide) (by decide) (by decide) (by decide)

/-- C9: Assembler row-boundary invariant — after shredding a conforming
batch, every leaf holds exactly one repetition-level-0 chunk per row (all
leaf cursors advance together), every leaf's next triple at a row boundary
has repetition level 0, the number of rows recovered equals the number of
rows shredded, and the `i`-th row slice is exactly the `i`-th row's own
shredded streams. -/
theorem C9_row_boundaries (n : SchemaNode) (vs : List NestedValue)
    (hw : wellFormed n = true) (hca : conformsAll n vs = true) :
    uniformChunks vs.length (shred n vs) = true
    ∧ rowAligned (shred n vs) = true
    ∧ numRows (shred n vs) = vs.length
    ∧ ∀ i, rowSlice i (shred n vs) = (rowChunks n vs)[i]? := by
  have hsp := shred_split vs n hw hca
  have hrows := rowSlice_of_split (shred n vs) (rowChunks n vs) hsp.2.2
  refine ⟨shred_uniform vs n hw hca, hsp.2.1, ?_, hrows.1⟩
  rw [hrows.2]
  simp [rowChunks]

theorem C9_row_boundaries_witness :
    uniformChunks Fixtures.userRows.length
        (shred Fixtures.userStruct Fixtures.userRows) = true
    ∧ rowAligned (shred Fixtures.userStruct Fixtures.userRows) = true
    ∧ numRows (shred Fixtures.userStruct Fixtures.userRows) = Fixtures.userRows.length
    ∧ ∀ i, rowSlice i (shred Fixtures.userStruct Fixtures.userRows)
        = (rowChunks Fixtures.userStruct Fixtures.userRows)[i]? :=
  C9_row_boundaries Fixtures.userStruct Fixtures.userRows (by decide) (by decide)

end Parquet

/-- C10: The plain-fixture generator builds exactly one 20-row table whose
columns are, for each `i` below 20: `id = i`, `bigint_col = i * 1000000000`,
`float_col = i * 1.5`, `string_col = "row_"` followed by `i` zero-padded to
two digits; it writes with format version 1.0, no compression, dictionary
encoding disabled and statistics disabled, and rerunning the generator
produces identical table content. -/
theorem C10_plain_fixture :
    PlainFixture.num_rows = 20
    ∧ PlainFixture.id_col
      = [0, 1, 2, 3, 4, 5, 6, 7, 8, 9, 10, 11, 12, 13, 14, 15, 16, 17, 18, 19]
    ∧ PlainFixture.bigint_col
      = [0, 1000000000, 2000000000, 3000000000, 4000000000, 5000000000, 6000000000,
         7000000000, 8000000000, 9000000000, 10000000000, 11000000000, 12000000000,
         13000000000, 14000000000, 15000000000, 16000000000, 17000000000, 18000000000,
         19000000000]
    ∧ PlainFixture.float_col
      = [0, 3/2, 3, 9/2, 6, 15/2, 9, 21/2, 12, 27/2, 15, 33/2, 18, 39/2, 21, 45/2,
         24, 51/2, 27, 57/2]
    ∧ PlainFixture.string_col
      = ["row_00", "row_01", "row_02", "row_03", "row_04", "row_05", "row_06", "row_07",
         "row_08", "row_09", "row_10", "row_11", "row_12", "row_13", "row_14", "row_15",
         "row_16", "row_17", "row_18", "row_19"]
    ∧ PlainFixture.writerOptions
      = { version := "1.0", compression := "none",
          use_dictionary := false, write_statistics := false }
    ∧ PlainFixture.generateTable () = PlainFixture.generateTable () := by
  refine ⟨rfl, by decide, by decide, ?_, by decide, rfl, rfl⟩
  norm_num [PlainFixture.float_col, PlainFixture.num_rows, List.range_succ]
